import Mathlib

/-!
# N-dimensional Minesweeper engine (`src/main.c`): embedding and properties

Conventions of the embedding.

* C arrays (`dimensions`, `coord`, `offset`, `cells`) are Lean lists.  The
  field `n_dim` is the length of `dimensions`; a loop
  `for (n = 0; n < board->n_dim; n++)` that reads `a[n]`, `b[n]` in step is a
  recursion that peels the heads of the lists `a`, `b`.
* `size_t` values are `Nat`, `int` values are `Int`.  The `size_t` arithmetic
  that depends on arguments of any size is reduced modulo `2^64`: the index
  sum of `board__coord_to_index`, the product and the byte count of
  `board__init`.  The other `size_t` expressions stay within
  `[0, total cells]` on a valid board, which has fewer than `2^64` cells, and
  `board__flatten_coord` is taken without wrap-around.
* Loops that the C code leaves by a data-dependent test (`goto start`,
  `do ... while`, recursion) take a fuel argument and return `none` when the
  fuel runs out; the properties below prove that the fuel handed over by the
  callers is enough, so `none` is never the answer on valid inputs.
* The parts of `main` that act on the board (set-up sequence, display-code
  mapping, right-click branch) are functions of the board; a failed `assert`
  is the result `none` or `Except.error`.
-/

namespace Mines

/-! ## Data model -/

/-- States of a cell, `enum Board__Cell__State`. -/
inductive Board__Cell__State where
  | COVERED
  | UNCOVERED
  | FLAGGED
  | FLAGGED_NOT_MINE
  deriving DecidableEq, Repr

/-- One cell, `struct Board__Cell`. -/
structure Board__Cell where
  neighbour_mine_amount : Nat
  mine : Bool
  state : Board__Cell__State
  deriving DecidableEq, Repr

/-- The all-zero cell that `memset(board->cells, 0, size)` produces. -/
instance : Inhabited Board__Cell :=
  ⟨⟨0, false, Board__Cell__State.COVERED⟩⟩

/-- The board, `struct Board`; `n_dim` is the length of `dimensions`. -/
structure Board where
  dimensions : List Nat
  cells : List Board__Cell
  deriving DecidableEq, Repr

/-- Field `n_dim` of `struct Board`. -/
def Board.n_dim (board : Board) : Nat := board.dimensions.length

/-- Read of `board->cells[index]`. -/
def Board.cell (board : Board) (index : Nat) : Board__Cell :=
  board.cells.getD index default

/-- Write of `board->cells[index]`. -/
def Board.set_cell (board : Board) (index : Nat) (cell : Board__Cell) : Board :=
  { board with cells := board.cells.set index cell }

/-- Assignment `cell->state = state` with `cell = &board->cells[index]`. -/
def Board.set_state (board : Board) (index : Nat) (state : Board__Cell__State) : Board :=
  board.set_cell index { board.cell index with state := state }

/-- Assignment `cell->neighbour_mine_amount = amount` with
`cell = &board->cells[index]`. -/
def Board.set_neighbour_mine_amount (board : Board) (index : Nat) (amount : Nat) : Board :=
  board.set_cell index { board.cell index with neighbour_mine_amount := amount }

/-! ## Coordinates -/

/-- Loop of `board__coord_to_index`: `index += coord[n] * multiplier;
multiplier *= dimensions[n]`, in `size_t` arithmetic (modulo `2^64`). -/
def coord_to_index_loop : List Nat → List Nat → Nat → Nat → Nat
  | d :: ds, c :: cs, index, multiplier =>
      coord_to_index_loop ds cs ((index + c * multiplier) % 2 ^ 64) (multiplier * d % 2 ^ 64)
  | _, _, index, _ => index

/-- Function `board__coord_to_index`. -/
def board__coord_to_index (board : Board) (coord : List Nat) : Nat :=
  coord_to_index_loop board.dimensions coord 0 1

/-- The statement `a[0]++` on an array given as a list. -/
def incr_first {α : Type} [Add α] [One α] : List α → List α
  | [] => []
  | a :: as => (a + 1) :: as

/-- Carry loop of `board__loop_cells` (carry flag, dimensions, coord). -/
def loop_cells_carry : Bool → List Nat → List Nat → List Nat
  | carry, d :: ds, c :: cs =>
      let c1 := if carry then c + 1 else c
      if c1 = d then 0 :: loop_cells_carry true ds cs
      else c1 :: loop_cells_carry false ds cs
  | _, _, cs => cs

/-- Function `board__loop_cells`: the new `coord` and the returned flag. -/
def board__loop_cells (board : Board) (coord : List Nat) : List Nat × Bool :=
  let coord1 := loop_cells_carry false board.dimensions (incr_first coord)
  (coord1, coord1.any (fun c => c != 0))

/-! ## Neighbour enumeration -/

/-- Carry loop of `board__loop_neighbours` (label `cont`). -/
def loop_neighbours_carry : Bool → List Int → List Int
  | _, [] => []
  | carry, o :: os =>
      let o1 := if carry then o + 1 else o
      if o1 = 2 then (-1) :: loop_neighbours_carry true os
      else o1 :: loop_neighbours_carry false os

/-- Last loop of `board__loop_neighbours`: `none` stands for `goto start`,
`some nc` for the filled `neighbour_coord_ret`. -/
def loop_neighbours_bounds : List Nat → List Int → List Nat → Option (List Nat)
  | d :: ds, o :: os, c :: cs =>
      if o = -1 ∧ c = 0 then none
      else if o = 1 ∧ c = d - 1 then none
      else (loop_neighbours_bounds ds os cs).map (fun r => ((c : Int) + o).toNat :: r)
  | _, _, _ => some []

/-- Body of `board__loop_neighbours` from label `start`, one unit of fuel per
pass through `start`.  `none`: fuel exhausted; `some none`: `return false`;
`some (some (offset, neighbour_coord_ret))`: `return true`. -/
def loop_neighbours_fuel :
    Nat → List Nat → List Int → List Nat → Option (Option (List Int × List Nat))
  | 0, _, _, _ => none
  | fuel + 1, dims, offset, coord =>
      let offset1 := incr_first offset
      if offset1.all (fun o => o == 0) then some none
      else
        let offset2 := loop_neighbours_carry false offset1
        match loop_neighbours_bounds dims offset2 coord with
        | none => loop_neighbours_fuel fuel dims offset2 coord
        | some nc => some (some (offset2, nc))

/-- Function `board__loop_neighbours`; from an offset with entries in
`{-1, 0, 1}` at most `3 ^ n_dim` passes through `start` happen. -/
def board__loop_neighbours (board : Board) (offset : List Int) (coord : List Nat) :
    Option (Option (List Int × List Nat)) :=
  loop_neighbours_fuel (3 ^ board.n_dim) board.dimensions offset coord

/-- The `do { body } while (board__loop_cells(board, coord));` loop shared by
`board__compute_neighbour_values` and `board__uncover_all_mines`. -/
def do_while_loop_cells (body : Board → List Nat → Option Board) :
    Nat → Board → List Nat → Option Board
  | 0, _, _ => none
  | fuel + 1, board, coord =>
      match body board coord with
      | none => none
      | some board1 =>
          match board__loop_cells board1 coord with
          | (coord1, true) => do_while_loop_cells body fuel board1 coord1
          | (_, false) => some board1

/-- Number of cells of the board, the bound on the iterations of a
`do ... while (board__loop_cells ...)` loop. -/
def Board.length (board : Board) : Nat := board.dimensions.prod

/-! ## Neighbour counts -/

/-- Inner `while (board__loop_neighbours(...))` loop of
`board__compute_neighbour_values`, accumulating `neighbour_mine_amount`. -/
def count_mines_while : Nat → Board → List Int → List Nat → Nat → Option Nat
  | 0, _, _, _, _ => none
  | fuel + 1, board, offset, center_coord, neighbour_mine_amount =>
      match board__loop_neighbours board offset center_coord with
      | none => none
      | some none => some neighbour_mine_amount
      | some (some (offset1, coord)) =>
          let index := board__coord_to_index board coord
          let cell := board.cell index
          count_mines_while fuel board offset1 center_coord
            (if cell.mine then neighbour_mine_amount + 1 else neighbour_mine_amount)

/-- Body of the `do` loop of `board__compute_neighbour_values`. -/
def compute_neighbour_values_body (board : Board) (center_coord : List Nat) : Option Board :=
  match count_mines_while (3 ^ board.n_dim) board
      (List.replicate board.n_dim 0) center_coord 0 with
  | none => none
  | some neighbour_mine_amount =>
      let index := board__coord_to_index board center_coord
      let cell := board.cell index
      some (board.set_neighbour_mine_amount index
        (if cell.mine then 0 else neighbour_mine_amount))

/-- Function `board__compute_neighbour_values`. -/
def board__compute_neighbour_values (board : Board) : Option Board :=
  do_while_loop_cells compute_neighbour_values_body board.length board
    (List.replicate board.n_dim 0)

/-! ## Reveal -/

/-- Body of the `do` loop of `board__uncover_all_mines`. -/
def uncover_all_mines_body (board : Board) (coord : List Nat) : Option Board :=
  let index := board__coord_to_index board coord
  let cell := board.cell index
  if cell.mine ∧ cell.state = Board__Cell__State.COVERED then
    some (board.set_state index Board__Cell__State.UNCOVERED)
  else if ¬ cell.mine ∧ cell.state = Board__Cell__State.FLAGGED then
    some (board.set_state index Board__Cell__State.FLAGGED_NOT_MINE)
  else some board

/-- Function `board__uncover_all_mines`. -/
def board__uncover_all_mines (board : Board) : Option Board :=
  do_while_loop_cells uncover_all_mines_body board.length board
    (List.replicate board.n_dim 0)

mutual
/-- Function `board__uncover_zero_neighbour_cells`, one unit of fuel per call
and per loop iteration.  The argument `log` is a ghost variable: it records the
coordinates whose neighbours are enumerated and never influences the board. -/
def uncover_zero_fuel :
    Nat → Board → List (List Nat) → List Nat → Option (Board × List (List Nat))
  | 0, _, _, _ => none
  | fuel + 1, board, log, coord =>
      let index := board__coord_to_index board coord
      let cell := board.cell index
      if cell.neighbour_mine_amount ≠ 0 then some (board, log)
      else uncover_zero_while fuel board (coord :: log) (List.replicate board.n_dim 0) coord
/-- The `while (board__loop_neighbours(...))` loop of
`board__uncover_zero_neighbour_cells`. -/
def uncover_zero_while :
    Nat → Board → List (List Nat) → List Int → List Nat → Option (Board × List (List Nat))
  | 0, _, _, _, _ => none
  | fuel + 1, board, log, offset, coord =>
      match board__loop_neighbours board offset coord with
      | none => none
      | some none => some (board, log)
      | some (some (offset1, neighbour_coord)) =>
          let index := board__coord_to_index board neighbour_coord
          let cell := board.cell index
          let cont := cell.state ≠ Board__Cell__State.UNCOVERED
          let board1 := board.set_state index Board__Cell__State.UNCOVERED
          match (if cont then uncover_zero_fuel fuel board1 log neighbour_coord
                 else some (board1, log)) with
          | none => none
          | some (board2, log2) => uncover_zero_while fuel board2 log2 offset1 coord
end

/-- Number of cells whose state is not `UNCOVERED`. -/
def Board.covered (board : Board) : Nat :=
  board.cells.countP (fun cell => cell.state ≠ Board__Cell__State.UNCOVERED)

/-- Fuel that covers every run of the cascade on the board: each of the at most
`length + 1` nested calls runs a loop of at most `3 ^ n_dim` iterations. -/
def Board.cascade_fuel (board : Board) : Nat :=
  (board.length + 1) * (3 ^ board.n_dim + 1)

/-- Function `board__uncover_zero_neighbour_cells`. -/
def board__uncover_zero_neighbour_cells (board : Board) (coord : List Nat) : Option Board :=
  (uncover_zero_fuel board.cascade_fuel board [] coord).map Prod.fst

/-- Function `board__uncover_cell`: the returned flag (`false` is a loss) and
the board after the call. -/
def board__uncover_cell (board : Board) (coord : List Nat) : Option (Bool × Board) :=
  let index := board__coord_to_index board coord
  let cell := board.cell index
  let board1 := board.set_state index Board__Cell__State.UNCOVERED
  if cell.mine then
    (board__uncover_all_mines board1).map (fun board2 => (false, board2))
  else if cell.neighbour_mine_amount = 0 then
    (board__uncover_zero_neighbour_cells board1 coord).map (fun board2 => (true, board2))
  else some (true, board1)

/-! ## Board construction and mine placement -/

/-- Loop `length *= dimensions[i]` of `board__init`, in `size_t` arithmetic. -/
def init_length_loop : List Nat → Nat → Nat
  | [], length => length
  | d :: ds, length => init_length_loop ds (length * d % 2 ^ 64)

/-- The value of `sizeof(struct Board__Cell)`: a `size_t`, a `bool` and an
`enum`, 16 bytes where `size_t` has 64 bits. -/
def sizeof_Board__Cell : Nat := 16

/-- Function `board__init` with both allocations succeeding: `none` is the
result `false`.  The byte count `size = length * sizeof(struct Board__Cell)` is
taken in `size_t` arithmetic, and the buffer that `malloc(size)` returns and
`memset` zeroes holds `size / sizeof(struct Board__Cell)` cells. -/
def board__init (dimensions : List Nat) : Option Board :=
  if dimensions.length = 0 then none
  else
    let length := init_length_loop dimensions 1
    if length = 0 then none
    else
      let size := length * sizeof_Board__Cell % 2 ^ 64
      some ⟨dimensions, List.replicate (size / sizeof_Board__Cell) default⟩

/-- Ways in which a run of `board__randomize` ends without returning. -/
inductive Fault where
  | assertion
  | starved
  deriving DecidableEq, Repr

/-- Equality of the results of a run is decidable. -/
instance decEqExceptFault {α : Type} [DecidableEq α] : DecidableEq (Except Fault α) :=
  fun a b =>
    match a, b with
    | Except.ok x, Except.ok y =>
        if h : x = y then isTrue (congrArg Except.ok h)
        else isFalse (fun e => h (Except.ok.inj e))
    | Except.error x, Except.error y =>
        if h : x = y then isTrue (congrArg Except.error h)
        else isFalse (fun e => h (Except.error.inj e))
    | Except.ok _, Except.error _ => isFalse (fun e => Except.noConfusion e)
    | Except.error _, Except.ok _ => isFalse (fun e => Except.noConfusion e)

/-- The rejection loop `while ((v = rand()) >= end);` followed by
`return v % n`, over the list of the values the next calls of `rand()` give;
with no accepted value among them the loop has not ended (`starved`). -/
def randint_while (end_ n : Int) : List Nat → Except Fault (Int × List Nat)
  | [] => Except.error Fault.starved
  | v :: rs =>
      if (v : Int) ≥ end_ then randint_while end_ n rs
      else Except.ok (Int.tmod (v : Int) n, rs)

/-- Function `randint`; `RAND_MAX` is the constant of `<stdlib.h>`. -/
def randint (RAND_MAX : Nat) (n : Int) (rs : List Nat) : Except Fault (Int × List Nat) :=
  if n + 1 = (RAND_MAX : Int) then
    match rs with
    | [] => Except.error Fault.starved
    | v :: rs1 => Except.ok ((v : Int), rs1)
  else if ¬ n ≤ (RAND_MAX : Int) then Except.error Fault.assertion
  else
    let end_ := Int.tdiv (RAND_MAX : Int) n * n
    if end_ = 0 then Except.error Fault.assertion
    else randint_while end_ n rs

/-- Conversion of a `size_t` argument to the `int` parameter of `randint`:
the value modulo `2^32`, read as a two's complement number of 32 bits. -/
def size_t_to_int (x : Nat) : Int :=
  if x % 4294967296 < 2147483648 then ((x % 4294967296 : Nat) : Int)
  else ((x % 4294967296 : Nat) : Int) - 4294967296

/-- Loop counting `open_spots` in `board__randomize`. -/
def open_spots_loop : List Board__Cell → Nat → Nat
  | [], open_spots => open_spots
  | cell :: cells, open_spots =>
      open_spots_loop cells (if ¬ cell.mine then open_spots + 1 else open_spots)

/-- Second inner loop of `board__randomize`: `some cells` when the loop leaves
by `break` after marking a mine, `none` when it runs to the last cell. -/
def place_mine_loop : List Board__Cell → Nat → Option (List Board__Cell)
  | [], _ => none
  | cell :: cells, mine_index =>
      let mine_index1 := if ¬ cell.mine then mine_index - 1 else mine_index
      if mine_index1 = 0 then some ({ cell with mine := true } :: cells)
      else (place_mine_loop cells mine_index1).map (fun r => cell :: r)

/-- Body of the outer loop of `board__randomize` on the cells, `mines_placed`
and the pending values of `rand()`: `Except.ok none` is `goto end`,
`Except.ok (some _)` the state at the end of the iteration. -/
def randomize_body (RAND_MAX : Nat) (cells : List Board__Cell) (mines_placed : Nat)
    (rs : List Nat) : Except Fault (Option (List Board__Cell × Nat × List Nat)) :=
  let open_spots := open_spots_loop cells 0
  if open_spots = 0 then Except.ok none
  else
    match randint RAND_MAX (size_t_to_int open_spots) rs with
    | Except.error e => Except.error e
    | Except.ok (v, rs1) =>
        let mine_index := (v + 1).toNat
        match place_mine_loop cells mine_index with
        | some cells1 => Except.ok (some (cells1, mines_placed + 1, rs1))
        | none => Except.ok (some (cells, mines_placed, rs1))

/-- Outer loop of `board__randomize`; the first argument counts the remaining
iterations `mine_amount - mine`. -/
def randomize_loop (RAND_MAX : Nat) :
    Nat → List Board__Cell → Nat → List Nat → Except Fault (Nat × List Board__Cell × List Nat)
  | 0, cells, mines_placed, rs => Except.ok (mines_placed, cells, rs)
  | todo + 1, cells, mines_placed, rs =>
      match randomize_body RAND_MAX cells mines_placed rs with
      | Except.error e => Except.error e
      | Except.ok none => Except.ok (mines_placed, cells, rs)
      | Except.ok (some (cells1, mines_placed1, rs1)) =>
          randomize_loop RAND_MAX todo cells1 mines_placed1 rs1

/-- Function `board__randomize`: the returned `mines_placed`, the board and the
values of `rand()` not yet consumed.  The loops over `i < board_length` run
over the cells of the board. -/
def board__randomize (RAND_MAX : Nat) (board : Board) (mine_amount : Nat) (rs : List Nat) :
    Except Fault (Nat × Board × List Nat) :=
  if board.length = 0 then Except.error Fault.assertion
  else
    match randomize_loop RAND_MAX mine_amount board.cells 0 rs with
    | Except.error e => Except.error e
    | Except.ok (mines_placed, cells, rs1) =>
        Except.ok (mines_placed, { board with cells := cells }, rs1)

/-- Driver that calls `board__loop_neighbours` from the given offset until it
returns false and collects the yielded coordinates. -/
def enumerate_neighbours : Nat → Board → List Int → List Nat → Option (List (List Nat))
  | 0, _, _, _ => none
  | fuel + 1, board, offset, coord =>
      match board__loop_neighbours board offset coord with
      | none => none
      | some none => some []
      | some (some (offset1, neighbour_coord)) =>
          (enumerate_neighbours fuel board offset1 coord).map (fun r => neighbour_coord :: r)

/-- Modelled from the spec: `board__index_to_coord` has a prototype in the
source and no body; the spec asks for the exact inverse of the mixed-radix
encoding, axis 0 least significant. -/
def index_to_coord_loop : List Nat → Nat → List Nat
  | [], _ => []
  | d :: ds, index => (index % d) :: index_to_coord_loop ds (index / d)

/-- Modelled from the spec: `board__index_to_coord`, the inverse of
`board__coord_to_index` (prototype only in the source). -/
def board__index_to_coord (board : Board) (index : Nat) : List Nat :=
  index_to_coord_loop board.dimensions index

/-! ## Specification-side notions -/

/-- A coordinate is valid: one entry per axis, `coord[n] < dimensions[n]`. -/
def valid_coord : List Nat → List Nat → Bool
  | [], [] => true
  | d :: ds, c :: cs => decide (c < d) && valid_coord ds cs
  | _, _ => false

/-- A board is valid: `n_dim ≥ 1`, every dimension `≥ 1`, one cell per
coordinate, and the number of cells is a `size_t` value (below `2^64`), as it
is for every board that is held in memory. -/
def Board.valid (board : Board) : Prop :=
  board.dimensions ≠ [] ∧ (∀ d ∈ board.dimensions, 1 ≤ d) ∧
    board.cells.length = board.dimensions.prod ∧ board.dimensions.prod < 2 ^ 64

/-- Entries of an offset vector lie in `{-1, 0, 1}`. -/
def valid_offset (offset : List Int) : Prop :=
  ∀ o ∈ offset, o = -1 ∨ o = 0 ∨ o = 1

/-- Cell at a coordinate. -/
def Board.cell_at (board : Board) (coord : List Nat) : Board__Cell :=
  board.cell (board__coord_to_index board coord)

/-- Two coordinate vectors differ by at most one on every axis. -/
def within_one : List Nat → List Nat → Bool
  | [], [] => true
  | c :: cs, x :: xs => decide (c ≤ x + 1) && decide (x ≤ c + 1) && within_one cs xs
  | _, _ => false

/-- In-bounds Moore neighbour: `x` is a valid coordinate other than `c` that
differs from `c` by at most one on every axis. -/
def moore_neighbour (dims c x : List Nat) : Bool :=
  valid_coord dims x && within_one c x && decide (x ≠ c)

/-- What one pass of the loop body of `board__uncover_all_mines` does to the
cell it visits. -/
def disclose (cell : Board__Cell) : Board__Cell :=
  if cell.mine ∧ cell.state = Board__Cell__State.COVERED then
    { cell with state := Board__Cell__State.UNCOVERED }
  else if ¬ cell.mine ∧ cell.state = Board__Cell__State.FLAGGED then
    { cell with state := Board__Cell__State.FLAGGED_NOT_MINE }
  else cell


/-! ## Auxiliary notions for the coordinate codec -/

/-- The mixed-radix sum `index + multiplier * Σ coord[n] * Π_{k<n} dimensions[k]`
in unbounded arithmetic, against which the `size_t` loop of
`board__coord_to_index` is compared. -/
def mixed_radix_loop : List Nat → List Nat → Nat → Nat → Nat
  | d :: ds, c :: cs, index, multiplier =>
      mixed_radix_loop ds cs (index + c * multiplier) (multiplier * d)
  | _, _, index, _ => index

/-! ## Auxiliary notions for the neighbour odometer -/

/-- Value of an offset vector read as a base-3 numeral with digit `o + 1`,
entry 0 least significant. -/
def offset_value : List Int → Nat
  | [] => 0
  | o :: os => (o + 1).toNat + 3 * offset_value os

/-- One odometer step of `board__loop_neighbours`: `offset[0]++` followed by
the carry loop. -/
def next_offset (offset : List Int) : List Int :=
  loop_neighbours_carry true offset

/-- Number of odometer steps that lead from the offset back to the all-zero
offset (between `1` and `3 ^ n_dim`). -/
def offset_dist (offset : List Int) : Nat :=
  let v := offset_value offset
  let c := offset_value (List.replicate offset.length 0)
  if v < c then c - v else c + 3 ^ offset.length - v

/-- The next `k` offsets the odometer runs through. -/
def offset_cycle : Nat → List Int → List (List Int)
  | 0, _ => []
  | k + 1, offset => next_offset offset :: offset_cycle k (next_offset offset)

/-- Coordinates still to be yielded by `board__loop_neighbours` from the
given offset: the offsets before the return to zero that pass the bounds
check. -/
def pending_neighbours (dims : List Nat) (coord : List Nat) (offset : List Int) :
    List (List Nat) :=
  (offset_cycle (offset_dist offset - 1) offset).filterMap
    (fun o => loop_neighbours_bounds dims o coord)

/-- The coordinates `board__loop_neighbours` yields around `coord`, in order. -/
def neighbour_list (dims : List Nat) (coord : List Nat) : List (List Nat) :=
  pending_neighbours dims coord (List.replicate dims.length 0)

/-- Offset vector that leads from `c` to `x`. -/
def offset_of (c x : List Nat) : List Int :=
  List.zipWith (fun (c x : Nat) => (x : Int) - (c : Int)) c x

/-- Interior coordinate: at least one cell away from both ends of every axis. -/
def interior_coord : List Nat → List Nat → Bool
  | [], [] => true
  | d :: ds, c :: cs => decide (1 ≤ c) && decide (c + 1 < d) && interior_coord ds cs
  | _, _ => false

/-- The relation `x = centre + o` with `0 ≤ centre[n] + o[n] < dimensions[n]` on
every axis, between a centre, an offset vector and a coordinate. -/
def offset_reaches : List Nat → List Nat → List Int → List Nat → Prop
  | [], [], [], [] => True
  | d :: ds, c :: cs, o :: os, x :: xs =>
      (0 ≤ (c : Int) + o ∧ (c : Int) + o < d ∧ (x : Int) = c + o) ∧ offset_reaches ds cs os xs
  | _, _, _, _ => False

/-- Board of the C1 counterexample: two cells on one axis, both mines, the
second one flagged; the counts are the ones `board__compute_neighbour_values`
stores. -/
def c1_board : Board :=
  ⟨[2], [⟨0, true, Board__Cell__State.COVERED⟩, ⟨0, true, Board__Cell__State.FLAGGED⟩]⟩


/-! ## Auxiliary notions for the cascade -/

mutual
/-- The function `board__uncover_zero_neighbour_cells` with its loop driven by
the list of the coordinates that `board__loop_neighbours` yields. -/
def cascade_call :
    Nat → Board → List (List Nat) → List Nat → Option (Board × List (List Nat))
  | 0, _, _, _ => none
  | fuel + 1, board, log, coord =>
      if (board.cell (board__coord_to_index board coord)).neighbour_mine_amount ≠ 0 then
        some (board, log)
      else cascade_list fuel board (coord :: log) (neighbour_list board.dimensions coord)
/-- Loop of `cascade_call` over the pending neighbour coordinates. -/
def cascade_list :
    Nat → Board → List (List Nat) → List (List Nat) → Option (Board × List (List Nat))
  | 0, _, _, _ => none
  | _ + 1, board, log, [] => some (board, log)
  | fuel + 1, board, log, neighbour_coord :: rest =>
      let index := board__coord_to_index board neighbour_coord
      let cell := board.cell index
      let cont := cell.state ≠ Board__Cell__State.UNCOVERED
      let board1 := board.set_state index Board__Cell__State.UNCOVERED
      match (if cont then cascade_call fuel board1 log neighbour_coord
             else some (board1, log)) with
      | none => none
      | some (board2, log2) => cascade_list fuel board2 log2 rest
end

/-- What the reveal functions leave alone: dimensions, number of cells, mine
flags and counts; a state either stays or becomes `UNCOVERED`, so the number of
cells that are not `UNCOVERED` does not grow. -/
structure Frame (b b' : Board) : Prop where
  dimensions : b'.dimensions = b.dimensions
  length : b'.cells.length = b.cells.length
  covered : b'.covered ≤ b.covered
  mine : ∀ j, (b'.cell j).mine = (b.cell j).mine
  amount : ∀ j, (b'.cell j).neighbour_mine_amount = (b.cell j).neighbour_mine_amount
  state : ∀ j, (b'.cell j).state = (b.cell j).state ∨
    (b'.cell j).state = Board__Cell__State.UNCOVERED

/-- One step of a zero path: `v` is an in-bounds Moore neighbour of `u` and
has neighbour count 0. -/
def zero_step (board : Board) (u v : List Nat) : Prop :=
  moore_neighbour board.dimensions u v = true ∧ (board.cell_at v).neighbour_mine_amount = 0

/-- Reachability of `z` from `c` through Moore-adjacent cells of count 0. -/
def zero_reach (board : Board) (c z : List Nat) : Prop :=
  Relation.ReflTransGen (zero_step board) c z

/-- State of the cell at a coordinate, for boards of the given dimensions. -/
def state_at (dims : List Nat) (b : Board) (x : List Nat) : Board__Cell__State :=
  (b.cell (coord_to_index_loop dims x 0 1)).state

/-- Reachability through yielded neighbours whose count (given per index by
`amt`) is 0. -/
def list_reach (dims : List Nat) (amt : Nat → Nat) : List Nat → List Nat → Prop :=
  Relation.ReflTransGen
    (fun u v => v ∈ neighbour_list dims u ∧ amt (coord_to_index_loop dims v 0 1) = 0)

/-- What one call of the cascade at `c` achieves; `new` lists the coordinates
whose neighbours were enumerated during the call. -/
structure CallPost (dims : List Nat) (amt : Nat → Nat) (b b' : Board) (c : List Nat)
    (new : List (List Nat)) : Prop where
  nodup : new.Nodup
  valid : ∀ e ∈ new, valid_coord dims e = true
  zero : ∀ e ∈ new, amt (coord_to_index_loop dims e 0 1) = 0
  fresh : ∀ e ∈ new, e = c ∨ state_at dims b e ≠ Board__Cell__State.UNCOVERED
  unc : ∀ e ∈ new, state_at dims b' e = Board__Cell__State.UNCOVERED
  closed : ∀ e ∈ new, ∀ y ∈ neighbour_list dims e,
    state_at dims b' y = Board__Cell__State.UNCOVERED
  reached : ∀ e ∈ new, amt (coord_to_index_loop dims c 0 1) = 0 ∧ list_reach dims amt c e
  sound : ∀ y, valid_coord dims y = true → state_at dims b' y ≠ state_at dims b y →
    ∃ e ∈ new, y ∈ neighbour_list dims e
  complete : ∀ y, valid_coord dims y = true →
    state_at dims b y ≠ Board__Cell__State.UNCOVERED →
    state_at dims b' y = Board__Cell__State.UNCOVERED →
    amt (coord_to_index_loop dims y 0 1) = 0 → y ∈ new
  root : amt (coord_to_index_loop dims c 0 1) = 0 → c ∈ new

/-- What the loop of the cascade over the pending coordinates `l` achieves. -/
structure ListPost (dims : List Nat) (amt : Nat → Nat) (b b' : Board) (l : List (List Nat))
    (new : List (List Nat)) : Prop where
  nodup : new.Nodup
  valid : ∀ e ∈ new, valid_coord dims e = true
  zero : ∀ e ∈ new, amt (coord_to_index_loop dims e 0 1) = 0
  fresh : ∀ e ∈ new, state_at dims b e ≠ Board__Cell__State.UNCOVERED
  unc : ∀ e ∈ new, state_at dims b' e = Board__Cell__State.UNCOVERED
  closed : ∀ e ∈ new, ∀ y ∈ neighbour_list dims e,
    state_at dims b' y = Board__Cell__State.UNCOVERED
  reached : ∀ e ∈ new, ∃ r ∈ l, amt (coord_to_index_loop dims r 0 1) = 0 ∧
    list_reach dims amt r e
  sound : ∀ y, valid_coord dims y = true → state_at dims b' y ≠ state_at dims b y →
    y ∈ l ∨ ∃ e ∈ new, y ∈ neighbour_list dims e
  complete : ∀ y, valid_coord dims y = true →
    state_at dims b y ≠ Board__Cell__State.UNCOVERED →
    state_at dims b' y = Board__Cell__State.UNCOVERED →
    amt (coord_to_index_loop dims y 0 1) = 0 → y ∈ new
  all : ∀ y ∈ l, state_at dims b' y = Board__Cell__State.UNCOVERED

/-! ## Concrete boards -/

/-- The 4 x 4 board as `board__init` returns it. -/
def c3_fresh : Board := ⟨[4, 4], List.replicate 16 default⟩

/-- The 4 x 4 board with its single mine at coordinate `(0,0)` (index 0). -/
def c3_mined : Board :=
  ⟨[4, 4], ⟨0, true, Board__Cell__State.COVERED⟩ :: List.replicate 15 default⟩

/-- The 4 x 4 board with the mine at `(0,0)` and the counts computed: the
three neighbours of the mine, at the indices 1, 4 and 5, have count 1. -/
def c3_counted : Board :=
  ⟨[4, 4], [⟨0, true, Board__Cell__State.COVERED⟩, ⟨1, false, Board__Cell__State.COVERED⟩,
    default, default,
    ⟨1, false, Board__Cell__State.COVERED⟩, ⟨1, false, Board__Cell__State.COVERED⟩,
    default, default, default, default, default, default, default, default, default, default]⟩

/-- State list of the 4 x 4 board after uncovering `(3,3)`: index 0, the mine,
is `COVERED`, the other 15 cells are `UNCOVERED`. -/
def c3_states : List Board__Cell__State :=
  Board__Cell__State.COVERED :: List.replicate 15 Board__Cell__State.UNCOVERED

/-- The 4 x 4 board after `board__uncover_cell` at `(3,3)`: every cell but the
mine is `UNCOVERED`. -/
def c3_result : Board :=
  ⟨[4, 4], [⟨0, true, Board__Cell__State.COVERED⟩, ⟨1, false, Board__Cell__State.UNCOVERED⟩,
    ⟨0, false, Board__Cell__State.UNCOVERED⟩, ⟨0, false, Board__Cell__State.UNCOVERED⟩,
    ⟨1, false, Board__Cell__State.UNCOVERED⟩, ⟨1, false, Board__Cell__State.UNCOVERED⟩,
    ⟨0, false, Board__Cell__State.UNCOVERED⟩, ⟨0, false, Board__Cell__State.UNCOVERED⟩,
    ⟨0, false, Board__Cell__State.UNCOVERED⟩, ⟨0, false, Board__Cell__State.UNCOVERED⟩,
    ⟨0, false, Board__Cell__State.UNCOVERED⟩, ⟨0, false, Board__Cell__State.UNCOVERED⟩,
    ⟨0, false, Board__Cell__State.UNCOVERED⟩, ⟨0, false, Board__Cell__State.UNCOVERED⟩,
    ⟨0, false, Board__Cell__State.UNCOVERED⟩, ⟨0, false, Board__Cell__State.UNCOVERED⟩]⟩

/-! ## Auxiliary notions for mine placement -/

/-- Number of mines among the cells. -/
def mine_count (cells : List Board__Cell) : Nat := cells.countP (fun c => c.mine)

/-- Number of cells that are not mines. -/
def open_count (cells : List Board__Cell) : Nat := cells.countP (fun c => !c.mine)

/-- Relation between a cell before and after mine placement: state and count
are kept and a mine stays a mine. -/
def keeps_cell (c c' : Board__Cell) : Prop :=
  c'.state = c.state ∧ c'.neighbour_mine_amount = c.neighbour_mine_amount ∧
    (c.mine = true → c'.mine = true)

/-- Number of positions at which a non-mine cell became a mine. -/
def changed_count (cells cells' : List Board__Cell) : Nat :=
  (List.zip cells cells').countP (fun p => !p.1.mine && p.2.mine)

/-- A board of 32766 cells on one axis, as `board__init` returns it; with
`RAND_MAX = 32767` its number of open cells is `RAND_MAX - 1`. -/
def c9_board : Board := ⟨[32766], List.replicate 32766 default⟩

/-- A board of 32768 cells on one axis, as `board__init` returns it; it has
more cells than `RAND_MAX = 32767`. -/
def c9_large : Board := ⟨[32768], List.replicate 32768 default⟩

/-- The 2 x 2 board as `board__init` returns it. -/
def c9_small : Board := ⟨[2, 2], List.replicate 4 default⟩

/-! ## Display layout, display codes and the flag toggle -/

/-- Loop of `board__flatten_coord`: axis index `n`, the remaining dimensions
and coordinates, then `x`, `x_mult`, `y`, `y_mult`.  The `size_t` arithmetic is
taken without wrap-around. -/
def flatten_coord_loop : Nat → List Nat → List Nat → Nat → Nat → Nat → Nat → Nat × Nat
  | n, d :: ds, c :: cs, x, x_mult, y, y_mult =>
      if n &&& 1 = 0 then
        flatten_coord_loop (n + 1) ds cs (x + c * x_mult) (x_mult * d + 1) y y_mult
      else
        flatten_coord_loop (n + 1) ds cs x x_mult (y + c * y_mult) (y_mult * d + 1)
  | _, _, _, x, _, y, _ => (x, y)

/-- Function `board__flatten_coord`: the pair `(*x_out, *y_out)`. -/
def board__flatten_coord (board : Board) (coord : List Nat) : Nat × Nat :=
  flatten_coord_loop 0 board.dimensions coord 0 1 0 1

/-- The right-click branch of `main` (`mouse_button_index == 3`): the flag
toggle on the cell at `hovered_cell_coord`. -/
def toggle_flag (board : Board) (coord : List Nat) : Board :=
  let index := board__coord_to_index board coord
  let cell := board.cell index
  if cell.state = Board__Cell__State.FLAGGED then
    board.set_state index Board__Cell__State.COVERED
  else if cell.state = Board__Cell__State.COVERED then
    board.set_state index Board__Cell__State.FLAGGED
  else board

/-- The display-code mapping in the render loop of `main`: the `number` handed
to `render_cell`, or `none` when one of its assertions fails. -/
def display_code (cell : Board__Cell) : Option Nat :=
  if cell.mine = false ∧ cell.state = Board__Cell__State.UNCOVERED then
    some cell.neighbour_mine_amount
  else if cell.state = Board__Cell__State.COVERED then some 102
  else if cell.state = Board__Cell__State.FLAGGED then some 100
  else if cell.state = Board__Cell__State.FLAGGED_NOT_MINE then
    if cell.mine = false then some 103 else none
  else if cell.mine = true then
    if cell.state = Board__Cell__State.UNCOVERED then some 101 else none
  else none

/-- The set-up sequence of `main`: `board__init`, `board__randomize`,
`board__compute_neighbour_values`; `none` when one of the three does not
return a board. -/
def new_game (RAND_MAX : Nat) (dimensions : List Nat) (mine_amount : Nat) (rs : List Nat) :
    Option Board :=
  match board__init dimensions with
  | none => none
  | some board =>
      match board__randomize RAND_MAX board mine_amount rs with
      | Except.error _ => none
      | Except.ok (_, board1, _) => board__compute_neighbour_values board1

/-! ## Sequences of player actions -/

/-- A player action: a left click (`board__uncover_cell`) or a right click
(the flag toggle) at a coordinate. -/
inductive Move where
  | uncover (coord : List Nat)
  | toggle (coord : List Nat)
  deriving DecidableEq, Repr

/-- Coordinate of an action. -/
def Move.coord : Move → List Nat
  | Move.uncover c => c
  | Move.toggle c => c

/-- Runs a sequence of actions; the flag records whether some
`board__uncover_cell` of the run returned `false` (a loss).  The event loop of
`main` stops passing clicks on once a call returned `false`; a run here may go
on after a loss, so the boards of `main` are among the boards of the runs. -/
def play : Board → Bool → List Move → Option (Board × Bool)
  | board, lost, [] => some (board, lost)
  | board, lost, Move.uncover c :: ms =>
      match board__uncover_cell board c with
      | none => none
      | some (safe, board1) => play board1 (lost || !safe) ms
  | board, lost, Move.toggle c :: ms => play (toggle_flag board c) lost ms

/-! ## Auxiliary notions for the display layout -/

/-- Closure of the uncovered zero cells: every `UNCOVERED` non-mine cell of
count 0 has all its in-bounds Moore neighbours `UNCOVERED`. -/
def Board.closed (board : Board) : Prop :=
  ∀ x, valid_coord board.dimensions x = true →
    (board.cell_at x).state = Board__Cell__State.UNCOVERED →
    (board.cell_at x).mine = false → (board.cell_at x).neighbour_mine_amount = 0 →
    ∀ y, moore_neighbour board.dimensions x y = true →
      (board.cell_at y).state = Board__Cell__State.UNCOVERED

/-- The counts of the board are the ones `board__compute_neighbour_values`
stores: 0 on a mine, the number of mines among the yielded neighbours
elsewhere. -/
def Board.counted (board : Board) : Prop :=
  ∀ x, valid_coord board.dimensions x = true →
    (board.cell_at x).neighbour_mine_amount =
      if (board.cell_at x).mine then 0
      else (neighbour_list board.dimensions x).countP (fun y => (board.cell_at y).mine)

/-- Frame of the reveal operations: `n_dim`, the dimensions, the number of
cells and every mine flag and neighbour count of `b` are those of `b'`. -/
def keeps_layout (b b' : Board) : Prop :=
  b'.n_dim = b.n_dim ∧ b'.dimensions = b.dimensions ∧ b'.cells.length = b.cells.length ∧
    ∀ j, (b'.cell j).mine = (b.cell j).mine ∧
      (b'.cell j).neighbour_mine_amount = (b.cell j).neighbour_mine_amount

/-! ## Coordinates: mixed-radix arithmetic -/

theorem mixed_radix_loop_acc (ds cs : List Nat) (index multiplier : Nat) :
    mixed_radix_loop ds cs index multiplier
      = index + multiplier * mixed_radix_loop ds cs 0 1 := by
  induction ds generalizing cs index multiplier with
  | nil => simp [mixed_radix_loop]
  | cons d ds ih =>
    cases cs with
    | nil => simp [mixed_radix_loop]
    | cons c cs =>
      simp only [mixed_radix_loop]
      rw [ih cs (index + c * multiplier) (multiplier * d), ih cs (0 + c * 1) (1 * d)]
      ring

theorem mixed_radix_loop_cons (d : Nat) (ds : List Nat) (c : Nat) (cs : List Nat) :
    mixed_radix_loop (d :: ds) (c :: cs) 0 1 = c + d * mixed_radix_loop ds cs 0 1 := by
  simp only [mixed_radix_loop]
  rw [mixed_radix_loop_acc]
  ring

theorem valid_coord_cons (d : Nat) (ds : List Nat) (c : Nat) (cs : List Nat) :
    valid_coord (d :: ds) (c :: cs) = true ↔ c < d ∧ valid_coord ds cs = true := by
  simp [valid_coord]

theorem valid_coord_length {ds cs : List Nat} (h : valid_coord ds cs = true) :
    cs.length = ds.length := by
  induction ds generalizing cs with
  | nil => cases cs <;> simp_all [valid_coord]
  | cons d ds ih =>
    cases cs with
    | nil => simp [valid_coord] at h
    | cons c cs =>
      rw [valid_coord_cons] at h
      simp [ih h.2]

theorem mixed_radix_lt {ds cs : List Nat} (h : valid_coord ds cs = true) :
    mixed_radix_loop ds cs 0 1 < ds.prod := by
  induction ds generalizing cs with
  | nil => cases cs <;> simp_all [valid_coord, mixed_radix_loop]
  | cons d ds ih =>
    cases cs with
    | nil => simp [valid_coord] at h
    | cons c cs =>
      rw [valid_coord_cons] at h
      rw [mixed_radix_loop_cons, List.prod_cons]
      have h1 := ih h.2
      calc c + d * mixed_radix_loop ds cs 0 1
          < d + d * mixed_radix_loop ds cs 0 1 := by omega
        _ = d * (mixed_radix_loop ds cs 0 1 + 1) := by ring
        _ ≤ d * ds.prod := Nat.mul_le_mul_left d h1

theorem mixed_radix_inj {ds cs cs' : List Nat} (h : valid_coord ds cs = true)
    (h' : valid_coord ds cs' = true)
    (e : mixed_radix_loop ds cs 0 1 = mixed_radix_loop ds cs' 0 1) : cs = cs' := by
  induction ds generalizing cs cs' with
  | nil => cases cs <;> cases cs' <;> simp_all [valid_coord]
  | cons d ds ih =>
    cases cs with
    | nil => simp [valid_coord] at h
    | cons c cs =>
      cases cs' with
      | nil => simp [valid_coord] at h'
      | cons c' cs' =>
        rw [valid_coord_cons] at h h'
        rw [mixed_radix_loop_cons, mixed_radix_loop_cons] at e
        have hd : 0 < d := by omega
        have e1 : c = c' := by
          have := congrArg (· % d) e
          simpa [Nat.add_mul_mod_self_left, Nat.mod_eq_of_lt h.1, Nat.mod_eq_of_lt h'.1] using this
        have e2 : mixed_radix_loop ds cs 0 1 = mixed_radix_loop ds cs' 0 1 := by
          subst e1
          have : d * mixed_radix_loop ds cs 0 1 = d * mixed_radix_loop ds cs' 0 1 := by omega
          exact Nat.eq_of_mul_eq_mul_left hd this
        rw [e1, ih h.2 h'.2 e2]

theorem valid_index_to_coord {ds : List Nat} {i : Nat} (h : i < ds.prod) :
    valid_coord ds (index_to_coord_loop ds i) = true := by
  induction ds generalizing i with
  | nil => simp [valid_coord, index_to_coord_loop]
  | cons d ds ih =>
    rw [List.prod_cons] at h
    have hd : 0 < d := by
      rcases Nat.eq_zero_or_pos d with h0 | h0
      · simp [h0] at h
      · exact h0
    simp only [index_to_coord_loop, valid_coord_cons]
    refine ⟨Nat.mod_lt _ hd, ih ?_⟩
    exact Nat.div_lt_of_lt_mul h

theorem mixed_radix_to_coord {ds : List Nat} {i : Nat} (h : i < ds.prod) :
    mixed_radix_loop ds (index_to_coord_loop ds i) 0 1 = i := by
  induction ds generalizing i with
  | nil => simp [mixed_radix_loop] at h ⊢; omega
  | cons d ds ih =>
    rw [List.prod_cons] at h
    simp only [index_to_coord_loop]
    rw [mixed_radix_loop_cons, ih (Nat.div_lt_of_lt_mul h)]
    exact Nat.mod_add_div i d

theorem index_to_coord_mixed_radix {ds cs : List Nat} (h : valid_coord ds cs = true) :
    index_to_coord_loop ds (mixed_radix_loop ds cs 0 1) = cs :=
  mixed_radix_inj (valid_index_to_coord (mixed_radix_lt h)) h
    (mixed_radix_to_coord (mixed_radix_lt h))

/-! ## The `size_t` index against the mixed-radix sum -/

theorem coord_to_index_loop_modEq (ds : List Nat) :
    ∀ (cs : List Nat) (i m i' m' : Nat), Nat.ModEq (2 ^ 64) i i' → Nat.ModEq (2 ^ 64) m m' →
      Nat.ModEq (2 ^ 64) (coord_to_index_loop ds cs i m) (mixed_radix_loop ds cs i' m') := by
  induction ds with
  | nil =>
    intro cs i m i' m' hi _
    simpa [coord_to_index_loop, mixed_radix_loop] using hi
  | cons d ds ih =>
    intro cs i m i' m' hi hm
    cases cs with
    | nil => simpa [coord_to_index_loop, mixed_radix_loop] using hi
    | cons c cs =>
      simp only [coord_to_index_loop, mixed_radix_loop]
      exact ih cs _ _ _ _ ((Nat.mod_modEq _ _).trans (hi.add (Nat.ModEq.mul_left c hm)))
        ((Nat.mod_modEq _ _).trans (hm.mul_right d))

theorem coord_to_index_loop_lt_size (ds : List Nat) :
    ∀ (cs : List Nat) (i m : Nat), i < 2 ^ 64 → coord_to_index_loop ds cs i m < 2 ^ 64 := by
  induction ds with
  | nil => intro cs i m hi; simpa [coord_to_index_loop] using hi
  | cons d ds ih =>
    intro cs i m hi
    cases cs with
    | nil => simpa [coord_to_index_loop] using hi
    | cons c cs =>
      simp only [coord_to_index_loop]
      exact ih cs _ _ (Nat.mod_lt _ (by norm_num))

/-- The index that `board__coord_to_index` computes is the mixed-radix sum
reduced modulo `2^64`, for every coordinate. -/
theorem coord_to_index_loop_eq_mod (ds cs : List Nat) :
    coord_to_index_loop ds cs 0 1 = mixed_radix_loop ds cs 0 1 % 2 ^ 64 := by
  have h := coord_to_index_loop_modEq ds cs 0 1 0 1 rfl rfl
  have hlt := coord_to_index_loop_lt_size ds cs 0 1 (by norm_num)
  unfold Nat.ModEq at h
  rw [← h, Nat.mod_eq_of_lt hlt]

/-- On valid coordinates of a board with fewer than `2^64` cells the sum does
not wrap. -/
theorem coord_to_index_eq {ds cs : List Nat} (hsz : ds.prod < 2 ^ 64)
    (h : valid_coord ds cs = true) :
    coord_to_index_loop ds cs 0 1 = mixed_radix_loop ds cs 0 1 := by
  rw [coord_to_index_loop_eq_mod]
  exact Nat.mod_eq_of_lt (Nat.lt_trans (mixed_radix_lt h) hsz)

theorem coord_to_index_lt {ds cs : List Nat} (hsz : ds.prod < 2 ^ 64)
    (h : valid_coord ds cs = true) : coord_to_index_loop ds cs 0 1 < ds.prod := by
  rw [coord_to_index_eq hsz h]
  exact mixed_radix_lt h

theorem coord_to_index_inj {ds cs cs' : List Nat} (hsz : ds.prod < 2 ^ 64)
    (h : valid_coord ds cs = true) (h' : valid_coord ds cs' = true)
    (e : coord_to_index_loop ds cs 0 1 = coord_to_index_loop ds cs' 0 1) : cs = cs' := by
  rw [coord_to_index_eq hsz h, coord_to_index_eq hsz h'] at e
  exact mixed_radix_inj h h' e

theorem coord_to_index_to_coord {ds : List Nat} {i : Nat} (hsz : ds.prod < 2 ^ 64)
    (h : i < ds.prod) : coord_to_index_loop ds (index_to_coord_loop ds i) 0 1 = i := by
  rw [coord_to_index_eq hsz (valid_index_to_coord h)]
  exact mixed_radix_to_coord h

theorem index_to_coord_to_index {ds cs : List Nat} (hsz : ds.prod < 2 ^ 64)
    (h : valid_coord ds cs = true) :
    index_to_coord_loop ds (coord_to_index_loop ds cs 0 1) = cs := by
  rw [coord_to_index_eq hsz h]
  exact index_to_coord_mixed_radix h

/-! ## Cell iteration: `board__loop_cells` is the successor on indices -/

theorem loop_cells_carry_false {ds cs : List Nat} (h : valid_coord ds cs = true) :
    loop_cells_carry false ds cs = cs := by
  induction ds generalizing cs with
  | nil => cases cs <;> simp [loop_cells_carry]
  | cons d ds ih =>
    cases cs with
    | nil => simp [loop_cells_carry]
    | cons c cs =>
      rw [valid_coord_cons] at h
      have : c ≠ d := by omega
      simp [loop_cells_carry, this, ih h.2]

theorem loop_cells_carry_true {ds cs : List Nat} (h : valid_coord ds cs = true) :
    valid_coord ds (loop_cells_carry true ds cs) = true ∧
      mixed_radix_loop ds (loop_cells_carry true ds cs) 0 1
        = (mixed_radix_loop ds cs 0 1 + 1) % ds.prod := by
  induction ds generalizing cs with
  | nil => cases cs <;> simp_all [valid_coord, loop_cells_carry, mixed_radix_loop]
  | cons d ds ih =>
    cases cs with
    | nil => simp [valid_coord] at h
    | cons c cs =>
      rw [valid_coord_cons] at h
      obtain ⟨hc, hcs⟩ := h
      have hlt := mixed_radix_lt hcs
      by_cases e : c + 1 = d
      · obtain ⟨iv, ii⟩ := ih hcs
        simp only [loop_cells_carry, if_true, e]
        rw [valid_coord_cons, mixed_radix_loop_cons, mixed_radix_loop_cons, ii,
          List.prod_cons]
        refine ⟨⟨by omega, iv⟩, ?_⟩
        have : c + d * mixed_radix_loop ds cs 0 1 + 1
            = d * (mixed_radix_loop ds cs 0 1 + 1) := by
          rw [Nat.mul_add]; omega
        rw [this, Nat.mul_mod_mul_left]
        simp
      · simp only [loop_cells_carry, if_true, e, if_false]
        rw [loop_cells_carry_false hcs, valid_coord_cons, mixed_radix_loop_cons,
          mixed_radix_loop_cons, List.prod_cons]
        refine ⟨⟨by omega, hcs⟩, ?_⟩
        rw [Nat.mod_eq_of_lt]
        · ring
        · calc c + d * mixed_radix_loop ds cs 0 1 + 1
              < d + d * mixed_radix_loop ds cs 0 1 := by omega
            _ = d * (mixed_radix_loop ds cs 0 1 + 1) := by ring
            _ ≤ d * ds.prod := Nat.mul_le_mul_left d hlt

theorem any_ne_zero_iff {ds cs : List Nat} (h : valid_coord ds cs = true) :
    cs.any (fun c => c != 0) = true ↔ mixed_radix_loop ds cs 0 1 ≠ 0 := by
  induction ds generalizing cs with
  | nil => cases cs <;> simp_all [valid_coord, mixed_radix_loop]
  | cons d ds ih =>
    cases cs with
    | nil => simp [valid_coord] at h
    | cons c cs =>
      rw [valid_coord_cons] at h
      have hd : 0 < d := by omega
      rw [mixed_radix_loop_cons, List.any_cons, Bool.or_eq_true, ih h.2]
      simp only [bne_iff_ne, ne_eq, Nat.add_eq_zero, Nat.mul_eq_zero]
      constructor
      · rintro (h1 | h1) ⟨h2, h3⟩
        · exact h1 h2
        · rcases h3 with h3 | h3
          · omega
          · exact h1 h3
      · intro h1
        by_cases hc : c = 0
        · right; intro h3; exact h1 ⟨hc, Or.inr h3⟩
        · left; exact hc

theorem index_to_coord_zero (ds : List Nat) :
    index_to_coord_loop ds 0 = List.replicate ds.length 0 := by
  induction ds with
  | nil => rfl
  | cons d ds ih => simp [index_to_coord_loop, ih, List.replicate_succ]

theorem board__loop_cells_index {board : Board} {i : Nat} (hne : board.dimensions ≠ [])
    (h : i < board.dimensions.prod) :
    board__loop_cells board (index_to_coord_loop board.dimensions i)
      = (index_to_coord_loop board.dimensions ((i + 1) % board.dimensions.prod),
          decide ((i + 1) % board.dimensions.prod ≠ 0)) := by
  have hv := valid_index_to_coord h
  have hi := mixed_radix_to_coord h
  obtain ⟨v1, i1⟩ := loop_cells_carry_true hv
  rw [hi] at i1
  have key : loop_cells_carry false board.dimensions
      (incr_first (index_to_coord_loop board.dimensions i))
      = loop_cells_carry true board.dimensions (index_to_coord_loop board.dimensions i) := by
    cases hd : board.dimensions with
    | nil => exact absurd hd hne
    | cons d ds => simp [index_to_coord_loop, incr_first, loop_cells_carry]
  have e1 : loop_cells_carry true board.dimensions (index_to_coord_loop board.dimensions i)
      = index_to_coord_loop board.dimensions ((i + 1) % board.dimensions.prod) := by
    rw [← i1]; exact (index_to_coord_mixed_radix v1).symm
  simp only [board__loop_cells, key]
  rw [Prod.mk.injEq]
  refine ⟨e1, ?_⟩
  rw [Bool.eq_iff_iff, any_ne_zero_iff v1, i1]
  simp

/-- Invariant rule for `do { body } while (board__loop_cells(board, coord))`:
the loop started at the coordinate of index `i` runs the body at the indices
`i, i + 1, ..., length - 1` and then stops. -/
theorem do_while_loop_cells_inv (body : Board → List Nat → Option Board) (dims : List Nat)
    (hne : dims ≠ []) (P : Nat → Board → Prop)
    (hbody : ∀ i b, i < dims.prod → b.dimensions = dims → P i b →
      ∃ b', body b (index_to_coord_loop dims i) = some b' ∧ b'.dimensions = dims ∧ P (i + 1) b') :
    ∀ fuel i b, i < dims.prod → b.dimensions = dims → P i b → dims.prod - i ≤ fuel →
      ∃ b', do_while_loop_cells body fuel b (index_to_coord_loop dims i) = some b' ∧
        b'.dimensions = dims ∧ P dims.prod b' := by
  intro fuel
  induction fuel with
  | zero => intro i b hi _ _ hf; omega
  | succ fuel ih =>
    intro i b hi hd hP hf
    obtain ⟨b1, hb1, hd1, hP1⟩ := hbody i b hi hd hP
    have hlc := @board__loop_cells_index b1 i (by rw [hd1]; exact hne)
      (by rw [hd1]; exact hi)
    rw [hd1] at hlc
    simp only [do_while_loop_cells, hb1, hlc]
    by_cases hlast : i + 1 = dims.prod
    · have : (i + 1) % dims.prod = 0 := by rw [hlast]; exact Nat.mod_self _
      simp only [this, ne_eq, not_true_eq_false, decide_False]
      exact ⟨b1, rfl, hd1, hlast ▸ hP1⟩
    · have hlt : i + 1 < dims.prod := by omega
      have : (i + 1) % dims.prod = i + 1 := Nat.mod_eq_of_lt hlt
      simp only [this, ne_eq, Nat.add_eq_zero, one_ne_zero, and_false, not_false_eq_true,
        decide_True]
      exact ih (i + 1) b1 hlt hd1 hP1 (by omega)

/-! ## Cell reads and writes -/

theorem cell_set_cell (b : Board) (i : Nat) (c : Board__Cell) (j : Nat) :
    (b.set_cell i c).cell j = if j = i ∧ i < b.cells.length then c else b.cell j := by
  simp only [Board.cell, Board.set_cell, List.getD_eq_getElem?_getD, List.getElem?_set]
  by_cases h : i = j
  · subst h
    by_cases h2 : i < b.cells.length
    · simp [h2]
    · simp [h2, List.getElem?_eq_none (Nat.le_of_not_lt h2)]
  · have : ¬ j = i := fun e => h e.symm
    simp [h, this]

theorem cell_of_length_le {b : Board} {j : Nat} (h : b.cells.length ≤ j) : b.cell j = default := by
  simp [Board.cell, List.getD_eq_getElem?_getD, List.getElem?_eq_none h]

@[simp] theorem set_cell_dimensions (b : Board) (i : Nat) (c : Board__Cell) :
    (b.set_cell i c).dimensions = b.dimensions := rfl

@[simp] theorem set_cell_length (b : Board) (i : Nat) (c : Board__Cell) :
    (b.set_cell i c).cells.length = b.cells.length := by
  simp [Board.set_cell]

@[simp] theorem set_state_dimensions (b : Board) (i : Nat) (s : Board__Cell__State) :
    (b.set_state i s).dimensions = b.dimensions := rfl

@[simp] theorem set_state_length (b : Board) (i : Nat) (s : Board__Cell__State) :
    (b.set_state i s).cells.length = b.cells.length := by
  simp [Board.set_state]

@[simp] theorem set_state_mine (b : Board) (i : Nat) (s : Board__Cell__State) (j : Nat) :
    ((b.set_state i s).cell j).mine = (b.cell j).mine := by
  rw [Board.set_state, cell_set_cell]
  split_ifs with h
  · rw [h.1]
  · rfl

@[simp] theorem set_state_amount (b : Board) (i : Nat) (s : Board__Cell__State) (j : Nat) :
    ((b.set_state i s).cell j).neighbour_mine_amount = (b.cell j).neighbour_mine_amount := by
  rw [Board.set_state, cell_set_cell]
  split_ifs with h
  · rw [h.1]
  · rfl

theorem set_state_state (b : Board) (i : Nat) (s : Board__Cell__State) (j : Nat) :
    ((b.set_state i s).cell j).state = if j = i ∧ i < b.cells.length then s else (b.cell j).state := by
  rw [Board.set_state, cell_set_cell]
  split_ifs with h <;> rfl

@[simp] theorem set_amount_dimensions (b : Board) (i a : Nat) :
    (b.set_neighbour_mine_amount i a).dimensions = b.dimensions := rfl

@[simp] theorem set_amount_length (b : Board) (i a : Nat) :
    (b.set_neighbour_mine_amount i a).cells.length = b.cells.length := by
  simp [Board.set_neighbour_mine_amount]

@[simp] theorem set_amount_mine (b : Board) (i a : Nat) (j : Nat) :
    ((b.set_neighbour_mine_amount i a).cell j).mine = (b.cell j).mine := by
  rw [Board.set_neighbour_mine_amount, cell_set_cell]
  split_ifs with h
  · rw [h.1]
  · rfl

@[simp] theorem set_amount_state (b : Board) (i a : Nat) (j : Nat) :
    ((b.set_neighbour_mine_amount i a).cell j).state = (b.cell j).state := by
  rw [Board.set_neighbour_mine_amount, cell_set_cell]
  split_ifs with h
  · rw [h.1]
  · rfl

theorem set_amount_amount (b : Board) (i a : Nat) (j : Nat) :
    ((b.set_neighbour_mine_amount i a).cell j).neighbour_mine_amount
      = if j = i ∧ i < b.cells.length then a else (b.cell j).neighbour_mine_amount := by
  rw [Board.set_neighbour_mine_amount, cell_set_cell]
  split_ifs with h <;> rfl

theorem cell_ext {c c' : Board__Cell} (h1 : c.neighbour_mine_amount = c'.neighbour_mine_amount)
    (h2 : c.mine = c'.mine) (h3 : c.state = c'.state) : c = c' := by
  cases c; cases c'; simp_all

theorem valid_prod_pos {board : Board} (hv : board.valid) : 0 < board.dimensions.prod :=
  List.prod_pos (fun d hd => hv.2.1 d hd)

theorem disclose_mine (c : Board__Cell) : (disclose c).mine = c.mine := by
  unfold disclose; split_ifs <;> rfl

theorem disclose_amount (c : Board__Cell) :
    (disclose c).neighbour_mine_amount = c.neighbour_mine_amount := by
  unfold disclose; split_ifs <;> rfl

theorem disclose_state (c : Board__Cell) :
    (disclose c).state =
      if c.mine = true ∧ c.state = Board__Cell__State.COVERED then Board__Cell__State.UNCOVERED
      else if c.mine = false ∧ c.state = Board__Cell__State.FLAGGED then
        Board__Cell__State.FLAGGED_NOT_MINE
      else c.state := by
  unfold disclose
  by_cases h1 : c.mine = true ∧ c.state = Board__Cell__State.COVERED
  · simp [h1]
  · by_cases h2 : c.mine = false ∧ c.state = Board__Cell__State.FLAGGED
    · have : ¬ (c.mine = true) := by simp [h2.1]
      simp [h2, this]
    · have h2' : ¬ (¬ c.mine = true ∧ c.state = Board__Cell__State.FLAGGED) := by
        simpa using h2
      rw [if_neg h1, if_neg h2', if_neg h1, if_neg h2]

theorem board__uncover_all_mines_cells {board : Board} (hv : board.valid) :
    ∃ board', board__uncover_all_mines board = some board' ∧
      board'.dimensions = board.dimensions ∧ board'.cells.length = board.cells.length ∧
      ∀ j, board'.cell j = disclose (board.cell j) := by
  have hne := hv.1
  have hlen := hv.2.2.1
  have hsz := hv.2.2.2
  have hpos := valid_prod_pos hv
  have key := do_while_loop_cells_inv uncover_all_mines_body board.dimensions hne
    (fun i b => b.cells.length = board.cells.length ∧
      ∀ j, b.cell j = if j < i then disclose (board.cell j) else board.cell j)
    (by
      intro i b hi hd ⟨hl, hP⟩
      have hidx : board__coord_to_index b (index_to_coord_loop board.dimensions i) = i := by
        rw [board__coord_to_index, hd]; exact coord_to_index_to_coord hsz hi
      have hci : b.cell i = board.cell i := by rw [hP i]; simp
      have hil : i < b.cells.length := by omega
      have hstep : ∀ (b' : Board), b'.cells.length = b.cells.length →
          (∀ j, j ≠ i → b'.cell j = b.cell j) → b'.cell i = disclose (board.cell i) →
          b'.cells.length = board.cells.length ∧
          ∀ j, b'.cell j = if j < i + 1 then disclose (board.cell j) else board.cell j := by
        intro b' h1 h2 h3
        refine ⟨by omega, fun j => ?_⟩
        by_cases hj : j = i
        · subst hj; simp [h3]
        · have : (j < i + 1) ↔ (j < i) := by omega
          rw [h2 j hj, hP j]; simp [this]
      simp only [uncover_all_mines_body, hidx, hci]
      by_cases h1 : (board.cell i).mine = true ∧ (board.cell i).state = Board__Cell__State.COVERED
      · rw [if_pos h1]
        refine ⟨_, rfl, hd, hstep _ (by simp) ?_ ?_⟩
        · intro j hj
          rw [Board.set_state, cell_set_cell]; simp [hj]
        · apply cell_ext
          · simp [disclose_amount, hci]
          · simp [disclose_mine, hci]
          · simp [set_state_state, disclose_state, hil, h1]
      · rw [if_neg h1]
        by_cases h2 : ¬ (board.cell i).mine = true ∧
            (board.cell i).state = Board__Cell__State.FLAGGED
        · rw [if_pos h2]
          refine ⟨_, rfl, hd, hstep _ (by simp) ?_ ?_⟩
          · intro j hj
            rw [Board.set_state, cell_set_cell]; simp [hj]
          · have h2' : (board.cell i).mine = false ∧
              (board.cell i).state = Board__Cell__State.FLAGGED := by simpa using h2
            apply cell_ext
            · simp [disclose_amount, hci]
            · simp [disclose_mine, hci]
            · simp [set_state_state, disclose_state, hil, h2']
        · rw [if_neg h2]
          refine ⟨_, rfl, hd, hstep _ rfl (fun _ _ => rfl) ?_⟩
          rw [hci, disclose, if_neg h1, if_neg h2])
    board.dimensions.prod 0 board hpos rfl ⟨rfl, by simp⟩ (by omega)
  obtain ⟨b', hb', hd', hl', hP'⟩ := key
  refine ⟨b', ?_, hd', hl', ?_⟩
  · rw [board__uncover_all_mines, Board.length, Board.n_dim, ← index_to_coord_zero]; exact hb'
  · intro j
    rw [hP' j]
    by_cases hj : j < board.dimensions.prod
    · simp [hj]
    · have : board.cell j = default := cell_of_length_le (by omega)
      simp [hj, this, disclose]

/-- C1 (as amended): uncovering a mine cell of a valid board returns Loss
(`false`); afterwards the uncovered cell is `UNCOVERED`, every mine cell that
was `COVERED` is `UNCOVERED`, every other mine cell keeps its state (a
`FLAGGED` mine stays `FLAGGED`), every non-mine cell that was `FLAGGED` is
`FLAGGED_NOT_MINE`, every other non-mine cell keeps its state, and no mine
flag or neighbour count changes. -/
theorem C1_uncover_mine_discloses (board : Board) (coord : List Nat) (hv : board.valid)
    (hc : valid_coord board.dimensions coord = true)
    (hm : (board.cell_at coord).mine = true) :
    ∃ board', board__uncover_cell board coord = some (false, board') ∧
      board'.dimensions = board.dimensions ∧
      (board'.cell_at coord).state = Board__Cell__State.UNCOVERED ∧
      ∀ x, valid_coord board.dimensions x = true →
        (board'.cell_at x).mine = (board.cell_at x).mine ∧
        (board'.cell_at x).neighbour_mine_amount = (board.cell_at x).neighbour_mine_amount ∧
        ((board.cell_at x).mine = true →
          (board.cell_at x).state = Board__Cell__State.COVERED →
          (board'.cell_at x).state = Board__Cell__State.UNCOVERED) ∧
        ((board.cell_at x).mine = true → x ≠ coord →
          (board.cell_at x).state ≠ Board__Cell__State.COVERED →
          (board'.cell_at x).state = (board.cell_at x).state) ∧
        ((board.cell_at x).mine = false →
          (board.cell_at x).state = Board__Cell__State.FLAGGED →
          (board'.cell_at x).state = Board__Cell__State.FLAGGED_NOT_MINE) ∧
        ((board.cell_at x).mine = false →
          (board.cell_at x).state ≠ Board__Cell__State.FLAGGED →
          (board'.cell_at x).state = (board.cell_at x).state) := by
  have hidx : board__coord_to_index board coord < board.cells.length := by
    rw [hv.2.2.1]; exact coord_to_index_lt hv.2.2.2 hc
  have hv1 : (board.set_state (board__coord_to_index board coord)
      Board__Cell__State.UNCOVERED).valid :=
    ⟨hv.1, hv.2.1, by rw [set_state_length]; exact hv.2.2.1, hv.2.2.2⟩
  obtain ⟨b', hb', hd', _, hcells⟩ := board__uncover_all_mines_cells hv1
  have hd'' : b'.dimensions = board.dimensions := hd'
  have hm' : (board.cell (board__coord_to_index board coord)).mine = true := hm
  have hat : ∀ x, b'.cell_at x = disclose ((board.set_state (board__coord_to_index board coord)
      Board__Cell__State.UNCOVERED).cell (board__coord_to_index board x)) := by
    intro x
    rw [← hcells, Board.cell_at, board__coord_to_index, hd'', board__coord_to_index]
  refine ⟨b', ?_, hd'', ?_, ?_⟩
  · simp only [board__uncover_cell, hm', if_true, hb', Option.map_some']
  · rw [hat, disclose_state, set_state_mine, set_state_state]
    simp [hidx]
  · intro x hx
    have hne : x ≠ coord → board__coord_to_index board x ≠ board__coord_to_index board coord :=
      fun h e => h (coord_to_index_inj hv.2.2.2 hx hc e)
    rw [hat, disclose_state, disclose_mine, disclose_amount, set_state_mine, set_state_amount,
      set_state_state]
    simp only [Board.cell_at]
    by_cases hxc : x = coord
    · subst hxc
      simp [hidx, hm']
    · have := hne hxc
      simp only [this, false_and, if_false]
      refine ⟨trivial, trivial, ?_, ?_, ?_, ?_⟩
      · intro h1 h2; simp [h1, h2]
      · intro h1 _ h2; simp [h1, h2]
      · intro h1 h2; simp [h1, h2]
      · intro h1 h2; simp [h1, h2]

/-- C1 counterexample: on a valid board with computed counts, uncovering the
mine at coordinate `(0)` returns Loss and leaves the mine at `(1)` in state
`FLAGGED`, not `UNCOVERED`. -/
theorem C1_counterexample :
    c1_board.valid ∧ board__compute_neighbour_values c1_board = some c1_board ∧
    valid_coord c1_board.dimensions [0] = true ∧ (c1_board.cell_at [0]).mine = true ∧
    valid_coord c1_board.dimensions [1] = true ∧
    ∃ board', board__uncover_cell c1_board [0] = some (false, board') ∧
      (board'.cell_at [1]).mine = true ∧
      (board'.cell_at [1]).state = Board__Cell__State.FLAGGED ∧
      (board'.cell_at [1]).state ≠ Board__Cell__State.UNCOVERED := by
  refine ⟨⟨by decide, by decide, by decide, by decide⟩, by decide, by decide, by decide, by decide,
    ⟨⟨[2], [⟨0, true, Board__Cell__State.UNCOVERED⟩, ⟨0, true, Board__Cell__State.FLAGGED⟩]⟩,
      by decide, by decide, by decide, by decide⟩⟩

/-- C1 witness: the amended statement applied to the board of the
counterexample. -/
theorem C1_witness :
    ∃ board', board__uncover_cell c1_board [0] = some (false, board') ∧
      board'.dimensions = c1_board.dimensions ∧
      (board'.cell_at [0]).state = Board__Cell__State.UNCOVERED ∧
      ∀ x, valid_coord c1_board.dimensions x = true →
        (board'.cell_at x).mine = (c1_board.cell_at x).mine ∧
        (board'.cell_at x).neighbour_mine_amount = (c1_board.cell_at x).neighbour_mine_amount ∧
        ((c1_board.cell_at x).mine = true →
          (c1_board.cell_at x).state = Board__Cell__State.COVERED →
          (board'.cell_at x).state = Board__Cell__State.UNCOVERED) ∧
        ((c1_board.cell_at x).mine = true → x ≠ [0] →
          (c1_board.cell_at x).state ≠ Board__Cell__State.COVERED →
          (board'.cell_at x).state = (c1_board.cell_at x).state) ∧
        ((c1_board.cell_at x).mine = false →
          (c1_board.cell_at x).state = Board__Cell__State.FLAGGED →
          (board'.cell_at x).state = Board__Cell__State.FLAGGED_NOT_MINE) ∧
        ((c1_board.cell_at x).mine = false →
          (c1_board.cell_at x).state ≠ Board__Cell__State.FLAGGED →
          (board'.cell_at x).state = (c1_board.cell_at x).state) :=
  C1_uncover_mine_discloses c1_board [0] ⟨by decide, by decide, by decide, by decide⟩ (by decide) (by decide)

/-! ## The neighbour odometer -/

theorem valid_offset_cons {o : Int} {os : List Int} :
    valid_offset (o :: os) ↔ (o = -1 ∨ o = 0 ∨ o = 1) ∧ valid_offset os := by
  simp [valid_offset]

theorem valid_offset_replicate (n : Nat) : valid_offset (List.replicate n 0) := by
  intro o ho
  rw [List.mem_replicate] at ho
  exact Or.inr (Or.inl ho.2)

theorem loop_neighbours_carry_false {os : List Int} (h : valid_offset os) :
    loop_neighbours_carry false os = os := by
  induction os with
  | nil => rfl
  | cons o os ih =>
    rw [valid_offset_cons] at h
    have : o ≠ 2 := by omega
    simp [loop_neighbours_carry, this, ih h.2]

theorem loop_neighbours_carry_incr (os : List Int) :
    loop_neighbours_carry false (incr_first os) = next_offset os := by
  cases os with
  | nil => rfl
  | cons o os => simp [incr_first, next_offset, loop_neighbours_carry]

theorem next_offset_cons (o : Int) (os : List Int) (h : valid_offset os) :
    next_offset (o :: os) = if o + 1 = 2 then (-1) :: next_offset os else (o + 1) :: os := by
  simp only [next_offset, loop_neighbours_carry, if_true]
  split_ifs
  · rfl
  · rw [loop_neighbours_carry_false h]

theorem next_offset_length (os : List Int) (h : valid_offset os) :
    (next_offset os).length = os.length := by
  induction os with
  | nil => rfl
  | cons o os ih =>
    rw [valid_offset_cons] at h
    rw [next_offset_cons o os h.2]
    split_ifs <;> simp [ih h.2]

theorem next_offset_valid (os : List Int) (h : valid_offset os) :
    valid_offset (next_offset os) := by
  induction os with
  | nil => exact h
  | cons o os ih =>
    rw [valid_offset_cons] at h
    rw [next_offset_cons o os h.2]
    split_ifs with h1
    · rw [valid_offset_cons]; exact ⟨Or.inl rfl, ih h.2⟩
    · rw [valid_offset_cons]; exact ⟨by omega, h.2⟩

theorem offset_value_lt (os : List Int) (h : valid_offset os) :
    offset_value os < 3 ^ os.length := by
  induction os with
  | nil => simp [offset_value]
  | cons o os ih =>
    rw [valid_offset_cons] at h
    have := ih h.2
    simp only [offset_value, List.length_cons, pow_succ]
    have : (o + 1).toNat ≤ 2 := by omega
    omega

theorem offset_value_next (os : List Int) (h : valid_offset os) :
    offset_value (next_offset os)
      = if offset_value os + 1 < 3 ^ os.length then offset_value os + 1 else 0 := by
  induction os with
  | nil => simp [offset_value, next_offset, loop_neighbours_carry]
  | cons o os ih =>
    rw [valid_offset_cons] at h
    have hlt := offset_value_lt os h.2
    rw [next_offset_cons o os h.2]
    simp only [List.length_cons, pow_succ]
    rcases h.1 with h1 | h1 | h1
    · subst h1
      simp [offset_value]
      rw [if_pos (by omega)]
      omega
    · subst h1
      simp [offset_value]
      rw [if_pos (by omega)]
      omega
    · subst h1
      simp only [offset_value, ih h.2]
      norm_num
      split_ifs <;> omega

theorem offset_value_inj {os os' : List Int} (h : valid_offset os) (h' : valid_offset os')
    (hl : os.length = os'.length) (e : offset_value os = offset_value os') : os = os' := by
  induction os generalizing os' with
  | nil => cases os' <;> simp_all
  | cons o os ih =>
    cases os' with
    | nil => simp at hl
    | cons o' os' =>
      rw [valid_offset_cons] at h h'
      simp only [offset_value] at e
      simp only [List.length_cons, Nat.add_right_cancel_iff] at hl
      have e1 : o = o' := by omega
      have e2 : offset_value os = offset_value os' := by omega
      rw [e1, ih h.2 h'.2 hl e2]

theorem offset_value_zero (n : Nat) : 2 * offset_value (List.replicate n 0) + 1 = 3 ^ n := by
  induction n with
  | zero => simp [offset_value]
  | succ n ih =>
    simp only [List.replicate_succ, offset_value, pow_succ]
    norm_num
    omega

theorem all_zero_incr_iff (os : List Int) (h : valid_offset os) :
    (incr_first os).all (fun o => o == 0) = true
      ↔ next_offset os = List.replicate os.length 0 := by
  cases os with
  | nil => simp [incr_first, next_offset, loop_neighbours_carry]
  | cons o os =>
    rw [valid_offset_cons] at h
    rw [next_offset_cons o os h.2]
    simp only [incr_first, List.all_cons, Bool.and_eq_true, beq_iff_eq, List.all_eq_true,
      List.length_cons, List.replicate_succ]
    split_ifs with h1
    · constructor
      · intro ⟨h2, _⟩; omega
      · intro h2; simp at h2
    · rw [List.cons.injEq, List.eq_replicate_iff]
      simp

theorem offset_dist_bounds (os : List Int) (h : valid_offset os) :
    1 ≤ offset_dist os ∧ offset_dist os ≤ 3 ^ os.length := by
  have h1 := offset_value_lt os h
  have h2 := offset_value_zero os.length
  simp only [offset_dist]
  split_ifs <;> omega

theorem offset_dist_zero (n : Nat) : offset_dist (List.replicate n 0) = 3 ^ n := by
  simp [offset_dist]

theorem offset_dist_inj {os os' : List Int} (h : valid_offset os) (h' : valid_offset os')
    (hl : os.length = os'.length) (e : offset_dist os = offset_dist os') : os = os' := by
  apply offset_value_inj h h' hl
  have h1 := offset_value_lt os h
  have h1' := offset_value_lt os' h'
  have h2 := offset_value_zero os.length
  simp only [offset_dist, ← hl] at e
  rw [← hl] at h1'
  split_ifs at e <;> omega

theorem next_offset_eq_zero_iff (os : List Int) (h : valid_offset os) :
    next_offset os = List.replicate os.length 0 ↔ offset_dist os = 1 := by
  have h1 := offset_value_lt os h
  have h2 := offset_value_zero os.length
  have h3 := offset_value_next os h
  have hone : 1 ≤ 3 ^ os.length := Nat.one_le_pow _ _ (by norm_num)
  constructor
  · intro e
    rw [e] at h3
    simp only [offset_dist]
    split_ifs at h3 ⊢ <;> omega
  · intro e
    apply offset_value_inj (next_offset_valid os h) (valid_offset_replicate _)
      (by simp [next_offset_length os h])
    rw [h3]
    simp only [offset_dist] at e
    split_ifs at e ⊢ <;> omega

theorem offset_dist_next (os : List Int) (h : valid_offset os) (hd : offset_dist os ≠ 1) :
    offset_dist (next_offset os) = offset_dist os - 1 := by
  have h1 := offset_value_lt os h
  have h2 := offset_value_zero os.length
  have h3 := offset_value_next os h
  have hone : 1 ≤ 3 ^ os.length := Nat.one_le_pow _ _ (by norm_num)
  simp only [offset_dist, next_offset_length os h] at hd ⊢
  rw [h3]
  split_ifs at hd ⊢ <;> omega

/-! ### The offsets run through by the odometer -/

theorem mem_offset_cycle {k : Nat} {os o : List Int} (h : valid_offset os)
    (hk : k < offset_dist os) :
    o ∈ offset_cycle k os ↔
      valid_offset o ∧ o.length = os.length ∧ offset_dist os - k ≤ offset_dist o ∧
        offset_dist o < offset_dist os := by
  induction k generalizing os with
  | zero =>
    simp only [offset_cycle, List.not_mem_nil, false_iff]
    intro ⟨_, _, h1, h2⟩; omega
  | succ k ih =>
    have hd : offset_dist os ≠ 1 := by omega
    have hn := offset_dist_next os h hd
    have hv := next_offset_valid os h
    have hl := next_offset_length os h
    rw [offset_cycle, List.mem_cons, ih hv (by omega), hn, hl]
    constructor
    · rintro (e | ⟨h1, h2, h3, h4⟩)
      · subst e
        exact ⟨hv, hl, by omega, by omega⟩
      · exact ⟨h1, h2, by omega, by omega⟩
    · rintro ⟨h1, h2, h3, h4⟩
      by_cases e : offset_dist o = offset_dist os - 1
      · left
        exact offset_dist_inj h1 hv (by omega) (by omega)
      · right
        exact ⟨h1, h2, by omega, by omega⟩

theorem offset_cycle_nodup {k : Nat} {os : List Int} (h : valid_offset os)
    (hk : k < offset_dist os) : (offset_cycle k os).Nodup := by
  induction k generalizing os with
  | zero => simp [offset_cycle]
  | succ k ih =>
    have hd : offset_dist os ≠ 1 := by omega
    have hn := offset_dist_next os h hd
    have hv := next_offset_valid os h
    rw [offset_cycle, List.nodup_cons]
    refine ⟨?_, ih hv (by omega)⟩
    rw [mem_offset_cycle hv (by omega)]
    intro ⟨_, _, _, h4⟩
    omega

theorem offset_cycle_length (k : Nat) (os : List Int) : (offset_cycle k os).length = k := by
  induction k generalizing os with
  | zero => rfl
  | succ k ih => simp [offset_cycle, ih]

/-- One call of `board__loop_neighbours` from an offset with entries in
`{-1, 0, 1}`: with enough fuel it returns, yielding the head of the pending
coordinates and leaving the offset from which the tail is pending. -/
theorem loop_neighbours_fuel_step (dims coord : List Nat) :
    ∀ (fuel : Nat) (os : List Int), valid_offset os → offset_dist os ≤ fuel →
      (pending_neighbours dims coord os = [] ∧
        loop_neighbours_fuel fuel dims os coord = some none) ∨
      (∃ o' nc, loop_neighbours_fuel fuel dims os coord = some (some (o', nc)) ∧
        pending_neighbours dims coord os = nc :: pending_neighbours dims coord o' ∧
        valid_offset o' ∧ o'.length = os.length ∧ offset_dist o' < offset_dist os) := by
  intro fuel
  induction fuel with
  | zero =>
    intro os h hf
    have := (offset_dist_bounds os h).1
    omega
  | succ fuel ih =>
    intro os h hf
    have hv := next_offset_valid os h
    have hl := next_offset_length os h
    simp only [loop_neighbours_fuel, loop_neighbours_carry_incr]
    by_cases hz : (incr_first os).all (fun o => o == 0) = true
    · left
      have hd := (next_offset_eq_zero_iff os h).1 ((all_zero_incr_iff os h).1 hz)
      simp [hz, pending_neighbours, hd, offset_cycle]
    · have hd : offset_dist os ≠ 1 := fun e =>
        hz ((all_zero_incr_iff os h).2 ((next_offset_eq_zero_iff os h).2 e))
      have hn := offset_dist_next os h hd
      have hpos := (offset_dist_bounds (next_offset os) hv).1
      have hp : pending_neighbours dims coord os
          = (match loop_neighbours_bounds dims (next_offset os) coord with
              | none => pending_neighbours dims coord (next_offset os)
              | some nc => nc :: pending_neighbours dims coord (next_offset os)) := by
        have e : offset_dist os - 1 = (offset_dist (next_offset os) - 1) + 1 := by omega
        rw [pending_neighbours, e, offset_cycle, List.filterMap_cons]
        cases loop_neighbours_bounds dims (next_offset os) coord <;> simp [pending_neighbours]
      rw [if_neg hz, hp]
      cases hb : loop_neighbours_bounds dims (next_offset os) coord with
      | none =>
        simp only []
        rcases ih (next_offset os) hv (by omega) with ⟨h1, h2⟩ | ⟨o', nc, h1, h2, h3, h4, h5⟩
        · left; exact ⟨h1, h2⟩
        · right; exact ⟨o', nc, h1, h2, h3, by omega, by omega⟩
      | some nc =>
        right
        exact ⟨next_offset os, nc, rfl, rfl, hv, hl, by omega⟩

/-! ### The bounds check and the Moore neighbourhood -/

theorem within_one_cons (c : Nat) (cs : List Nat) (x : Nat) (xs : List Nat) :
    within_one (c :: cs) (x :: xs) = true ↔ (c ≤ x + 1 ∧ x ≤ c + 1) ∧ within_one cs xs = true := by
  simp [within_one]

theorem within_one_length {cs xs : List Nat} (h : within_one cs xs = true) :
    xs.length = cs.length := by
  induction cs generalizing xs with
  | nil => cases xs <;> simp_all [within_one]
  | cons c cs ih =>
    cases xs with
    | nil => simp [within_one] at h
    | cons x xs =>
      rw [within_one_cons] at h
      simp [ih h.2]

theorem loop_neighbours_bounds_iff {dims c : List Nat} {o : List Int} {x : List Nat}
    (hc : valid_coord dims c = true) (ho : valid_offset o) (hl : o.length = dims.length) :
    loop_neighbours_bounds dims o c = some x ↔
      valid_coord dims x = true ∧ within_one c x = true ∧ o = offset_of c x := by
  induction dims generalizing c o x with
  | nil =>
    cases c with
    | nil =>
      cases o with
      | nil => cases x <;> simp [loop_neighbours_bounds, valid_coord, within_one, offset_of]
      | cons _ _ => simp at hl
    | cons _ _ => simp [valid_coord] at hc
  | cons d ds ih =>
    cases c with
    | nil => simp [valid_coord] at hc
    | cons c0 cs =>
      cases o with
      | nil => simp at hl
      | cons o0 os =>
        rw [valid_coord_cons] at hc
        rw [valid_offset_cons] at ho
        simp only [List.length_cons, Nat.add_right_cancel_iff] at hl
        have IH := fun xs => ih (x := xs) hc.2 ho.2 hl
        simp only [loop_neighbours_bounds]
        cases x with
        | nil =>
          simp only [valid_coord, Bool.false_eq_true, false_and, iff_false]
          split_ifs <;> simp
        | cons x0 xs =>
          rw [valid_coord_cons, within_one_cons]
          simp only [offset_of, List.zipWith_cons_cons, List.cons.injEq]
          by_cases h1 : o0 = -1 ∧ c0 = 0
          · rw [if_pos h1]
            refine ⟨fun h => by simp at h, ?_⟩
            intro ⟨_, _, h2, _⟩
            omega
          · rw [if_neg h1]
            by_cases h2 : o0 = 1 ∧ c0 = d - 1
            · rw [if_pos h2]
              refine ⟨fun h => by simp at h, ?_⟩
              intro ⟨⟨_, _⟩, _, h3, _⟩
              omega
            · rw [if_neg h2]
              cases hb : loop_neighbours_bounds ds os cs with
              | none =>
                simp only [Option.map_none']
                refine ⟨fun h => by simp at h, ?_⟩
                intro ⟨⟨_, h3⟩, ⟨_, h4⟩, _, h5⟩
                have := (IH xs).2 ⟨h3, h4, h5⟩
                rw [hb] at this
                exact absurd this (by simp)
              | some r =>
                simp only [Option.map_some', Option.some.injEq, List.cons.injEq]
                have IHr := IH r
                rw [hb] at IHr
                have IHr' := IHr.1 rfl
                constructor
                · rintro ⟨e1, e2⟩
                  subst e2
                  refine ⟨⟨by omega, IHr'.1⟩, ⟨by omega, IHr'.2.1⟩, by omega, IHr'.2.2⟩
                · rintro ⟨⟨h3, h4⟩, ⟨h5, h6⟩, h7, h8⟩
                  have := (IH xs).2 ⟨h4, h6, h8⟩
                  rw [hb] at this
                  exact ⟨by omega, Option.some.inj this⟩

theorem offset_of_valid {c x : List Nat} (h : within_one c x = true) :
    valid_offset (offset_of c x) ∧ (offset_of c x).length = c.length := by
  induction c generalizing x with
  | nil => cases x <;> simp_all [within_one, offset_of, valid_offset]
  | cons c0 cs ih =>
    cases x with
    | nil => simp [within_one] at h
    | cons x0 xs =>
      rw [within_one_cons] at h
      have := ih h.2
      simp only [offset_of, List.zipWith_cons_cons, valid_offset_cons, List.length_cons]
      exact ⟨⟨by omega, this.1⟩, by simpa [offset_of] using this.2⟩

theorem offset_of_eq_zero_iff {c x : List Nat} (h : within_one c x = true) :
    offset_of c x = List.replicate c.length 0 ↔ x = c := by
  induction c generalizing x with
  | nil => cases x <;> simp_all [within_one, offset_of]
  | cons c0 cs ih =>
    cases x with
    | nil => simp [within_one] at h
    | cons x0 xs =>
      rw [within_one_cons] at h
      have := ih h.2
      simp only [offset_of, List.zipWith_cons_cons, List.length_cons, List.replicate_succ,
        List.cons.injEq] at this ⊢
      rw [this]
      constructor
      · rintro ⟨h1, h2⟩; exact ⟨by omega, h2⟩
      · rintro ⟨h1, h2⟩; exact ⟨by omega, h2⟩

theorem mem_neighbour_list {dims c : List Nat} (hc : valid_coord dims c = true) (x : List Nat) :
    x ∈ neighbour_list dims c ↔ moore_neighbour dims c x = true := by
  have hcl := valid_coord_length hc
  have hM : 1 ≤ 3 ^ dims.length := Nat.one_le_pow _ _ (by norm_num)
  simp only [neighbour_list, pending_neighbours, List.mem_filterMap, moore_neighbour,
    Bool.and_eq_true, decide_eq_true_eq]
  rw [offset_dist_zero]
  constructor
  · rintro ⟨o, ho, hb⟩
    rw [mem_offset_cycle (valid_offset_replicate _) (by rw [offset_dist_zero]; omega)] at ho
    obtain ⟨h1, h2, _, h4⟩ := ho
    rw [List.length_replicate] at h2
    rw [loop_neighbours_bounds_iff hc h1 h2] at hb
    refine ⟨⟨hb.1, hb.2.1⟩, ?_⟩
    intro e
    have := (offset_of_eq_zero_iff hb.2.1).2 e
    rw [← hb.2.2, hcl] at this
    rw [this] at h4
    omega
  · rintro ⟨⟨h1, h2⟩, h3⟩
    have hov := offset_of_valid h2
    refine ⟨offset_of c x, ?_, ?_⟩
    · rw [mem_offset_cycle (valid_offset_replicate _) (by rw [offset_dist_zero]; omega)]
      rw [offset_dist_zero, List.length_replicate]
      have hb := offset_dist_bounds _ hov.1
      rw [hov.2, hcl] at hb
      refine ⟨hov.1, by rw [hov.2, hcl], by omega, ?_⟩
      rcases Nat.lt_or_ge (offset_dist (offset_of c x)) (3 ^ dims.length) with h | h
      · exact h
      · exfalso
        apply h3
        rw [← offset_of_eq_zero_iff h2]
        apply offset_dist_inj hov.1 (valid_offset_replicate _) (by simp [hov.2])
        rw [offset_dist_zero, hcl]
        omega
    · rw [loop_neighbours_bounds_iff hc hov.1 (by rw [hov.2, hcl])]
      exact ⟨h1, h2, rfl⟩

theorem nodup_filterMap_of_inj_on {α β : Type} {f : α → Option β} {l : List α} (hl : l.Nodup)
    (h : ∀ a ∈ l, ∀ a' ∈ l, ∀ b, f a = some b → f a' = some b → a = a') :
    (l.filterMap f).Nodup := by
  induction l with
  | nil => simp
  | cons a l ih =>
    rw [List.nodup_cons] at hl
    have ih' := ih hl.2 (fun a1 h1 a2 h2 => h a1 (List.mem_cons_of_mem _ h1) a2
      (List.mem_cons_of_mem _ h2))
    rw [List.filterMap_cons]
    cases hfa : f a with
    | none => exact ih'
    | some b =>
      simp only []
      rw [List.nodup_cons]
      refine ⟨?_, ih'⟩
      rw [List.mem_filterMap]
      rintro ⟨a', ha', hfa'⟩
      have := h a (List.mem_cons_self _ _) a' (List.mem_cons_of_mem _ ha') b hfa hfa'
      exact hl.1 (this ▸ ha')

theorem neighbour_list_nodup {dims c : List Nat} (hc : valid_coord dims c = true) :
    (neighbour_list dims c).Nodup := by
  have hM : 1 ≤ 3 ^ dims.length := Nat.one_le_pow _ _ (by norm_num)
  have hk : offset_dist (List.replicate dims.length 0) - 1
      < offset_dist (List.replicate dims.length 0) := by
    rw [offset_dist_zero]; omega
  apply nodup_filterMap_of_inj_on (offset_cycle_nodup (valid_offset_replicate _) hk)
  intro a ha a' ha' b hb hb'
  rw [mem_offset_cycle (valid_offset_replicate _) hk] at ha ha'
  rw [loop_neighbours_bounds_iff hc ha.1 (by simpa using ha.2.1)] at hb
  rw [loop_neighbours_bounds_iff hc ha'.1 (by simpa using ha'.2.1)] at hb'
  rw [hb.2.2, hb'.2.2]

theorem pending_neighbours_length_lt (dims coord : List Nat) (os : List Int)
    (h : valid_offset os) :
    (pending_neighbours dims coord os).length < offset_dist os := by
  have := (offset_dist_bounds os h).1
  have h2 := List.length_filterMap_le (fun o => loop_neighbours_bounds dims o coord)
    (offset_cycle (offset_dist os - 1) os)
  rw [offset_cycle_length] at h2
  simp only [pending_neighbours]
  omega

theorem loop_neighbours_bounds_interior {dims c : List Nat} {o : List Int}
    (hi : interior_coord dims c = true) (ho : valid_offset o) (hl : o.length = dims.length) :
    ∃ x, loop_neighbours_bounds dims o c = some x := by
  induction dims generalizing c o with
  | nil => exact ⟨[], by cases o <;> cases c <;> simp_all [loop_neighbours_bounds]⟩
  | cons d ds ih =>
    cases c with
    | nil => simp [interior_coord] at hi
    | cons c0 cs =>
      cases o with
      | nil => simp at hl
      | cons o0 os =>
        simp only [interior_coord, Bool.and_eq_true, decide_eq_true_eq] at hi
        rw [valid_offset_cons] at ho
        simp only [List.length_cons, Nat.add_right_cancel_iff] at hl
        obtain ⟨r, hr⟩ := ih hi.2 ho.2 hl
        simp only [loop_neighbours_bounds, hr, Option.map_some']
        rw [if_neg (by omega), if_neg (by omega)]
        exact ⟨_, rfl⟩

theorem neighbour_list_length_interior {dims c : List Nat}
    (hi : interior_coord dims c = true) :
    (neighbour_list dims c).length = 3 ^ dims.length - 1 := by
  have hM : 1 ≤ 3 ^ dims.length := Nat.one_le_pow _ _ (by norm_num)
  have hk : offset_dist (List.replicate dims.length 0) - 1
      < offset_dist (List.replicate dims.length 0) := by
    rw [offset_dist_zero]; omega
  simp only [neighbour_list, pending_neighbours]
  have : ∀ l : List (List Int), (∀ o ∈ l, valid_offset o ∧ o.length = dims.length) →
      (l.filterMap (fun o => loop_neighbours_bounds dims o c)).length = l.length := by
    intro l
    induction l with
    | nil => simp
    | cons a l ih =>
      intro h
      obtain ⟨x, hx⟩ := loop_neighbours_bounds_interior hi (h a (List.mem_cons_self _ _)).1
        (h a (List.mem_cons_self _ _)).2
      rw [List.filterMap_cons, hx]
      simp [ih (fun o ho => h o (List.mem_cons_of_mem _ ho))]
  rw [this, offset_cycle_length, offset_dist_zero]
  intro o ho
  rw [mem_offset_cycle (valid_offset_replicate _) hk] at ho
  exact ⟨ho.1, by simpa using ho.2.1⟩

theorem offset_reaches_iff {dims c : List Nat} {o : List Int} {x : List Nat}
    (hc : valid_coord dims c = true) (ho : valid_offset o) :
    offset_reaches dims c o x ↔
      valid_coord dims x = true ∧ within_one c x = true ∧ o = offset_of c x := by
  induction dims generalizing c o x with
  | nil =>
    cases c with
    | nil => cases o <;> cases x <;> simp [offset_reaches, valid_coord, within_one, offset_of]
    | cons _ _ => simp [valid_coord] at hc
  | cons d ds ih =>
    cases c with
    | nil => simp [valid_coord] at hc
    | cons c0 cs =>
      rw [valid_coord_cons] at hc
      cases o with
      | nil => cases x <;> simp [offset_reaches, valid_coord, offset_of]
      | cons o0 os =>
        rw [valid_offset_cons] at ho
        cases x with
        | nil => simp [offset_reaches, valid_coord]
        | cons x0 xs =>
          simp only [offset_reaches, ih hc.2 ho.2, valid_coord_cons, within_one_cons, offset_of,
            List.zipWith_cons_cons, List.cons.injEq]
          constructor
          · rintro ⟨⟨h1, h2, h3⟩, h4, h5, h6⟩
            exact ⟨⟨by omega, h4⟩, ⟨by omega, h5⟩, by omega, h6⟩
          · rintro ⟨⟨h1, h4⟩, ⟨h2, h5⟩, h3, h6⟩
            exact ⟨by omega, h4, h5, h6⟩

theorem moore_neighbour_iff_offset {dims c : List Nat} (hc : valid_coord dims c = true)
    (x : List Nat) :
    moore_neighbour dims c x = true ↔
      ∃ o : List Int, valid_offset o ∧ o ≠ List.replicate dims.length 0 ∧
        offset_reaches dims c o x := by
  have hcl := valid_coord_length hc
  simp only [moore_neighbour, Bool.and_eq_true, decide_eq_true_eq]
  constructor
  · rintro ⟨⟨h1, h2⟩, h3⟩
    have hov := offset_of_valid h2
    refine ⟨offset_of c x, hov.1, ?_, (offset_reaches_iff hc hov.1).2 ⟨h1, h2, rfl⟩⟩
    rw [← hcl, Ne, offset_of_eq_zero_iff h2]
    exact h3
  · rintro ⟨o, h1, h2, h3⟩
    rw [offset_reaches_iff hc h1] at h3
    refine ⟨⟨h3.1, h3.2.1⟩, ?_⟩
    intro e
    apply h2
    rw [h3.2.2, ← hcl, offset_of_eq_zero_iff h3.2.1]
    exact e

theorem board__loop_neighbours_step (board : Board) (coord : List Nat) (os : List Int)
    (h : valid_offset os) (hl : os.length = board.n_dim) :
    (pending_neighbours board.dimensions coord os = [] ∧
      board__loop_neighbours board os coord = some none) ∨
    (∃ o' nc, board__loop_neighbours board os coord = some (some (o', nc)) ∧
      pending_neighbours board.dimensions coord os
        = nc :: pending_neighbours board.dimensions coord o' ∧
      valid_offset o' ∧ o'.length = board.n_dim ∧ offset_dist o' < offset_dist os) := by
  have := loop_neighbours_fuel_step board.dimensions coord (3 ^ board.n_dim) os h
    (by rw [← hl]; exact (offset_dist_bounds os h).2)
  rcases this with h1 | ⟨o', nc, h1, h2, h3, h4, h5⟩
  · left; exact h1
  · right; exact ⟨o', nc, h1, h2, h3, by omega, h5⟩

theorem enumerate_neighbours_eq (board : Board) (coord : List Nat) :
    ∀ (fuel : Nat) (os : List Int), valid_offset os → os.length = board.n_dim →
      offset_dist os ≤ fuel →
      enumerate_neighbours fuel board os coord
        = some (pending_neighbours board.dimensions coord os) := by
  intro fuel
  induction fuel with
  | zero =>
    intro os h _ hf
    have := (offset_dist_bounds os h).1
    omega
  | succ fuel ih =>
    intro os h hl hf
    rcases board__loop_neighbours_step board coord os h hl with
      ⟨h1, h2⟩ | ⟨o', nc, h1, h2, h3, h4, h5⟩
    · simp [enumerate_neighbours, h1, h2]
    · simp [enumerate_neighbours, h1, h2, ih o' h3 h4 (by omega)]

/-- C6: on a valid board and for a valid centre, calling
`board__loop_neighbours` from the all-zero offset until it returns false
terminates and yields a duplicate-free list of coordinates; the centre is not
in it, every member is in bounds, the members are exactly the coordinates
`centre + o` with `o` in `{-1,0,1}^N`, `o ≠ 0` and
`0 ≤ centre[n] + o[n] < dimensions[n]` on every axis, and an interior centre
yields `3^N - 1` coordinates. -/
theorem C6_loop_neighbours_enumerates (board : Board) (coord : List Nat) (hv : board.valid)
    (hc : valid_coord board.dimensions coord = true) :
    ∃ L, enumerate_neighbours (3 ^ board.n_dim) board (List.replicate board.n_dim 0) coord
        = some L ∧
      L.Nodup ∧ coord ∉ L ∧ (∀ x ∈ L, valid_coord board.dimensions x = true) ∧
      (∀ x, x ∈ L ↔ ∃ o : List Int, valid_offset o ∧ o ≠ List.replicate board.n_dim 0 ∧
        offset_reaches board.dimensions coord o x) ∧
      (interior_coord board.dimensions coord = true → L.length = 3 ^ board.n_dim - 1) := by
  have _ := hv
  refine ⟨neighbour_list board.dimensions coord, ?_, neighbour_list_nodup hc, ?_, ?_, ?_, ?_⟩
  · rw [enumerate_neighbours_eq board coord _ _ (valid_offset_replicate _) (by simp)]
    · rfl
    · rw [offset_dist_zero]
  · rw [mem_neighbour_list hc]
    simp [moore_neighbour]
  · intro x hx
    rw [mem_neighbour_list hc] at hx
    simp only [moore_neighbour, Bool.and_eq_true] at hx
    exact hx.1.1
  · intro x
    rw [mem_neighbour_list hc, moore_neighbour_iff_offset hc]
    rfl
  · intro hi
    exact neighbour_list_length_interior hi

/-- C6 witness: the cell `(1,1)` of a 3 x 3 board is interior and has the
`3^2 - 1 = 8` neighbours. -/
theorem C6_witness :
    ∃ L, enumerate_neighbours (3 ^ 2) ⟨[3, 3], List.replicate 9 default⟩
        (List.replicate 2 0) [1, 1] = some L ∧
      L.Nodup ∧ [1, 1] ∉ L ∧ (∀ x ∈ L, valid_coord [3, 3] x = true) ∧
      (∀ x, x ∈ L ↔ ∃ o : List Int, valid_offset o ∧ o ≠ List.replicate 2 0 ∧
        offset_reaches [3, 3] [1, 1] o x) ∧
      (interior_coord [3, 3] [1, 1] = true → L.length = 3 ^ 2 - 1) :=
  C6_loop_neighbours_enumerates ⟨[3, 3], List.replicate 9 default⟩ [1, 1]
    ⟨by decide, by decide, by decide, by decide⟩ (by decide)

/-! ## Neighbour counts -/

theorem count_mines_while_eq (board : Board) (coord : List Nat) :
    ∀ (fuel : Nat) (os : List Int) (acc : Nat), valid_offset os → os.length = board.n_dim →
      offset_dist os ≤ fuel →
      count_mines_while fuel board os coord acc
        = some (acc + (pending_neighbours board.dimensions coord os).countP
            (fun x => (board.cell_at x).mine)) := by
  intro fuel
  induction fuel with
  | zero =>
    intro os _ h _ hf
    have := (offset_dist_bounds os h).1
    omega
  | succ fuel ih =>
    intro os acc h hl hf
    rcases board__loop_neighbours_step board coord os h hl with
      ⟨h1, h2⟩ | ⟨o', nc, h1, h2, h3, h4, h5⟩
    · simp [count_mines_while, h1, h2]
    · simp only [count_mines_while, h1, h2, ih o' _ h3 h4 (by omega), List.countP_cons,
        Board.cell_at]
      congr 1
      split_ifs <;> omega

theorem compute_neighbour_values_body_eq (board : Board) (coord : List Nat) :
    compute_neighbour_values_body board coord
      = some (board.set_neighbour_mine_amount (board__coord_to_index board coord)
          (if (board.cell (board__coord_to_index board coord)).mine then 0
           else (neighbour_list board.dimensions coord).countP
              (fun x => (board.cell_at x).mine))) := by
  simp only [compute_neighbour_values_body]
  rw [count_mines_while_eq board coord _ _ 0 (valid_offset_replicate _) (by simp)
    (by rw [offset_dist_zero])]
  simp [neighbour_list, Board.n_dim]

theorem board__compute_neighbour_values_cells {board : Board} (hv : board.valid) :
    ∃ board', board__compute_neighbour_values board = some board' ∧
      board'.dimensions = board.dimensions ∧ board'.cells.length = board.cells.length ∧
      ∀ j, (board'.cell j).mine = (board.cell j).mine ∧
        (board'.cell j).state = (board.cell j).state ∧
        (j < board.dimensions.prod → (board'.cell j).neighbour_mine_amount =
          if (board.cell j).mine then 0
          else (neighbour_list board.dimensions (index_to_coord_loop board.dimensions j)).countP
            (fun x => (board.cell_at x).mine)) := by
  have hne := hv.1
  have hlen := hv.2.2.1
  have hpos := valid_prod_pos hv
  have key := do_while_loop_cells_inv compute_neighbour_values_body board.dimensions hne
    (fun i b => b.cells.length = board.cells.length ∧
      ∀ j, (b.cell j).mine = (board.cell j).mine ∧ (b.cell j).state = (board.cell j).state ∧
        (b.cell j).neighbour_mine_amount =
          if j < i then
            (if (board.cell j).mine then 0
             else (neighbour_list board.dimensions
                (index_to_coord_loop board.dimensions j)).countP
              (fun x => (board.cell_at x).mine))
          else (board.cell j).neighbour_mine_amount)
    (by
      intro i b hi hd ⟨hl, hP⟩
      have hidx : board__coord_to_index b (index_to_coord_loop board.dimensions i) = i := by
        rw [board__coord_to_index, hd]; exact coord_to_index_to_coord hv.2.2.2 hi
      have hil : i < b.cells.length := by omega
      have hfun : (fun x => (b.cell_at x).mine) = (fun x => (board.cell_at x).mine) := by
        funext x
        simp only [Board.cell_at, board__coord_to_index, hd]
        exact (hP _).1
      rw [compute_neighbour_values_body_eq, hidx, hd, hfun, (hP i).1]
      refine ⟨_, rfl, hd, by simpa using hl, ?_⟩
      intro j
      rw [set_amount_mine, set_amount_state, set_amount_amount]
      refine ⟨(hP j).1, (hP j).2.1, ?_⟩
      by_cases hj : j = i
      · subst hj; simp [hil]
      · have : (j < i + 1) ↔ (j < i) := by omega
        simp only [hj, false_and, if_false, this]
        exact (hP j).2.2)
    board.dimensions.prod 0 board hpos rfl ⟨rfl, by simp⟩ (by omega)
  obtain ⟨b', hb', hd', hl', hP'⟩ := key
  refine ⟨b', ?_, hd', hl', ?_⟩
  · rw [board__compute_neighbour_values, Board.length, Board.n_dim, ← index_to_coord_zero]
    exact hb'
  · intro j
    refine ⟨(hP' j).1, (hP' j).2.1, fun hj => ?_⟩
    rw [(hP' j).2.2, if_pos hj]

theorem cell_at_eq {b b' : Board} (h : b'.dimensions = b.dimensions) (x : List Nat) :
    b'.cell_at x = b'.cell (board__coord_to_index b x) := by
  simp only [Board.cell_at, board__coord_to_index, h]

theorem countP_eq_card {dims c : List Nat} (hc : valid_coord dims c = true)
    (p : List Nat → Bool) :
    ∃ S : Finset (List Nat), (∀ y, y ∈ S ↔ moore_neighbour dims c y = true ∧ p y = true) ∧
      (neighbour_list dims c).countP p = S.card := by
  refine ⟨((neighbour_list dims c).filter p).toFinset, ?_, ?_⟩
  · intro y
    rw [List.mem_toFinset, List.mem_filter, mem_neighbour_list hc]
  · rw [List.toFinset_card_of_nodup ((neighbour_list_nodup hc).filter _),
      List.countP_eq_length_filter]

/-- C7: on a valid board `board__compute_neighbour_values` returns, changes no
mine flag and no state, and stores at every valid coordinate 0 if the cell is a
mine and otherwise the number of the in-bounds Moore neighbours that are mines
(the cardinality of the set of those neighbours); on a board without mines
every stored count is 0. -/
theorem C7_compute_neighbour_values (board : Board) (hv : board.valid) :
    ∃ board', board__compute_neighbour_values board = some board' ∧
      board'.dimensions = board.dimensions ∧
      (∀ x, valid_coord board.dimensions x = true →
        (board'.cell_at x).mine = (board.cell_at x).mine ∧
        (board'.cell_at x).state = (board.cell_at x).state ∧
        ((board.cell_at x).mine = true → (board'.cell_at x).neighbour_mine_amount = 0) ∧
        ((board.cell_at x).mine = false →
          ∃ S : Finset (List Nat),
            (∀ y, y ∈ S ↔
              moore_neighbour board.dimensions x y = true ∧ (board.cell_at y).mine = true) ∧
            (board'.cell_at x).neighbour_mine_amount = S.card)) ∧
      ((∀ x, valid_coord board.dimensions x = true → (board.cell_at x).mine = false) →
        ∀ x, valid_coord board.dimensions x = true →
          (board'.cell_at x).neighbour_mine_amount = 0) := by
  obtain ⟨b', hb', hd', _, hcells⟩ := board__compute_neighbour_values_cells hv
  have hamount : ∀ x, valid_coord board.dimensions x = true →
      (b'.cell_at x).neighbour_mine_amount =
        if (board.cell_at x).mine then 0
        else (neighbour_list board.dimensions x).countP (fun y => (board.cell_at y).mine) := by
    intro x hx
    have h1 := (hcells (board__coord_to_index board x)).2.2 (coord_to_index_lt hv.2.2.2 hx)
    rw [cell_at_eq hd', h1]
    simp only [board__coord_to_index, index_to_coord_to_index hv.2.2.2 hx, Board.cell_at]
  refine ⟨b', hb', hd', ?_, ?_⟩
  · intro x hx
    rw [hamount x hx, cell_at_eq hd']
    refine ⟨(hcells _).1, (hcells _).2.1, ?_, ?_⟩
    · intro h; simp [h]
    · intro h
      obtain ⟨S, hS, hcard⟩ := countP_eq_card hx (fun y => (board.cell_at y).mine)
      exact ⟨S, hS, by simp [h, hcard]⟩
  · intro hno x hx
    rw [hamount x hx]
    split_ifs
    · rfl
    · rw [List.countP_eq_zero]
      intro y hy
      rw [mem_neighbour_list hx] at hy
      simp only [moore_neighbour, Bool.and_eq_true] at hy
      simp [hno y hy.1.1]

/-- C7 witness: the 2 x 2 board with one mine at `(0,0)`. -/
theorem C7_witness :
    ∃ board', board__compute_neighbour_values
        ⟨[2, 2], [⟨0, true, Board__Cell__State.COVERED⟩, default, default, default]⟩
          = some board' ∧
      board'.dimensions = [2, 2] ∧
      (∀ x, valid_coord [2, 2] x = true →
        (board'.cell_at x).mine
          = ((⟨[2, 2], [⟨0, true, Board__Cell__State.COVERED⟩, default, default, default]⟩ :
              Board).cell_at x).mine ∧
        (board'.cell_at x).state
          = ((⟨[2, 2], [⟨0, true, Board__Cell__State.COVERED⟩, default, default, default]⟩ :
              Board).cell_at x).state ∧
        (((⟨[2, 2], [⟨0, true, Board__Cell__State.COVERED⟩, default, default, default]⟩ :
              Board).cell_at x).mine = true → (board'.cell_at x).neighbour_mine_amount = 0) ∧
        (((⟨[2, 2], [⟨0, true, Board__Cell__State.COVERED⟩, default, default, default]⟩ :
              Board).cell_at x).mine = false →
          ∃ S : Finset (List Nat),
            (∀ y, y ∈ S ↔
              moore_neighbour [2, 2] x y = true ∧
              ((⟨[2, 2], [⟨0, true, Board__Cell__State.COVERED⟩, default, default, default]⟩ :
                Board).cell_at y).mine = true) ∧
            (board'.cell_at x).neighbour_mine_amount = S.card)) ∧
      ((∀ x, valid_coord [2, 2] x = true →
          ((⟨[2, 2], [⟨0, true, Board__Cell__State.COVERED⟩, default, default, default]⟩ :
              Board).cell_at x).mine = false) →
        ∀ x, valid_coord [2, 2] x = true → (board'.cell_at x).neighbour_mine_amount = 0) :=
  C7_compute_neighbour_values
    ⟨[2, 2], [⟨0, true, Board__Cell__State.COVERED⟩, default, default, default]⟩
    ⟨by decide, by decide, by decide, by decide⟩

theorem mixed_radix_loop_eq_sum (ds cs : List Nat) :
    mixed_radix_loop ds cs 0 1
      = ∑ n in Finset.range ds.length, cs.getD n 0 * (ds.take n).prod := by
  induction ds generalizing cs with
  | nil => simp [mixed_radix_loop]
  | cons d ds ih =>
    cases cs with
    | nil => simp [mixed_radix_loop]
    | cons c cs =>
      rw [mixed_radix_loop_cons, ih cs, List.length_cons, Finset.sum_range_succ',
        Finset.mul_sum]
      simp only [List.getD_cons_succ, List.take_succ_cons, List.prod_cons, List.getD_cons_zero,
        List.take_zero, List.prod_nil, mul_one]
      rw [add_comm]
      congr 1
      apply Finset.sum_congr rfl
      intro n _
      ring

/-- On valid coordinates of a board with fewer than `2^64` cells the index is
the mixed-radix sum; for every coordinate it is that sum modulo `2^64`. -/
theorem coord_to_index_loop_eq_sum (ds cs : List Nat) :
    coord_to_index_loop ds cs 0 1
      = (∑ n in Finset.range ds.length, cs.getD n 0 * (ds.take n).prod) % 2 ^ 64 := by
  rw [coord_to_index_loop_eq_mod, mixed_radix_loop_eq_sum]

theorem coord_to_index_loop_eq_sum_valid {ds cs : List Nat} (hsz : ds.prod < 2 ^ 64)
    (h : valid_coord ds cs = true) :
    coord_to_index_loop ds cs 0 1
      = ∑ n in Finset.range ds.length, cs.getD n 0 * (ds.take n).prod := by
  rw [coord_to_index_eq hsz h, mixed_radix_loop_eq_sum]

/-- C8 (`board__index_to_coord` modelled from the spec): on a valid board and
for every valid coordinate `board__coord_to_index` computes
`Σ coord[n] * Π_{k<n} dimensions[k]`; on valid coordinates its values lie in
`[0, total_cells)` and distinct coordinates get distinct indices; every index
below `total_cells` is the index of the valid coordinate
`board__index_to_coord` returns, and decoding the index of a valid coordinate
gives the coordinate back. -/
theorem C8_coord_to_index_bijection (board : Board) (hv : board.valid) :
    (∀ coord, valid_coord board.dimensions coord = true →
        board__coord_to_index board coord
          = ∑ n in Finset.range board.n_dim, coord.getD n 0 * (board.dimensions.take n).prod) ∧
    (∀ coord, valid_coord board.dimensions coord = true →
        board__coord_to_index board coord < board.dimensions.prod) ∧
    (∀ c c', valid_coord board.dimensions c = true → valid_coord board.dimensions c' = true →
        board__coord_to_index board c = board__coord_to_index board c' → c = c') ∧
    (∀ i, i < board.dimensions.prod →
        valid_coord board.dimensions (board__index_to_coord board i) = true ∧
        board__coord_to_index board (board__index_to_coord board i) = i) ∧
    (∀ coord, valid_coord board.dimensions coord = true →
        board__index_to_coord board (board__coord_to_index board coord) = coord) :=
  ⟨fun _ h => coord_to_index_loop_eq_sum_valid hv.2.2.2 h,
    fun _ h => coord_to_index_lt hv.2.2.2 h,
    fun _ _ h h' e => coord_to_index_inj hv.2.2.2 h h' e,
    fun _ hi => ⟨valid_index_to_coord hi, coord_to_index_to_coord hv.2.2.2 hi⟩,
    fun _ h => index_to_coord_to_index hv.2.2.2 h⟩

/-- C8 witness: the 2 x 3 x 4 board. -/
theorem C8_witness :
    (∀ coord, valid_coord [2, 3, 4] coord = true →
        board__coord_to_index ⟨[2, 3, 4], List.replicate 24 default⟩ coord
          = ∑ n in Finset.range (Board.n_dim ⟨[2, 3, 4], List.replicate 24 default⟩),
              coord.getD n 0 * (([2, 3, 4] : List Nat).take n).prod) ∧
    (∀ coord, valid_coord [2, 3, 4] coord = true →
        board__coord_to_index ⟨[2, 3, 4], List.replicate 24 default⟩ coord
          < ([2, 3, 4] : List Nat).prod) ∧
    (∀ c c', valid_coord [2, 3, 4] c = true → valid_coord [2, 3, 4] c' = true →
        board__coord_to_index ⟨[2, 3, 4], List.replicate 24 default⟩ c
          = board__coord_to_index ⟨[2, 3, 4], List.replicate 24 default⟩ c' → c = c') ∧
    (∀ i, i < ([2, 3, 4] : List Nat).prod →
        valid_coord [2, 3, 4]
          (board__index_to_coord ⟨[2, 3, 4], List.replicate 24 default⟩ i) = true ∧
        board__coord_to_index ⟨[2, 3, 4], List.replicate 24 default⟩
          (board__index_to_coord ⟨[2, 3, 4], List.replicate 24 default⟩ i) = i) ∧
    (∀ coord, valid_coord [2, 3, 4] coord = true →
        board__index_to_coord ⟨[2, 3, 4], List.replicate 24 default⟩
          (board__coord_to_index ⟨[2, 3, 4], List.replicate 24 default⟩ coord) = coord) :=
  C8_coord_to_index_bijection ⟨[2, 3, 4], List.replicate 24 default⟩
    ⟨by decide, by decide, by decide, by decide⟩

/-! ## The cascade -/

theorem countP_set_of_false {α : Type} (p : α → Bool) (l : List α) (i : Nat) (a : α)
    (ha : p a = false) (hi : i < l.length) :
    (l.set i a).countP p + (if p (l.getD i a) then 1 else 0) = l.countP p := by
  induction l generalizing i with
  | nil => simp at hi
  | cons x l ih =>
    cases i with
    | zero =>
      simp only [List.set_cons_zero, List.countP_cons, ha, List.getD_cons_zero]
      simp
    | succ i =>
      simp only [List.length_cons, Nat.add_lt_add_iff_right] at hi
      have := ih i hi
      simp only [List.set_cons_succ, List.countP_cons, List.getD_cons_succ]
      omega

theorem covered_set_state (b : Board) (i : Nat) (hi : i < b.cells.length) :
    (b.set_state i Board__Cell__State.UNCOVERED).covered
      + (if (b.cell i).state ≠ Board__Cell__State.UNCOVERED then 1 else 0) = b.covered := by
  have := countP_set_of_false (fun cell : Board__Cell => cell.state ≠ Board__Cell__State.UNCOVERED)
    b.cells i { b.cell i with state := Board__Cell__State.UNCOVERED } (by simp) hi
  simp only [Board.covered, Board.set_state, Board.set_cell]
  rw [← this]
  congr 1
  have e : b.cells.getD i { b.cell i with state := Board__Cell__State.UNCOVERED } = b.cell i := by
    simp only [Board.cell, List.getD_eq_getElem?_getD, List.getElem?_eq_getElem hi,
      Option.getD_some]
  rw [e]
  simp

theorem Frame.refl (b : Board) : Frame b b :=
  ⟨rfl, rfl, Nat.le_refl _, fun _ => rfl, fun _ => rfl, fun _ => Or.inl rfl⟩

theorem Frame.trans {b b' b'' : Board} (h : Frame b b') (h' : Frame b' b'') : Frame b b'' := by
  refine ⟨h'.dimensions.trans h.dimensions, h'.length.trans h.length,
    Nat.le_trans h'.covered h.covered, fun j => (h'.mine j).trans (h.mine j),
    fun j => (h'.amount j).trans (h.amount j), fun j => ?_⟩
  rcases h'.state j with e | e
  · rw [e]; exact h.state j
  · exact Or.inr e

theorem Frame.set_state (b : Board) (i : Nat) :
    Frame b (b.set_state i Board__Cell__State.UNCOVERED) := by
  refine ⟨rfl, by simp, ?_, fun j => by simp, fun j => by simp, fun j => ?_⟩
  · by_cases hi : i < b.cells.length
    · have := covered_set_state b i hi
      omega
    · have : b.set_state i Board__Cell__State.UNCOVERED = b := by
        simp only [Board.set_state, Board.set_cell]
        rw [List.set_eq_of_length_le (Nat.le_of_not_lt hi)]
      rw [this]
  · rw [set_state_state]
    split_ifs with h
    · exact Or.inr rfl
    · exact Or.inl rfl

theorem Frame.uncovered {b b' : Board} (h : Frame b b') {j : Nat}
    (hj : (b.cell j).state = Board__Cell__State.UNCOVERED) :
    (b'.cell j).state = Board__Cell__State.UNCOVERED := by
  rcases h.state j with e | e
  · rw [e, hj]
  · exact e

theorem cascade_call_some {fuel : Nat} {b : Board} {log : List (List Nat)} {c : List Nat}
    {r : Board × List (List Nat)} (h : cascade_call (fuel + 1) b log c = some r) :
    ((b.cell (board__coord_to_index b c)).neighbour_mine_amount ≠ 0 ∧ r = (b, log)) ∨
    ((b.cell (board__coord_to_index b c)).neighbour_mine_amount = 0 ∧
      cascade_list fuel b (c :: log) (neighbour_list b.dimensions c) = some r) := by
  simp only [cascade_call] at h
  split_ifs at h with h1
  · left; exact ⟨h1, (Option.some.inj h).symm⟩
  · right; exact ⟨by simpa using h1, h⟩

theorem cascade_list_cons_some {fuel : Nat} {b : Board} {log : List (List Nat)} {nc : List Nat}
    {rest : List (List Nat)} {r : Board × List (List Nat)}
    (h : cascade_list (fuel + 1) b log (nc :: rest) = some r) :
    ∃ b2 log2,
      (((b.cell (board__coord_to_index b nc)).state ≠ Board__Cell__State.UNCOVERED ∧
          cascade_call fuel (b.set_state (board__coord_to_index b nc)
            Board__Cell__State.UNCOVERED) log nc = some (b2, log2)) ∨
        ((b.cell (board__coord_to_index b nc)).state = Board__Cell__State.UNCOVERED ∧
          b2 = b.set_state (board__coord_to_index b nc) Board__Cell__State.UNCOVERED ∧
          log2 = log)) ∧
      cascade_list fuel b2 log2 rest = some r := by
  simp only [cascade_list] at h
  split at h
  · simp at h
  · rename_i b2 log2 heq
    refine ⟨b2, log2, ?_, h⟩
    split_ifs at heq with h1
    · left; exact ⟨h1, heq⟩
    · right
      simp only [Option.some.injEq, Prod.mk.injEq] at heq
      exact ⟨by simpa using h1, heq.1.symm, heq.2.symm⟩

theorem cascade_frame : ∀ fuel : Nat,
    (∀ b log c b' log', cascade_call fuel b log c = some (b', log') → Frame b b') ∧
    (∀ b log l b' log', cascade_list fuel b log l = some (b', log') → Frame b b') := by
  intro fuel
  induction fuel with
  | zero => exact ⟨fun _ _ _ _ _ h => by simp [cascade_call] at h,
      fun _ _ _ _ _ h => by simp [cascade_list] at h⟩
  | succ fuel ih =>
    refine ⟨?_, ?_⟩
    · intro b log c b' log' h
      rcases cascade_call_some h with ⟨_, h2⟩ | ⟨_, h2⟩
      · simp only [Prod.mk.injEq] at h2
        rw [h2.1]; exact Frame.refl b
      · exact ih.2 _ _ _ _ _ h2
    · intro b log l b' log' h
      cases l with
      | nil =>
        simp only [cascade_list, Option.some.injEq, Prod.mk.injEq] at h
        rw [← h.1]; exact Frame.refl b
      | cons nc rest =>
        obtain ⟨b2, log2, h1, h2⟩ := cascade_list_cons_some h
        refine Frame.trans ?_ (ih.2 _ _ _ _ _ h2)
        rcases h1 with ⟨_, h3⟩ | ⟨_, h3, _⟩
        · exact Frame.trans (Frame.set_state b (board__coord_to_index b nc)) (ih.1 _ _ _ _ _ h3)
        · rw [h3]; exact Frame.set_state b _

theorem uncover_zero_eq_cascade : ∀ fuel : Nat,
    (∀ b log c, uncover_zero_fuel fuel b log c = cascade_call fuel b log c) ∧
    (∀ b log os c, valid_offset os → os.length = b.n_dim →
      uncover_zero_while fuel b log os c
        = cascade_list fuel b log (pending_neighbours b.dimensions c os)) := by
  intro fuel
  induction fuel with
  | zero => exact ⟨fun _ _ _ => rfl, fun _ _ _ _ _ _ => by simp [uncover_zero_while, cascade_list]⟩
  | succ fuel ih =>
    refine ⟨?_, ?_⟩
    · intro b log c
      simp only [uncover_zero_fuel, cascade_call]
      rw [ih.2 b (c :: log) _ c (valid_offset_replicate _) (by simp)]
      rfl
    · intro b log os c hv hl
      rcases board__loop_neighbours_step b c os hv hl with
        ⟨h1, h2⟩ | ⟨o', nc, h1, h2, h3, h4, _⟩
      · simp only [uncover_zero_while, h2, h1, cascade_list]
      · simp only [uncover_zero_while, h1, h2, cascade_list, ih.1]
        cases hm : (if (b.cell (board__coord_to_index b nc)).state ≠ Board__Cell__State.UNCOVERED
            then cascade_call fuel
              (b.set_state (board__coord_to_index b nc) Board__Cell__State.UNCOVERED) log nc
            else some (b.set_state (board__coord_to_index b nc)
              Board__Cell__State.UNCOVERED, log)) with
        | none => rfl
        | some r =>
          obtain ⟨b2, log2⟩ := r
          have hd : b2.dimensions = b.dimensions := by
            split_ifs at hm with hc
            · exact ((cascade_frame fuel).1 _ _ _ _ _ hm).dimensions
            · simp only [Option.some.injEq, Prod.mk.injEq] at hm
              rw [← hm.1]; rfl
          simp only []
          rw [ih.2 b2 log2 o' c h3 (by rw [h4]; simp [Board.n_dim, hd]), hd]

theorem neighbour_list_valid {dims c : List Nat} (hc : valid_coord dims c = true)
    {x : List Nat} (hx : x ∈ neighbour_list dims c) : valid_coord dims x = true := by
  rw [mem_neighbour_list hc] at hx
  simp only [moore_neighbour, Bool.and_eq_true] at hx
  exact hx.1.1

theorem neighbour_list_length_lt (dims c : List Nat) :
    (neighbour_list dims c).length < 3 ^ dims.length := by
  have := pending_neighbours_length_lt dims c (List.replicate dims.length 0)
    (valid_offset_replicate _)
  rw [offset_dist_zero] at this
  exact this

theorem cascade_terminates_aux (dims : List Nat) (M : Nat)
    (hM : ∀ c, (neighbour_list dims c).length < M) (hsz : dims.prod < 2 ^ 64) : ∀ fuel : Nat,
    (∀ b log c, b.dimensions = dims → b.cells.length = dims.prod →
      valid_coord dims c = true → (b.covered + 1) * (M + 1) ≤ fuel →
      ∃ r, cascade_call fuel b log c = some r) ∧
    (∀ b log l, b.dimensions = dims → b.cells.length = dims.prod →
      (∀ nc ∈ l, valid_coord dims nc = true) →
      l.length + 1 + b.covered * (M + 1) ≤ fuel →
      ∃ r, cascade_list fuel b log l = some r) := by
  intro fuel
  induction fuel with
  | zero =>
    refine ⟨fun b _ _ _ _ _ h => ?_, fun _ _ _ _ _ _ h => by omega⟩
    have : (b.covered + 1) * (M + 1)
        = b.covered * (M + 1) + M + 1 := by ring
    omega
  | succ fuel ih =>
    refine ⟨?_, ?_⟩
    · intro b log c hd hl hc hf
      simp only [cascade_call]
      split_ifs with h1
      · exact ⟨_, rfl⟩
      · have hlen := hM c
        have : (b.covered + 1) * (M + 1)
            = b.covered * (M + 1) + M + 1 := by ring
        rw [hd]
        exact ih.2 b _ _ hd hl (fun nc hnc => neighbour_list_valid hc hnc) (by omega)
    · intro b log l hd hl hv hf
      cases l with
      | nil => exact ⟨_, rfl⟩
      | cons nc rest =>
        have hnc := hv nc (List.mem_cons_self _ _)
        have hrest : ∀ x ∈ rest, valid_coord dims x = true :=
          fun x hx => hv x (List.mem_cons_of_mem _ hx)
        have hi : board__coord_to_index b nc < b.cells.length := by
          rw [hl, board__coord_to_index, hd]; exact coord_to_index_lt hsz hnc
        have hcov := covered_set_state b _ hi
        simp only [List.length_cons] at hf
        simp only [cascade_list]
        by_cases hcont : (b.cell (board__coord_to_index b nc)).state
            ≠ Board__Cell__State.UNCOVERED
        · rw [if_pos hcont] at hcov ⊢
          have hmul : (b.set_state (board__coord_to_index b nc)
              Board__Cell__State.UNCOVERED).covered * (M + 1)
                + (M + 1) = b.covered * (M + 1) := by
            rw [← hcov]; ring
          obtain ⟨⟨b2, log2⟩, h2⟩ := ih.1 (b.set_state (board__coord_to_index b nc)
            Board__Cell__State.UNCOVERED) log nc hd (by simpa using hl) hnc
            (by
              have : ((b.set_state (board__coord_to_index b nc)
                  Board__Cell__State.UNCOVERED).covered + 1) * (M + 1)
                  = (b.set_state (board__coord_to_index b nc)
                      Board__Cell__State.UNCOVERED).covered * (M + 1)
                    + (M + 1) := by ring
              omega)
          have hfr := (cascade_frame fuel).1 _ _ _ _ _ h2
          rw [h2]
          simp only []
          have hle : b2.covered * (M + 1)
              ≤ (b.set_state (board__coord_to_index b nc)
                  Board__Cell__State.UNCOVERED).covered * (M + 1) :=
            Nat.mul_le_mul_right _ hfr.covered
          exact ih.2 b2 log2 rest (hfr.dimensions.trans hd)
            (hfr.length.trans (by simpa using hl)) hrest (by omega)
        · rw [if_neg hcont]
          simp only []
          have hle : (b.set_state (board__coord_to_index b nc)
                  Board__Cell__State.UNCOVERED).covered * (M + 1)
              ≤ b.covered * (M + 1) :=
            Nat.mul_le_mul_right _ (Frame.set_state b _).covered
          exact ih.2 _ log rest hd (by simpa using hl) hrest (by omega)

/-- Termination of the cascade: fuel proportional to the number of cells that
are not `UNCOVERED` is enough, because that number drops by one before every
nested call. -/
theorem cascade_terminates {b : Board} (log : List (List Nat)) {c : List Nat}
    (hl : b.cells.length = b.dimensions.prod) (hsz : b.dimensions.prod < 2 ^ 64)
    (hc : valid_coord b.dimensions c = true)
    {fuel : Nat} (hf : (b.covered + 1) * (3 ^ b.n_dim + 1) ≤ fuel) :
    ∃ r, cascade_call fuel b log c = some r :=
  (cascade_terminates_aux b.dimensions (3 ^ b.dimensions.length)
    (neighbour_list_length_lt b.dimensions) hsz fuel).1 b log c rfl hl hc hf

theorem state_at_set_state {dims : List Nat} {b : Board} {nc x : List Nat}
    (hl : b.cells.length = dims.prod) (hsz : dims.prod < 2 ^ 64)
    (hnc : valid_coord dims nc = true)
    (hx : valid_coord dims x = true) (s : Board__Cell__State) :
    state_at dims (b.set_state (coord_to_index_loop dims nc 0 1) s) x
      = if x = nc then s else state_at dims b x := by
  rw [state_at, set_state_state]
  have hi : coord_to_index_loop dims nc 0 1 < b.cells.length := by
    rw [hl]; exact coord_to_index_lt hsz hnc
  by_cases e : x = nc
  · subst e; simp [hi]
  · have : coord_to_index_loop dims x 0 1 ≠ coord_to_index_loop dims nc 0 1 :=
      fun h => e (coord_to_index_inj hsz hx hnc h)
    simp [this, e, state_at]

theorem Frame.keeps_state_at {b b' : Board} (h : Frame b b') (dims : List Nat) (y : List Nat) :
    state_at dims b' y = state_at dims b y ∨
      state_at dims b' y = Board__Cell__State.UNCOVERED :=
  h.state _

theorem Frame.unc_at {b b' : Board} (h : Frame b b') {dims : List Nat} {y : List Nat}
    (hy : state_at dims b y = Board__Cell__State.UNCOVERED) :
    state_at dims b' y = Board__Cell__State.UNCOVERED :=
  h.uncovered hy

theorem Frame.not_unc_at {b b' : Board} (h : Frame b b') {dims : List Nat} {y : List Nat}
    (hy : state_at dims b' y ≠ Board__Cell__State.UNCOVERED) :
    state_at dims b y ≠ Board__Cell__State.UNCOVERED :=
  fun e => hy (h.unc_at e)

theorem cascade_spec (dims : List Nat) (amt : Nat → Nat) (hsz : dims.prod < 2 ^ 64) :
    ∀ fuel : Nat,
    (∀ b log c b' log', b.dimensions = dims → b.cells.length = dims.prod →
      (∀ j, (b.cell j).neighbour_mine_amount = amt j) → valid_coord dims c = true →
      state_at dims b c = Board__Cell__State.UNCOVERED →
      cascade_call fuel b log c = some (b', log') →
      ∃ new, log' = new ++ log ∧ CallPost dims amt b b' c new) ∧
    (∀ b log l b' log', b.dimensions = dims → b.cells.length = dims.prod →
      (∀ j, (b.cell j).neighbour_mine_amount = amt j) →
      (∀ nc ∈ l, valid_coord dims nc = true) →
      cascade_list fuel b log l = some (b', log') →
      ∃ new, log' = new ++ log ∧ ListPost dims amt b b' l new) := by
  intro fuel
  induction fuel with
  | zero => exact ⟨fun _ _ _ _ _ _ _ _ _ _ h => by simp [cascade_call] at h,
      fun _ _ _ _ _ _ _ _ _ h => by simp [cascade_list] at h⟩
  | succ fuel ih =>
    refine ⟨?_, ?_⟩
    · intro b log c b' log' hd hl hamt hc hunc h
      have hix : board__coord_to_index b c = coord_to_index_loop dims c 0 1 := by
        rw [board__coord_to_index, hd]
      rcases cascade_call_some h with ⟨h1, h2⟩ | ⟨h1, h2⟩
      · simp only [Prod.mk.injEq] at h2
        obtain ⟨rfl, rfl⟩ := h2
        rw [hix, hamt] at h1
        exact ⟨[], rfl, ⟨List.nodup_nil, by simp, by simp, by simp, by simp, by simp, by simp,
          fun y _ hne => absurd rfl hne, fun y _ h3 h4 => absurd h4 h3, fun h0 => absurd h0 h1⟩⟩
      · rw [hix, hamt] at h1
        rw [hd] at h2
        obtain ⟨new, hlog, P⟩ := ih.2 b (c :: log) _ b' log' hd hl hamt
          (fun nc hnc => neighbour_list_valid hc hnc) h2
        have hfr := (cascade_frame fuel).2 _ _ _ _ _ h2
        have hcn : c ∉ new := fun hmem => P.fresh c hmem hunc
        refine ⟨new ++ [c], by rw [hlog]; simp, ?_⟩
        constructor
        · rw [List.nodup_append]
          refine ⟨P.nodup, List.nodup_singleton c, ?_⟩
          intro a ha ha'
          rw [List.mem_singleton] at ha'
          exact hcn (ha' ▸ ha)
        · intro e he
          rcases List.mem_append.1 he with he | he
          · exact P.valid e he
          · rw [List.mem_singleton.1 he]; exact hc
        · intro e he
          rcases List.mem_append.1 he with he | he
          · exact P.zero e he
          · rw [List.mem_singleton.1 he]; exact h1
        · intro e he
          rcases List.mem_append.1 he with he | he
          · exact Or.inr (P.fresh e he)
          · exact Or.inl (List.mem_singleton.1 he)
        · intro e he
          rcases List.mem_append.1 he with he | he
          · exact P.unc e he
          · rw [List.mem_singleton.1 he]; exact hfr.unc_at hunc
        · intro e he
          rcases List.mem_append.1 he with he | he
          · exact P.closed e he
          · rw [List.mem_singleton.1 he]; exact P.all
        · intro e he
          refine ⟨h1, ?_⟩
          rcases List.mem_append.1 he with he | he
          · obtain ⟨r, hr, hr0, hre⟩ := P.reached e he
            exact Relation.ReflTransGen.head ⟨hr, hr0⟩ hre
          · rw [List.mem_singleton.1 he]; exact Relation.ReflTransGen.refl
        · intro y hy hne
          rcases P.sound y hy hne with h3 | ⟨e, he, h3⟩
          · exact ⟨c, by simp, h3⟩
          · exact ⟨e, List.mem_append_left _ he, h3⟩
        · intro y hy h3 h4 h5
          exact List.mem_append_left _ (P.complete y hy h3 h4 h5)
        · intro _; simp
    · intro b log l b' log' hd hl hamt hv h
      cases l with
      | nil =>
        simp only [cascade_list, Option.some.injEq, Prod.mk.injEq] at h
        obtain ⟨rfl, rfl⟩ := h
        exact ⟨[], rfl, ⟨List.nodup_nil, by simp, by simp, by simp, by simp, by simp, by simp,
          fun y _ hne => absurd rfl hne, fun y _ h3 h4 => absurd h4 h3, by simp⟩⟩
      | cons nc rest =>
        have hnc := hv nc (List.mem_cons_self _ _)
        have hrest : ∀ x ∈ rest, valid_coord dims x = true :=
          fun x hx => hv x (List.mem_cons_of_mem _ hx)
        have hix : board__coord_to_index b nc = coord_to_index_loop dims nc 0 1 := by
          rw [board__coord_to_index, hd]
        obtain ⟨b2, log2, h1, h2⟩ := cascade_list_cons_some h
        rw [hix] at h1
        have hst1 : ∀ y, valid_coord dims y = true →
            state_at dims (b.set_state (coord_to_index_loop dims nc 0 1)
              Board__Cell__State.UNCOVERED) y
              = if y = nc then Board__Cell__State.UNCOVERED else state_at dims b y :=
          fun y hy => state_at_set_state hl hsz hnc hy _
        have hfr1 := Frame.set_state b (coord_to_index_loop dims nc 0 1)
        -- the head of the list
        have mid : ∃ new1, log2 = new1 ++ log ∧ Frame b b2 ∧ new1.Nodup ∧
            (∀ e ∈ new1, valid_coord dims e = true ∧
              amt (coord_to_index_loop dims e 0 1) = 0 ∧
              state_at dims b e ≠ Board__Cell__State.UNCOVERED ∧
              state_at dims b2 e = Board__Cell__State.UNCOVERED ∧
              (∀ y ∈ neighbour_list dims e,
                state_at dims b2 y = Board__Cell__State.UNCOVERED) ∧
              amt (coord_to_index_loop dims nc 0 1) = 0 ∧ list_reach dims amt nc e) ∧
            (∀ y, valid_coord dims y = true → state_at dims b2 y ≠ state_at dims b y →
              y = nc ∨ ∃ e ∈ new1, y ∈ neighbour_list dims e) ∧
            (∀ y, valid_coord dims y = true →
              state_at dims b y ≠ Board__Cell__State.UNCOVERED →
              state_at dims b2 y = Board__Cell__State.UNCOVERED →
              amt (coord_to_index_loop dims y 0 1) = 0 → y ∈ new1) ∧
            state_at dims b2 nc = Board__Cell__State.UNCOVERED := by
          rcases h1 with ⟨hcont, hcall⟩ | ⟨hcont, rfl, rfl⟩
          · have hunc1 : state_at dims (b.set_state (coord_to_index_loop dims nc 0 1)
                Board__Cell__State.UNCOVERED) nc = Board__Cell__State.UNCOVERED := by
              rw [hst1 nc hnc]; simp
            obtain ⟨new1, hlog1, P1⟩ := ih.1 (b.set_state (coord_to_index_loop dims nc 0 1)
              Board__Cell__State.UNCOVERED) log nc b2 log2 hd (by simpa using hl)
              (fun j => by rw [set_state_amount]; exact hamt j) hnc hunc1 hcall
            have hfr12 := (cascade_frame fuel).1 _ _ _ _ _ hcall
            refine ⟨new1, hlog1, hfr1.trans hfr12, P1.nodup, ?_, ?_, ?_, ?_⟩
            · intro e he
              refine ⟨P1.valid e he, P1.zero e he, ?_, P1.unc e he, P1.closed e he,
                P1.reached e he⟩
              rcases P1.fresh e he with h3 | h3
              · rw [h3]; exact hcont
              · exact hfr1.not_unc_at h3
            · intro y hy hne
              by_cases h3 : state_at dims b2 y = state_at dims (b.set_state
                  (coord_to_index_loop dims nc 0 1) Board__Cell__State.UNCOVERED) y
              · left
                by_contra hynot
                rw [h3, hst1 y hy, if_neg hynot] at hne
                exact hne rfl
              · right; exact P1.sound y hy h3
            · intro y hy h3 h4 h5
              by_cases hynot : y = nc
              · rw [hynot] at h5 ⊢; exact P1.root h5
              · refine P1.complete y hy ?_ h4 h5
                rw [hst1 y hy, if_neg hynot]; exact h3
            · exact hfr12.unc_at hunc1
          · refine ⟨[], rfl, hfr1, List.nodup_nil, by simp, ?_, ?_, ?_⟩
            · intro y hy hne
              left
              by_contra hynot
              rw [hst1 y hy, if_neg hynot] at hne
              exact hne rfl
            · intro y hy h3 h4 _
              exfalso
              rw [hst1 y hy] at h4
              split_ifs at h4 with hynot
              · rw [hynot] at h3; exact h3 hcont
              · exact h3 h4
            · rw [hst1 nc hnc]; simp
        obtain ⟨new1, hlog1, hfr, hnd1, hmem1, hsound1, hcompl1, hnc1⟩ := mid
        obtain ⟨new2, hlog2, P2⟩ := ih.2 b2 log2 rest b' log' (hfr.dimensions.trans hd)
          (hfr.length.trans hl) (fun j => by rw [hfr.amount]; exact hamt j) hrest h2
        have hfr2 := (cascade_frame fuel).2 _ _ _ _ _ h2
        refine ⟨new2 ++ new1, by rw [hlog2, hlog1]; simp, ?_⟩
        constructor
        · rw [List.nodup_append]
          refine ⟨P2.nodup, hnd1, ?_⟩
          intro a ha ha'
          exact P2.fresh a ha (hmem1 a ha').2.2.2.1
        · intro e he
          rcases List.mem_append.1 he with he | he
          · exact P2.valid e he
          · exact (hmem1 e he).1
        · intro e he
          rcases List.mem_append.1 he with he | he
          · exact P2.zero e he
          · exact (hmem1 e he).2.1
        · intro e he
          rcases List.mem_append.1 he with he | he
          · exact hfr.not_unc_at (P2.fresh e he)
          · exact (hmem1 e he).2.2.1
        · intro e he
          rcases List.mem_append.1 he with he | he
          · exact P2.unc e he
          · exact hfr2.unc_at (hmem1 e he).2.2.2.1
        · intro e he y hy
          rcases List.mem_append.1 he with he | he
          · exact P2.closed e he y hy
          · exact hfr2.unc_at ((hmem1 e he).2.2.2.2.1 y hy)
        · intro e he
          rcases List.mem_append.1 he with he | he
          · obtain ⟨r, hr, hr0, hre⟩ := P2.reached e he
            exact ⟨r, List.mem_cons_of_mem _ hr, hr0, hre⟩
          · exact ⟨nc, List.mem_cons_self _ _, (hmem1 e he).2.2.2.2.2⟩
        · intro y hy hne
          by_cases h3 : state_at dims b' y = state_at dims b2 y
          · rw [h3] at hne
            rcases hsound1 y hy hne with h4 | ⟨e, he, h4⟩
            · left; rw [h4]; exact List.mem_cons_self _ _
            · right; exact ⟨e, List.mem_append_right _ he, h4⟩
          · rcases P2.sound y hy h3 with h4 | ⟨e, he, h4⟩
            · left; exact List.mem_cons_of_mem _ h4
            · right; exact ⟨e, List.mem_append_left _ he, h4⟩
        · intro y hy h3 h4 h5
          by_cases h6 : state_at dims b2 y = Board__Cell__State.UNCOVERED
          · exact List.mem_append_right _ (hcompl1 y hy h3 h6 h5)
          · exact List.mem_append_left _ (P2.complete y hy h6 h4 h5)
        · intro y hy
          rcases List.mem_cons.1 hy with hy | hy
          · rw [hy]; exact hfr2.unc_at hnc1
          · exact P2.all y hy

theorem cascade_fuel_succ : ∀ fuel : Nat,
    (∀ b log c r, cascade_call fuel b log c = some r → cascade_call (fuel + 1) b log c = some r) ∧
    (∀ b log l r, cascade_list fuel b log l = some r → cascade_list (fuel + 1) b log l = some r) := by
  intro fuel
  induction fuel with
  | zero => exact ⟨fun _ _ _ _ h => by simp [cascade_call] at h,
      fun _ _ _ _ h => by simp [cascade_list] at h⟩
  | succ fuel ih =>
    refine ⟨?_, ?_⟩
    · intro b log c r h
      rcases cascade_call_some h with ⟨h1, h2⟩ | ⟨h1, h2⟩
      · simp only [cascade_call, h1, ne_eq, not_false_eq_true, if_true, h2]
      · have := ih.2 _ _ _ _ h2
        simp only [cascade_call, h1, ne_eq, not_true_eq_false, if_false] at this ⊢
        exact this
    · intro b log l r h
      cases l with
      | nil => simpa [cascade_list] using h
      | cons nc rest =>
        obtain ⟨b2, log2, h1, h2⟩ := cascade_list_cons_some h
        have h3 := ih.2 _ _ _ _ h2
        rcases h1 with ⟨hc, h4⟩ | ⟨hc, rfl, rfl⟩
        · have h5 := ih.1 _ _ _ _ h4
          rw [cascade_list]
          simp only [hc, ne_eq, not_false_eq_true, if_true, h5]
          exact h3
        · rw [cascade_list]
          simp only [hc, ne_eq, not_true_eq_false, if_false]
          exact h3

theorem cascade_fuel_mono {fuel fuel' : Nat} (hle : fuel ≤ fuel') {b : Board}
    {log : List (List Nat)} {c : List Nat} {r : Board × List (List Nat)}
    (h : cascade_call fuel b log c = some r) : cascade_call fuel' b log c = some r := by
  induction hle with
  | refl => exact h
  | step _ ih => exact (cascade_fuel_succ _).1 _ _ _ _ ih

theorem covered_le_length (b : Board) : b.covered ≤ b.cells.length :=
  List.countP_le_length _

theorem cascade_fuel_enough {b : Board} (hl : b.cells.length = b.dimensions.prod) :
    (b.covered + 1) * (3 ^ b.n_dim + 1) ≤ b.cascade_fuel := by
  have := covered_le_length b
  simp only [Board.cascade_fuel, Board.length]
  apply Nat.mul_le_mul_right
  omega

theorem state_at_eq {b : Board} {dims : List Nat} (h : b.dimensions = dims) (x : List Nat) :
    (b.cell_at x).state = state_at dims b x := by
  simp only [Board.cell_at, board__coord_to_index, state_at, h]

theorem board__uncover_cell_nonzero {board : Board} {coord : List Nat}
    (hm : (board.cell_at coord).mine = false)
    (ha : (board.cell_at coord).neighbour_mine_amount ≠ 0) :
    board__uncover_cell board coord
      = some (true, board.set_state (board__coord_to_index board coord)
          Board__Cell__State.UNCOVERED) := by
  simp only [Board.cell_at] at hm ha
  simp [board__uncover_cell, hm, ha]

theorem board__uncover_cell_zero {board : Board} {coord : List Nat} (hv : board.valid)
    (hc : valid_coord board.dimensions coord = true)
    (hm : (board.cell_at coord).mine = false)
    (ha : (board.cell_at coord).neighbour_mine_amount = 0) :
    ∃ b' new, board__uncover_cell board coord = some (true, b') ∧
      uncover_zero_fuel (board.set_state (board__coord_to_index board coord)
          Board__Cell__State.UNCOVERED).cascade_fuel
        (board.set_state (board__coord_to_index board coord) Board__Cell__State.UNCOVERED)
        [] coord = some (b', new) ∧
      Frame board b' ∧
      Frame (board.set_state (board__coord_to_index board coord)
        Board__Cell__State.UNCOVERED) b' ∧
      CallPost board.dimensions (fun j => (board.cell j).neighbour_mine_amount)
        (board.set_state (board__coord_to_index board coord) Board__Cell__State.UNCOVERED)
        b' coord new := by
  have hl1 : (board.set_state (board__coord_to_index board coord)
      Board__Cell__State.UNCOVERED).cells.length
      = (board.set_state (board__coord_to_index board coord)
          Board__Cell__State.UNCOVERED).dimensions.prod := by
    simpa using hv.2.2.1
  obtain ⟨⟨b', log'⟩, hr⟩ := cascade_terminates [] hl1 hv.2.2.2 hc (cascade_fuel_enough hl1)
  have hfr := (cascade_frame _).1 _ _ _ _ _ hr
  have hunc : state_at board.dimensions (board.set_state (board__coord_to_index board coord)
      Board__Cell__State.UNCOVERED) coord = Board__Cell__State.UNCOVERED := by
    rw [board__coord_to_index, state_at_set_state hv.2.2.1 hv.2.2.2 hc hc]; simp
  obtain ⟨new, hlog, P⟩ := (cascade_spec board.dimensions
    (fun j => (board.cell j).neighbour_mine_amount) hv.2.2.2 _).1
    (board.set_state (board__coord_to_index board coord) Board__Cell__State.UNCOVERED)
    [] coord b' log' rfl (by simpa using hv.2.2.1) (fun j => by simp) hc hunc hr
  simp only [List.append_nil] at hlog
  subst hlog
  refine ⟨b', log', ?_, ?_, (Frame.set_state board _).trans hfr, hfr, P⟩
  · simp only [Board.cell_at] at hm ha
    simp [board__uncover_cell, hm, ha, board__uncover_zero_neighbour_cells,
      (uncover_zero_eq_cascade _).1, hr]
  · rw [(uncover_zero_eq_cascade _).1]; exact hr

theorem list_reach_valid {dims : List Nat} {amt : Nat → Nat} {c z : List Nat}
    (hc : valid_coord dims c = true) (h : list_reach dims amt c z) :
    valid_coord dims z = true := by
  induction h with
  | refl => exact hc
  | tail _ hbc ih => exact neighbour_list_valid ih hbc.1

theorem zero_reach_valid {board : Board} {c z : List Nat}
    (hc : valid_coord board.dimensions c = true) (h : zero_reach board c z) :
    valid_coord board.dimensions z = true := by
  induction h with
  | refl => exact hc
  | tail _ hbc _ =>
    have := hbc.1
    simp only [moore_neighbour, Bool.and_eq_true] at this
    exact this.1.1

theorem list_reach_iff_zero_reach (board : Board) {c : List Nat}
    (hc : valid_coord board.dimensions c = true) (z : List Nat) :
    list_reach board.dimensions (fun j => (board.cell j).neighbour_mine_amount) c z
      ↔ zero_reach board c z := by
  constructor
  · intro h
    induction h with
    | refl => exact Relation.ReflTransGen.refl
    | tail hab hbc ih =>
      have hb := @list_reach_valid board.dimensions
        (fun j => (board.cell j).neighbour_mine_amount) c _ hc hab
      exact Relation.ReflTransGen.tail ih ⟨(mem_neighbour_list hb _).1 hbc.1, hbc.2⟩
  · intro h
    induction h with
    | refl => exact Relation.ReflTransGen.refl
    | tail hab hbc ih =>
      have hb := zero_reach_valid hc hab
      exact Relation.ReflTransGen.tail ih ⟨(mem_neighbour_list hb _).2 hbc.1, hbc.2⟩

theorem mem_new_of_list_reach {dims : List Nat} {amt : Nat → Nat} {b1 b' : Board}
    {c : List Nat} {new : List (List Nat)} (P : CallPost dims amt b1 b' c new)
    (hc : valid_coord dims c = true) (h0 : amt (coord_to_index_loop dims c 0 1) = 0)
    (hcov : ∀ y, valid_coord dims y = true → y ≠ c →
      state_at dims b1 y ≠ Board__Cell__State.UNCOVERED)
    {z : List Nat} (h : list_reach dims amt c z) : z ∈ new := by
  induction h with
  | refl => exact P.root h0
  | tail hab hbc ih =>
    rename_i u v
    have hv := neighbour_list_valid (list_reach_valid hc hab) hbc.1
    by_cases e : v = c
    · rw [e]; exact P.root h0
    · exact P.complete v hv (hcov v hv e) (P.closed u ih v hbc.1) hbc.2

theorem board__uncover_cell_zero_spec {board : Board} {coord : List Nat} (hv : board.valid)
    (hc : valid_coord board.dimensions coord = true)
    (hm : (board.cell_at coord).mine = false)
    (ha : (board.cell_at coord).neighbour_mine_amount = 0)
    (hcov : ∀ x, valid_coord board.dimensions x = true →
      (board.cell_at x).state ≠ Board__Cell__State.UNCOVERED) :
    ∃ board', board__uncover_cell board coord = some (true, board') ∧ Frame board board' ∧
      ∀ x, valid_coord board.dimensions x = true →
        ((board'.cell_at x).state = Board__Cell__State.UNCOVERED ↔
          (zero_reach board coord x ∨
            ∃ z, zero_reach board coord z ∧ moore_neighbour board.dimensions z x = true)) ∧
        ((board'.cell_at x).state ≠ Board__Cell__State.UNCOVERED →
          (board'.cell_at x).state = (board.cell_at x).state) := by
  have hst1 : ∀ y, valid_coord board.dimensions y = true →
      state_at board.dimensions (board.set_state (board__coord_to_index board coord)
        Board__Cell__State.UNCOVERED) y
        = if y = coord then Board__Cell__State.UNCOVERED else state_at board.dimensions board y :=
    fun y hy => state_at_set_state hv.2.2.1 hv.2.2.2 hc hy _
  have hcov' : ∀ y, valid_coord board.dimensions y = true →
      state_at board.dimensions board y ≠ Board__Cell__State.UNCOVERED :=
    fun y hy => by rw [← state_at_eq rfl]; exact hcov y hy
  obtain ⟨b', new, hres, _, hfr, hfr1, P⟩ := board__uncover_cell_zero hv hc hm ha
  have hd := hfr.dimensions
  have hroot : (fun j => (board.cell j).neighbour_mine_amount)
      (coord_to_index_loop board.dimensions coord 0 1) = 0 := ha
  have hmem : ∀ z, zero_reach board coord z → z ∈ new := fun z hz =>
    mem_new_of_list_reach P hc hroot
      (fun y hy hne => by rw [hst1 y hy, if_neg hne]; exact hcov' y hy)
      ((list_reach_iff_zero_reach board hc z).2 hz)
  refine ⟨b', hres, hfr, fun x hx => ⟨?_, ?_⟩⟩
  · rw [state_at_eq hd]
    constructor
    · intro hx'
      by_cases e : x = coord
      · left; rw [e]; exact Relation.ReflTransGen.refl
      · right
        have hne : state_at board.dimensions b' x ≠ state_at board.dimensions
            (board.set_state (board__coord_to_index board coord)
              Board__Cell__State.UNCOVERED) x := by
          rw [hst1 x hx, if_neg e, hx']
          exact fun h => hcov' x hx h.symm
        obtain ⟨z, hz, hxz⟩ := P.sound x hx hne
        exact ⟨z, (list_reach_iff_zero_reach board hc z).1 (P.reached z hz).2,
          (mem_neighbour_list (P.valid z hz) x).1 hxz⟩
    · rintro (h | ⟨z, hz, hzx⟩)
      · exact P.unc x (hmem x h)
      · exact P.closed z (hmem z hz) x
          ((mem_neighbour_list (zero_reach_valid hc hz) x).2 hzx)
  · rw [state_at_eq hd, state_at_eq rfl]
    intro hx'
    rcases hfr1.keeps_state_at board.dimensions x with h | h
    · rw [h, hst1 x hx]
      split_ifs with e
      · exfalso
        apply hx'
        rw [e]
        exact P.unc coord (P.root hroot)
      · rfl
    · exact absurd h hx'

/-- C2: on a valid board in which no cell is `UNCOVERED`, uncovering a
non-mine cell `c` returns Safe and changes no mine flag and no count; if the
count of `c` is not 0 the `UNCOVERED` cells are exactly `c`, otherwise they are
exactly the zero-count cells reachable from `c` through Moore-adjacent
zero-count cells together with every Moore neighbour of such a cell; every
other cell keeps its state. -/
theorem C2_cascade_semantics (board : Board) (coord : List Nat) (hv : board.valid)
    (hc : valid_coord board.dimensions coord = true)
    (hm : (board.cell_at coord).mine = false)
    (hcov : ∀ x, valid_coord board.dimensions x = true →
      (board.cell_at x).state ≠ Board__Cell__State.UNCOVERED) :
    ∃ board', board__uncover_cell board coord = some (true, board') ∧
      board'.dimensions = board.dimensions ∧
      (∀ x, valid_coord board.dimensions x = true →
        (board'.cell_at x).mine = (board.cell_at x).mine ∧
        (board'.cell_at x).neighbour_mine_amount = (board.cell_at x).neighbour_mine_amount) ∧
      ((board.cell_at coord).neighbour_mine_amount ≠ 0 →
        ∀ x, valid_coord board.dimensions x = true →
          ((board'.cell_at x).state = Board__Cell__State.UNCOVERED ↔ x = coord) ∧
          (x ≠ coord → (board'.cell_at x).state = (board.cell_at x).state)) ∧
      ((board.cell_at coord).neighbour_mine_amount = 0 →
        ∀ x, valid_coord board.dimensions x = true →
          ((board'.cell_at x).state = Board__Cell__State.UNCOVERED ↔
            (zero_reach board coord x ∨
              ∃ z, zero_reach board coord z ∧ moore_neighbour board.dimensions z x = true)) ∧
          ((board'.cell_at x).state ≠ Board__Cell__State.UNCOVERED →
            (board'.cell_at x).state = (board.cell_at x).state)) := by
  have hst1 : ∀ y, valid_coord board.dimensions y = true →
      state_at board.dimensions (board.set_state (board__coord_to_index board coord)
        Board__Cell__State.UNCOVERED) y
        = if y = coord then Board__Cell__State.UNCOVERED else state_at board.dimensions board y :=
    fun y hy => state_at_set_state hv.2.2.1 hv.2.2.2 hc hy _
  have hcov' : ∀ y, valid_coord board.dimensions y = true →
      state_at board.dimensions board y ≠ Board__Cell__State.UNCOVERED :=
    fun y hy => by rw [← state_at_eq rfl]; exact hcov y hy
  by_cases ha : (board.cell_at coord).neighbour_mine_amount = 0
  · obtain ⟨b', hres, hfr, hall⟩ := board__uncover_cell_zero_spec hv hc hm ha hcov
    refine ⟨b', hres, hfr.dimensions, fun x _ => ?_, fun h => absurd ha h, fun _ x hx => hall x hx⟩
    rw [cell_at_eq hfr.dimensions]; exact ⟨hfr.mine _, hfr.amount _⟩
  · rw [board__uncover_cell_nonzero hm ha]
    refine ⟨_, rfl, rfl, fun x _ => ?_, fun _ x hx => ⟨?_, fun hne => ?_⟩, fun h => absurd h ha⟩
    · rw [cell_at_eq (set_state_dimensions _ _ _)]
      simp [Board.cell_at]
    · rw [state_at_eq (set_state_dimensions _ _ _), hst1 x hx]
      split_ifs with e
      · simp [e]
      · simp only [e, iff_false]
        exact hcov' x hx
    · rw [state_at_eq (set_state_dimensions _ _ _), hst1 x hx, if_neg hne, state_at_eq rfl]

theorem cascade_after_set_state {board : Board} {coord : List Nat} (hv : board.valid)
    (hc : valid_coord board.dimensions coord = true) :
    ∃ b' new,
      uncover_zero_fuel (board.set_state (board__coord_to_index board coord)
          Board__Cell__State.UNCOVERED).cascade_fuel
        (board.set_state (board__coord_to_index board coord) Board__Cell__State.UNCOVERED)
        [] coord = some (b', new) ∧
      CallPost board.dimensions (fun j => (board.cell j).neighbour_mine_amount)
        (board.set_state (board__coord_to_index board coord) Board__Cell__State.UNCOVERED)
        b' coord new := by
  have hl1 : (board.set_state (board__coord_to_index board coord)
      Board__Cell__State.UNCOVERED).cells.length
      = (board.set_state (board__coord_to_index board coord)
          Board__Cell__State.UNCOVERED).dimensions.prod := by
    simpa using hv.2.2.1
  obtain ⟨⟨b', log'⟩, hr⟩ := cascade_terminates [] hl1 hv.2.2.2 hc (cascade_fuel_enough hl1)
  have hunc : state_at board.dimensions (board.set_state (board__coord_to_index board coord)
      Board__Cell__State.UNCOVERED) coord = Board__Cell__State.UNCOVERED := by
    rw [board__coord_to_index, state_at_set_state hv.2.2.1 hv.2.2.2 hc hc]; simp
  obtain ⟨new, hlog, P⟩ := (cascade_spec board.dimensions
    (fun j => (board.cell j).neighbour_mine_amount) hv.2.2.2 _).1
    (board.set_state (board__coord_to_index board coord) Board__Cell__State.UNCOVERED)
    [] coord b' log' rfl (by simpa using hv.2.2.1) (fun j => by simp) hc hunc hr
  simp only [List.append_nil] at hlog
  subst hlog
  exact ⟨b', log', by rw [(uncover_zero_eq_cascade _).1]; exact hr, P⟩

theorem valid_set_state {board : Board} (hv : board.valid) (i : Nat) (s : Board__Cell__State) :
    (board.set_state i s).valid :=
  ⟨hv.1, hv.2.1, by rw [set_state_length]; exact hv.2.2.1, hv.2.2.2⟩

/-- C5: on a valid board with any mines, counts and states and for a valid
coordinate, `board__uncover_zero_neighbour_cells` and `board__uncover_cell`
return; any fuel of at least `(covered + 1) * (3^N + 1)`, where `covered` is the
number of cells that are not `UNCOVERED`, gives the same result (the number of
such cells drops before every nested call); and in the cascade that
`board__uncover_cell` runs after uncovering the cell, no coordinate has its
neighbours enumerated twice. -/
theorem C5_cascade_terminates (board : Board) (coord : List Nat) (hv : board.valid)
    (hc : valid_coord board.dimensions coord = true) :
    (∃ b', board__uncover_zero_neighbour_cells board coord = some b') ∧
    (∃ r, board__uncover_cell board coord = some r) ∧
    (∀ fuel, (board.covered + 1) * (3 ^ board.n_dim + 1) ≤ fuel →
      ∃ b' log, uncover_zero_fuel fuel board [] coord = some (b', log) ∧
        board__uncover_zero_neighbour_cells board coord = some b') ∧
    (∃ b' log,
      uncover_zero_fuel (board.set_state (board__coord_to_index board coord)
          Board__Cell__State.UNCOVERED).cascade_fuel
        (board.set_state (board__coord_to_index board coord) Board__Cell__State.UNCOVERED)
        [] coord = some (b', log) ∧
      log.Nodup ∧
      ((board.cell_at coord).mine = false →
        (board.cell_at coord).neighbour_mine_amount = 0 →
        board__uncover_cell board coord = some (true, b'))) := by
  obtain ⟨⟨b0, log0⟩, h0⟩ := cascade_terminates (b := board) [] hv.2.2.1 hv.2.2.2 hc (Nat.le_refl _)
  have hfuel := cascade_fuel_enough hv.2.2.1
  have hz : board__uncover_zero_neighbour_cells board coord = some b0 := by
    rw [board__uncover_zero_neighbour_cells, (uncover_zero_eq_cascade _).1,
      cascade_fuel_mono hfuel h0]
    rfl
  obtain ⟨b1, log1, h1, P1⟩ := cascade_after_set_state hv hc
  have hcell : (board.cell_at coord).mine = false →
      (board.cell_at coord).neighbour_mine_amount = 0 →
      board__uncover_cell board coord = some (true, b1) := by
    intro hm ha
    simp only [Board.cell_at] at hm ha
    simp [board__uncover_cell, hm, ha, board__uncover_zero_neighbour_cells, h1]
  refine ⟨⟨b0, hz⟩, ?_, ?_, ⟨b1, log1, h1, P1.nodup, hcell⟩⟩
  · by_cases hm : (board.cell_at coord).mine = true
    · obtain ⟨b', hb', _⟩ := board__uncover_all_mines_cells
        (valid_set_state hv (board__coord_to_index board coord) Board__Cell__State.UNCOVERED)
      simp only [Board.cell_at] at hm
      exact ⟨(false, b'), by simp [board__uncover_cell, hm, hb']⟩
    · have hm' : (board.cell_at coord).mine = false := by simpa using hm
      by_cases ha : (board.cell_at coord).neighbour_mine_amount = 0
      · exact ⟨_, hcell hm' ha⟩
      · exact ⟨_, board__uncover_cell_nonzero hm' ha⟩
  · intro fuel hf
    exact ⟨b0, log0, by rw [(uncover_zero_eq_cascade _).1]; exact cascade_fuel_mono hf h0, hz⟩

/-! ## Connectivity of the grid and boards without mines -/

theorem within_one_refl (cs : List Nat) : within_one cs cs = true := by
  induction cs with
  | nil => rfl
  | cons c cs ih => simp [within_one, ih]

theorem moore_neighbour_cons_same {d : Nat} {ds : List Nat} {a : Nat} {u v : List Nat}
    (ha : a < d) (h : moore_neighbour ds u v = true) :
    moore_neighbour (d :: ds) (a :: u) (a :: v) = true := by
  simp only [moore_neighbour, Bool.and_eq_true, decide_eq_true_eq, valid_coord_cons,
    within_one_cons] at h ⊢
  refine ⟨⟨⟨ha, h.1.1⟩, ⟨by omega, by omega⟩, h.1.2⟩, ?_⟩
  intro e
  exact h.2 (List.cons.inj e).2

theorem moore_neighbour_axis {d : Nat} {ds : List Nat} {a a' : Nat} {cs : List Nat}
    (ha' : a' < d) (hcs : valid_coord ds cs = true) (h1 : a ≤ a' + 1) (h2 : a' ≤ a + 1)
    (hne : a' ≠ a) : moore_neighbour (d :: ds) (a :: cs) (a' :: cs) = true := by
  simp only [moore_neighbour, Bool.and_eq_true, decide_eq_true_eq, valid_coord_cons,
    within_one_cons]
  refine ⟨⟨⟨ha', hcs⟩, ⟨h1, h2⟩, within_one_refl cs⟩, ?_⟩
  intro e
  exact hne (List.cons.inj e).1

theorem moore_axis_path {d : Nat} {ds : List Nat} {cs : List Nat}
    (hcs : valid_coord ds cs = true) (a : Nat) :
    ∀ k, a + k < d →
      Relation.ReflTransGen (fun u v => moore_neighbour (d :: ds) u v = true)
        (a :: cs) ((a + k) :: cs) ∧
      Relation.ReflTransGen (fun u v => moore_neighbour (d :: ds) u v = true)
        ((a + k) :: cs) (a :: cs) := by
  intro k
  induction k with
  | zero => intro _; exact ⟨Relation.ReflTransGen.refl, Relation.ReflTransGen.refl⟩
  | succ k ih =>
    intro hk
    obtain ⟨h1, h2⟩ := ih (by omega)
    refine ⟨Relation.ReflTransGen.tail h1 ?_, Relation.ReflTransGen.head ?_ h2⟩
    · exact moore_neighbour_axis (by omega) hcs (by omega) (by omega) (by omega)
    · exact moore_neighbour_axis (by omega) hcs (by omega) (by omega) (by omega)

theorem moore_connected {dims c x : List Nat} (hc : valid_coord dims c = true)
    (hx : valid_coord dims x = true) :
    Relation.ReflTransGen (fun u v => moore_neighbour dims u v = true) c x := by
  induction dims generalizing c x with
  | nil =>
    cases c with
    | nil =>
      cases x with
      | nil => exact Relation.ReflTransGen.refl
      | cons _ _ => simp [valid_coord] at hx
    | cons _ _ => simp [valid_coord] at hc
  | cons d ds ih =>
    cases c with
    | nil => simp [valid_coord] at hc
    | cons c0 cs =>
      cases x with
      | nil => simp [valid_coord] at hx
      | cons x0 xs =>
        rw [valid_coord_cons] at hc hx
        have hB : Relation.ReflTransGen (fun u v => moore_neighbour (d :: ds) u v = true)
            (x0 :: cs) (x0 :: xs) :=
          Relation.ReflTransGen.lift (fun u => x0 :: u)
            (fun u v h => moore_neighbour_cons_same hx.1 h) (ih hc.2 hx.2)
        have hA : Relation.ReflTransGen (fun u v => moore_neighbour (d :: ds) u v = true)
            (c0 :: cs) (x0 :: cs) := by
          rcases Nat.le_total c0 x0 with h | h
          · obtain ⟨k, rfl⟩ := Nat.exists_eq_add_of_le h
            exact (moore_axis_path hc.2 c0 k hx.1).1
          · obtain ⟨k, rfl⟩ := Nat.exists_eq_add_of_le h
            exact (moore_axis_path hc.2 x0 k hc.1).2
        exact hA.trans hB

theorem init_length_loop_eq (ds : List Nat) (acc : Nat) (h : acc < 2 ^ 64) :
    init_length_loop ds acc = acc * ds.prod % 2 ^ 64 := by
  induction ds generalizing acc with
  | nil =>
    rw [init_length_loop, List.prod_nil, Nat.mul_one, Nat.mod_eq_of_lt h]
  | cons d ds ih =>
    rw [init_length_loop, ih _ (Nat.mod_lt _ (by norm_num)), List.prod_cons, Nat.mod_mul_mod,
      Nat.mul_assoc]

/-- What `board__init` returns when the product of the dimensions does not
wrap: the buffer holds the cells of the wrapped byte count. -/
theorem board__init_eq_size {dimensions : List Nat} (hne : dimensions ≠ [])
    (hpos : ∀ d ∈ dimensions, 1 ≤ d) (hprod : dimensions.prod < 2 ^ 64) :
    board__init dimensions = some ⟨dimensions,
      List.replicate (dimensions.prod * sizeof_Board__Cell % 2 ^ 64 / sizeof_Board__Cell)
        default⟩ := by
  have h1 : init_length_loop dimensions 1 = dimensions.prod := by
    rw [init_length_loop_eq _ _ (by norm_num), Nat.one_mul, Nat.mod_eq_of_lt hprod]
  have h2 : 0 < dimensions.prod := List.prod_pos hpos
  have h3 : dimensions.length ≠ 0 := fun h => hne (List.length_eq_zero.1 h)
  simp only [board__init, h1, h3, if_false]
  rw [if_neg (by omega)]

theorem prod_lt_of_size_lt {dimensions : List Nat}
    (hsz : dimensions.prod * sizeof_Board__Cell < 2 ^ 64) : dimensions.prod < 2 ^ 64 := by
  unfold sizeof_Board__Cell at hsz
  omega

theorem board__init_eq {dimensions : List Nat} (hne : dimensions ≠ [])
    (hpos : ∀ d ∈ dimensions, 1 ≤ d)
    (hsz : dimensions.prod * sizeof_Board__Cell < 2 ^ 64) :
    board__init dimensions = some ⟨dimensions, List.replicate dimensions.prod default⟩ := by
  rw [board__init_eq_size hne hpos (prod_lt_of_size_lt hsz), Nat.mod_eq_of_lt hsz,
    Nat.mul_div_cancel _ (by unfold sizeof_Board__Cell; norm_num)]

theorem cell_replicate_default (dims : List Nat) (n j : Nat) :
    (Board.mk dims (List.replicate n default)).cell j = default := by
  simp only [Board.cell, List.getD_eq_getElem?_getD]
  by_cases h : j < n
  · simp [List.getElem?_replicate, h]
  · simp [List.getElem?_replicate, h]

theorem randomize_loop_zero (RAND_MAX : Nat) (cells : List Board__Cell) (placed : Nat)
    (rs : List Nat) :
    randomize_loop RAND_MAX 0 cells placed rs = Except.ok (placed, cells, rs) := rfl

theorem board__randomize_zero {RAND_MAX : Nat} {board : Board} (hv : board.valid)
    (rs : List Nat) : board__randomize RAND_MAX board 0 rs = Except.ok (0, board, rs) := by
  have := valid_prod_pos hv
  rw [board__randomize, if_neg (by simp only [Board.length]; omega), randomize_loop_zero]

/-- C4: for every non-empty vector of positive dimensions whose board fits the
address space (`product * sizeof(struct Board__Cell) < 2^64`) and every valid
coordinate, the board that `board__init` returns, with
no mine placed and the counts computed, is fully revealed by one
`board__uncover_cell`: the call returns Safe and every cell is `UNCOVERED`. -/
theorem C4_zero_mines_reveals_all (dimensions coord : List Nat) (hne : dimensions ≠ [])
    (hpos : ∀ d ∈ dimensions, 1 ≤ d)
    (hsz : dimensions.prod * sizeof_Board__Cell < 2 ^ 64)
    (hc : valid_coord dimensions coord = true) :
    ∃ b0 b1 b2, board__init dimensions = some b0 ∧
      (∀ (RAND_MAX : Nat) (rs : List Nat),
        board__randomize RAND_MAX b0 0 rs = Except.ok (0, b0, rs)) ∧
      board__compute_neighbour_values b0 = some b1 ∧
      board__uncover_cell b1 coord = some (true, b2) ∧
      b2.dimensions = dimensions ∧ b2.cells.length = dimensions.prod ∧
      (∀ x, valid_coord dimensions x = true →
        (b2.cell_at x).state = Board__Cell__State.UNCOVERED) ∧
      (∀ j, j < dimensions.prod → (b2.cell j).state = Board__Cell__State.UNCOVERED) := by
  have hprod : dimensions.prod < 2 ^ 64 := prod_lt_of_size_lt hsz
  have hv0 : (Board.mk dimensions (List.replicate dimensions.prod default)).valid :=
    ⟨hne, hpos, by simp, hprod⟩
  obtain ⟨b1, hb1, hd1, hl1, hcells⟩ := board__compute_neighbour_values_cells hv0
  have hd1' : b1.dimensions = dimensions := hd1
  have hv1 : b1.valid := ⟨by rw [hd1']; exact hne, by rw [hd1']; exact hpos, by
    rw [hl1, hd1']; simp, by rw [hd1']; exact hprod⟩
  have hmine : ∀ j, (b1.cell j).mine = false := fun j => by
    rw [(hcells j).1, cell_replicate_default]; rfl
  have hstate : ∀ j, (b1.cell j).state = Board__Cell__State.COVERED := fun j => by
    rw [(hcells j).2.1, cell_replicate_default]; rfl
  have hamt : ∀ x, valid_coord dimensions x = true →
      (b1.cell_at x).neighbour_mine_amount = 0 := by
    intro x hx
    have h1 := (hcells (coord_to_index_loop dimensions x 0 1)).2.2 (coord_to_index_lt hprod hx)
    simp only [Board.cell_at, board__coord_to_index, hd1']
    rw [h1, cell_replicate_default]
    simp only [Board.cell_at, cell_replicate_default]
    simp [default]
  have hc1 : valid_coord b1.dimensions coord = true := by rw [hd1']; exact hc
  obtain ⟨b2, hres, hfr, hall⟩ := board__uncover_cell_zero_spec hv1 hc1 (hmine _)
    (hamt coord hc) (fun x _ => by
      simp only [Board.cell_at]
      rw [hstate]; decide)
  have hreach : ∀ x, valid_coord dimensions x = true → zero_reach b1 coord x := by
    intro x hx
    have := moore_connected hc hx
    refine Relation.ReflTransGen.mono ?_ this
    intro u v huv
    have hvv : valid_coord dimensions v = true := by
      simp only [moore_neighbour, Bool.and_eq_true] at huv
      exact huv.1.1
    exact ⟨by rw [hd1']; exact huv, hamt v hvv⟩
  have hunc : ∀ x, valid_coord dimensions x = true →
      (b2.cell_at x).state = Board__Cell__State.UNCOVERED := fun x hx =>
    ((hall x (by rw [hd1']; exact hx)).1).2 (Or.inl (hreach x hx))
  refine ⟨_, b1, b2, board__init_eq hne hpos hsz, fun _ rs => board__randomize_zero hv0 rs,
    hb1, hres, hfr.dimensions.trans hd1', ?_, hunc, ?_⟩
  · rw [hfr.length, hl1]; simp
  · intro j hj
    have := hunc _ (valid_index_to_coord hj)
    rw [cell_at_eq (hfr.dimensions.trans hd1)] at this
    simp only [board__coord_to_index] at this
    rw [coord_to_index_to_coord hprod hj] at this
    exact this

/-- C4 witness: the 2 x 2 x 2 x 2 board, uncovered at `(0,1,0,1)`. -/
theorem C4_witness :
    ∃ b0 b1 b2, board__init [2, 2, 2, 2] = some b0 ∧
      (∀ (RAND_MAX : Nat) (rs : List Nat),
        board__randomize RAND_MAX b0 0 rs = Except.ok (0, b0, rs)) ∧
      board__compute_neighbour_values b0 = some b1 ∧
      board__uncover_cell b1 [0, 1, 0, 1] = some (true, b2) ∧
      b2.dimensions = [2, 2, 2, 2] ∧ b2.cells.length = ([2, 2, 2, 2] : List Nat).prod ∧
      (∀ x, valid_coord [2, 2, 2, 2] x = true →
        (b2.cell_at x).state = Board__Cell__State.UNCOVERED) ∧
      (∀ j, j < ([2, 2, 2, 2] : List Nat).prod →
        (b2.cell j).state = Board__Cell__State.UNCOVERED) :=
  C4_zero_mines_reveals_all [2, 2, 2, 2] [0, 1, 0, 1] (by decide) (by decide) (by decide)
    (by decide)

/-! ## The 4 x 4 example -/

/-- C3 counterexample: on the 4 x 4 board with the single mine at `(0,0)`,
counts computed and all cells `COVERED`, uncovering `(3,3)` returns Safe and
leaves the mine's neighbours `(1,0)`, `(0,1)`, `(1,1)` in state `UNCOVERED`,
not `COVERED`. -/
theorem C3_counterexample :
    board__init [4, 4] = some c3_fresh ∧
    (board__randomize 32767 c3_fresh 1 [0]).toOption = some (1, c3_mined, []) ∧
    board__compute_neighbour_values c3_mined = some c3_counted ∧
    (∀ c ∈ c3_counted.cells, c.state = Board__Cell__State.COVERED) ∧
    ∃ board', board__uncover_cell c3_counted [3, 3] = some (true, board') ∧
      (board'.cell_at [1, 0]).state = Board__Cell__State.UNCOVERED ∧
      (board'.cell_at [0, 1]).state = Board__Cell__State.UNCOVERED ∧
      (board'.cell_at [1, 1]).state = Board__Cell__State.UNCOVERED ∧
      (board'.cell_at [1, 0]).state ≠ Board__Cell__State.COVERED :=
  ⟨by decide!, by decide!, by decide!, by decide,
    ⟨c3_result, by decide!, by decide, by decide, by decide, by decide⟩⟩

/-- C3 (as amended): on the 4 x 4 board with the single mine at `(0,0)`, counts
computed and all cells `COVERED`, uncovering `(3,3)` returns Safe; afterwards
the only cell still `COVERED` is the mine `(0,0)`, and every other cell, the
mine's neighbours `(1,0)`, `(0,1)`, `(1,1)` included, is `UNCOVERED`. -/
theorem C3_example_4x4 :
    board__init [4, 4] = some c3_fresh ∧
    (board__randomize 32767 c3_fresh 1 [0]).toOption = some (1, c3_mined, []) ∧
    (c3_mined.cell_at [0, 0]).mine = true ∧
    board__compute_neighbour_values c3_mined = some c3_counted ∧
    board__uncover_cell c3_counted [3, 3] = some (true, c3_result) ∧
    ∀ x, valid_coord [4, 4] x = true →
      ((c3_result.cell_at x).state = Board__Cell__State.COVERED ↔ x = [0, 0]) ∧
      (x ≠ [0, 0] → (c3_result.cell_at x).state = Board__Cell__State.UNCOVERED) := by
  refine ⟨by decide!, by decide!, by decide, by decide!, by decide!, ?_⟩
  intro x hx
  have key : ∀ j, j < 16 →
      (((c3_result.cell_at (index_to_coord_loop [4, 4] j)).state = Board__Cell__State.COVERED
          ↔ index_to_coord_loop [4, 4] j = [0, 0]) ∧
        (index_to_coord_loop [4, 4] j ≠ [0, 0] →
          (c3_result.cell_at (index_to_coord_loop [4, 4] j)).state
            = Board__Cell__State.UNCOVERED)) := by decide!
  have := key _ (coord_to_index_lt (by decide) hx)
  rw [index_to_coord_to_index (by decide) hx] at this
  exact this

theorem cell_at_state_of_all {b : Board} {s : Board__Cell__State}
    (h : ∀ c ∈ b.cells, c.state = s) (hd : (default : Board__Cell).state = s) (x : List Nat) :
    (b.cell_at x).state = s := by
  simp only [Board.cell_at, Board.cell, List.getD_eq_getElem?_getD]
  cases hj : b.cells[board__coord_to_index b x]? with
  | none => exact hd
  | some c => exact h c (List.getElem?_mem hj)

/-- C2 witness: the 4 x 4 board with the mine at `(0,0)`, uncovered at
`(3,3)`. -/
theorem C2_witness :
    ∃ board', board__uncover_cell c3_counted [3, 3] = some (true, board') ∧
      board'.dimensions = c3_counted.dimensions ∧
      (∀ x, valid_coord c3_counted.dimensions x = true →
        (board'.cell_at x).mine = (c3_counted.cell_at x).mine ∧
        (board'.cell_at x).neighbour_mine_amount
          = (c3_counted.cell_at x).neighbour_mine_amount) ∧
      ((c3_counted.cell_at [3, 3]).neighbour_mine_amount ≠ 0 →
        ∀ x, valid_coord c3_counted.dimensions x = true →
          ((board'.cell_at x).state = Board__Cell__State.UNCOVERED ↔ x = [3, 3]) ∧
          (x ≠ [3, 3] → (board'.cell_at x).state = (c3_counted.cell_at x).state)) ∧
      ((c3_counted.cell_at [3, 3]).neighbour_mine_amount = 0 →
        ∀ x, valid_coord c3_counted.dimensions x = true →
          ((board'.cell_at x).state = Board__Cell__State.UNCOVERED ↔
            (zero_reach c3_counted [3, 3] x ∨
              ∃ z, zero_reach c3_counted [3, 3] z ∧
                moore_neighbour c3_counted.dimensions z x = true)) ∧
          ((board'.cell_at x).state ≠ Board__Cell__State.UNCOVERED →
            (board'.cell_at x).state = (c3_counted.cell_at x).state)) :=
  C2_cascade_semantics c3_counted [3, 3] ⟨by decide, by decide, by decide, by decide⟩ (by decide)
    (by decide)
    (fun x _ => by
      rw [cell_at_state_of_all (s := Board__Cell__State.COVERED) (by decide) rfl x]
      decide)

/-- C5 witness: the 4 x 4 board with the mine at `(0,0)`, uncovered at
`(3,3)`. -/
theorem C5_witness :
    (∃ b', board__uncover_zero_neighbour_cells c3_counted [3, 3] = some b') ∧
    (∃ r, board__uncover_cell c3_counted [3, 3] = some r) ∧
    (∀ fuel, (c3_counted.covered + 1) * (3 ^ c3_counted.n_dim + 1) ≤ fuel →
      ∃ b' log, uncover_zero_fuel fuel c3_counted [] [3, 3] = some (b', log) ∧
        board__uncover_zero_neighbour_cells c3_counted [3, 3] = some b') ∧
    (∃ b' log,
      uncover_zero_fuel (c3_counted.set_state (board__coord_to_index c3_counted [3, 3])
          Board__Cell__State.UNCOVERED).cascade_fuel
        (c3_counted.set_state (board__coord_to_index c3_counted [3, 3])
          Board__Cell__State.UNCOVERED)
        [] [3, 3] = some (b', log) ∧
      log.Nodup ∧
      ((c3_counted.cell_at [3, 3]).mine = false →
        (c3_counted.cell_at [3, 3]).neighbour_mine_amount = 0 →
        board__uncover_cell c3_counted [3, 3] = some (true, b'))) :=
  C5_cascade_terminates c3_counted [3, 3] ⟨by decide, by decide, by decide, by decide⟩ (by decide)

/-! ## Mine placement -/

theorem open_spots_loop_eq (cells : List Board__Cell) (acc : Nat) :
    open_spots_loop cells acc = acc + open_count cells := by
  induction cells generalizing acc with
  | nil => simp [open_spots_loop, open_count]
  | cons c cs ih =>
    simp only [open_spots_loop, ih, open_count, List.countP_cons]
    cases c.mine <;> simp; omega

theorem keeps_cell_refl (c : Board__Cell) : keeps_cell c c := ⟨rfl, rfl, fun h => h⟩

theorem keeps_cell_trans {a b c : Board__Cell} (h : keeps_cell a b) (h' : keeps_cell b c) :
    keeps_cell a c :=
  ⟨h'.1.trans h.1, h'.2.1.trans h.2.1, fun ha => h'.2.2 (h.2.2 ha)⟩

theorem forall₂_keeps_refl (l : List Board__Cell) : List.Forall₂ keeps_cell l l := by
  induction l with
  | nil => exact List.Forall₂.nil
  | cons c cs ih => exact List.Forall₂.cons (keeps_cell_refl c) ih

theorem forall₂_keeps_trans {l l' l'' : List Board__Cell} (h : List.Forall₂ keeps_cell l l')
    (h' : List.Forall₂ keeps_cell l' l'') : List.Forall₂ keeps_cell l l'' := by
  induction h generalizing l'' with
  | nil => cases h'; exact List.Forall₂.nil
  | cons hab _ ih =>
    cases h' with
    | cons hbc htl => exact List.Forall₂.cons (keeps_cell_trans hab hbc) (ih htl)

theorem forall₂_keeps_getD {l l' : List Board__Cell} (h : List.Forall₂ keeps_cell l l')
    (j : Nat) : keeps_cell (l.getD j default) (l'.getD j default) := by
  induction h generalizing j with
  | nil => exact keeps_cell_refl _
  | cons hab _ ih =>
    cases j with
    | zero => simpa using hab
    | succ j => simpa using ih j

theorem mine_count_changed {l l' : List Board__Cell} (h : List.Forall₂ keeps_cell l l') :
    mine_count l' = mine_count l + changed_count l l' := by
  induction h with
  | nil => rfl
  | @cons a b as bs hab _ ih =>
    simp only [mine_count, changed_count, List.zip_cons_cons, List.countP_cons] at ih ⊢
    have := hab.2.2
    cases ha : a.mine <;> cases hb : b.mine <;> simp_all <;> omega

theorem place_mine_loop_cons (c : Board__Cell) (cs : List Board__Cell) (k : Nat) :
    place_mine_loop (c :: cs) k =
      if c.mine = true then
        (if k = 0 then some ({ c with mine := true } :: cs)
         else (place_mine_loop cs k).map (fun r => c :: r))
      else
        (if k - 1 = 0 then some ({ c with mine := true } :: cs)
         else (place_mine_loop cs (k - 1)).map (fun r => c :: r)) := by
  simp only [place_mine_loop]
  by_cases hm : c.mine = true
  · rw [if_pos hm, if_neg (not_not.mpr hm)]
  · rw [if_neg hm, if_pos hm]

theorem place_mine_loop_some {cells cells' : List Board__Cell} {k : Nat} (hk : 1 ≤ k)
    (h : place_mine_loop cells k = some cells') :
    List.Forall₂ keeps_cell cells cells' ∧ mine_count cells' = mine_count cells + 1 ∧
      open_count cells' + 1 = open_count cells := by
  induction cells generalizing k cells' with
  | nil => simp [place_mine_loop] at h
  | cons c cs ih =>
    rw [place_mine_loop_cons] at h
    have step : ∀ k', 1 ≤ k' → (place_mine_loop cs k').map (fun r => c :: r) = some cells' →
        List.Forall₂ keeps_cell (c :: cs) cells' ∧
          mine_count cells' = mine_count (c :: cs) + 1 ∧
          open_count cells' + 1 = open_count (c :: cs) := by
      intro k' hk' h'
      cases hr : place_mine_loop cs k' with
      | none => rw [hr] at h'; simp at h'
      | some r =>
        rw [hr] at h'
        simp only [Option.map_some', Option.some.injEq] at h'
        subst h'
        obtain ⟨f, m, o⟩ := ih hk' hr
        refine ⟨List.Forall₂.cons (keeps_cell_refl c) f, ?_, ?_⟩
        · simp only [mine_count, List.countP_cons] at m ⊢; omega
        · simp only [open_count, List.countP_cons] at o ⊢; omega
    by_cases hm : c.mine = true
    · rw [if_pos hm, if_neg (by omega)] at h
      exact step k hk h
    · rw [if_neg hm] at h
      by_cases hk1 : k - 1 = 0
      · rw [if_pos hk1] at h
        simp only [Option.some.injEq] at h
        subst h
        have hm' : c.mine = false := by simpa using hm
        refine ⟨List.Forall₂.cons ⟨rfl, rfl, fun _ => rfl⟩ (forall₂_keeps_refl cs), ?_, ?_⟩
        · simp [mine_count, List.countP_cons, hm']
        · simp [open_count, List.countP_cons, hm']
      · rw [if_neg hk1] at h
        exact step (k - 1) (by omega) h

theorem place_mine_loop_isSome {cells : List Board__Cell} {k : Nat} (hk : 1 ≤ k)
    (hle : k ≤ open_count cells) : ∃ r, place_mine_loop cells k = some r := by
  induction cells generalizing k with
  | nil => simp [open_count] at hle; omega
  | cons c cs ih =>
    rw [place_mine_loop_cons]
    simp only [open_count, List.countP_cons] at hle
    by_cases hm : c.mine = true
    · rw [if_pos hm, if_neg (by omega)]
      simp only [hm, Bool.not_true, Bool.false_eq_true, if_false, Nat.add_zero] at hle
      obtain ⟨r, hr⟩ := ih hk hle
      exact ⟨_, by rw [hr]; rfl⟩
    · rw [if_neg hm]
      have hm' : c.mine = false := by simpa using hm
      simp only [hm', Bool.not_false, if_true] at hle
      by_cases hk1 : k - 1 = 0
      · rw [if_pos hk1]; exact ⟨_, rfl⟩
      · rw [if_neg hk1]
        obtain ⟨r, hr⟩ := ih (k := k - 1) (by omega) (by simp only [open_count]; omega)
        exact ⟨_, by rw [hr]; rfl⟩

theorem place_mine_loop_none {cells : List Board__Cell} {k : Nat}
    (hlt : open_count cells < k) : place_mine_loop cells k = none := by
  induction cells generalizing k with
  | nil => rfl
  | cons c cs ih =>
    rw [place_mine_loop_cons]
    simp only [open_count, List.countP_cons] at hlt
    by_cases hm : c.mine = true
    · simp only [hm, Bool.not_true, Bool.false_eq_true, if_false, Nat.add_zero] at hlt
      rw [if_pos hm, if_neg (by omega), ih (by simpa [open_count] using hlt)]
      rfl
    · have hm' : c.mine = false := by simpa using hm
      simp only [hm', Bool.not_false, if_true] at hlt
      rw [if_neg hm, if_neg (by omega), ih (by simp only [open_count]; omega)]
      rfl

theorem randint_while_nonneg {end_ n : Int} {rs rs' : List Nat} {v : Int}
    (h : randint_while end_ n rs = Except.ok (v, rs')) : 0 ≤ v := by
  induction rs with
  | nil => simp [randint_while] at h
  | cons w rs ih =>
    simp only [randint_while] at h
    split_ifs at h with h1
    · exact ih h
    · simp only [Except.ok.injEq, Prod.mk.injEq] at h
      rw [← h.1]
      exact Int.tmod_nonneg _ (Int.ofNat_nonneg w)

theorem randint_nonneg {RAND_MAX : Nat} {n : Int} {rs rs' : List Nat} {v : Int}
    (h : randint RAND_MAX n rs = Except.ok (v, rs')) : 0 ≤ v := by
  simp only [randint] at h
  split_ifs at h with h1 h2 h3
  · cases rs with
    | nil => simp at h
    | cons w rs =>
      simp only [Except.ok.injEq, Prod.mk.injEq] at h
      rw [← h.1]; exact Int.ofNat_nonneg w
  · exact randint_while_nonneg h

theorem randomize_body_eq (RAND_MAX : Nat) (cells : List Board__Cell) (placed : Nat)
    (rs : List Nat) (h0 : open_spots_loop cells 0 ≠ 0) :
    randomize_body RAND_MAX cells placed rs =
      match randint RAND_MAX (size_t_to_int (open_spots_loop cells 0)) rs with
      | Except.error e => Except.error e
      | Except.ok (v, rs1) =>
          match place_mine_loop cells (v + 1).toNat with
          | some cells1 => Except.ok (some (cells1, placed + 1, rs1))
          | none => Except.ok (some (cells, placed, rs1)) := by
  unfold randomize_body
  simp only []
  rw [if_neg h0]

theorem randomize_body_full (RAND_MAX : Nat) (cells : List Board__Cell) (placed : Nat)
    (rs : List Nat) (h0 : open_spots_loop cells 0 = 0) :
    randomize_body RAND_MAX cells placed rs = Except.ok none := by
  unfold randomize_body
  simp only []
  rw [if_pos h0]

theorem randomize_body_ok {RAND_MAX : Nat} {cells : List Board__Cell} {placed : Nat}
    {rs : List Nat} {cells1 : List Board__Cell} {placed1 : Nat} {rs1 : List Nat}
    (h : randomize_body RAND_MAX cells placed rs = Except.ok (some (cells1, placed1, rs1))) :
    (cells1 = cells ∧ placed1 = placed) ∨
    (List.Forall₂ keeps_cell cells cells1 ∧ mine_count cells1 = mine_count cells + 1 ∧
      open_count cells1 + 1 = open_count cells ∧ placed1 = placed + 1) := by
  by_cases h0 : open_spots_loop cells 0 = 0
  · rw [randomize_body_full _ _ _ _ h0] at h
    cases h
  · rw [randomize_body_eq _ _ _ _ h0] at h
    cases hr : randint RAND_MAX (size_t_to_int (open_spots_loop cells 0)) rs with
    | error e => rw [hr] at h; cases h
    | ok p =>
      obtain ⟨v, rs2⟩ := p
      rw [hr] at h
      have hv := randint_nonneg hr
      cases hp : place_mine_loop cells (v + 1).toNat with
      | none =>
        simp only [hp] at h
        injection h with h
        injection h with h
        injection h with h1 h2
        injection h2 with h2 h3
        exact Or.inl ⟨h1.symm, h2.symm⟩
      | some c1 =>
        simp only [hp] at h
        injection h with h
        injection h with h
        injection h with h1 h2
        injection h2 with h2 h3
        subst h1 h2
        have hk : 1 ≤ (v + 1).toNat := by omega
        obtain ⟨f, m, o⟩ := place_mine_loop_some hk hp
        exact Or.inr ⟨f, m, o, rfl⟩

theorem randomize_loop_succ (RAND_MAX todo : Nat) (cells : List Board__Cell) (placed : Nat)
    (rs : List Nat) :
    randomize_loop RAND_MAX (todo + 1) cells placed rs =
      match randomize_body RAND_MAX cells placed rs with
      | Except.error e => Except.error e
      | Except.ok none => Except.ok (placed, cells, rs)
      | Except.ok (some (cells1, mines_placed1, rs1)) =>
          randomize_loop RAND_MAX todo cells1 mines_placed1 rs1 := by
  rw [randomize_loop]

theorem except_ok_inj {a b : Nat} {c d : List Board__Cell} {r r' : List Nat}
    (h : (Except.ok (a, c, r) : Except Fault (Nat × List Board__Cell × List Nat))
      = Except.ok (b, d, r')) : a = b ∧ c = d ∧ r = r' := by
  injection h with h
  injection h with h1 h2
  injection h2 with h2 h3
  exact ⟨h1, h2, h3⟩

theorem randomize_loop_spec (RAND_MAX : Nat) :
    ∀ (todo : Nat) (cells : List Board__Cell) (placed : Nat) (rs : List Nat) (r : Nat)
      (cells' : List Board__Cell) (rs' : List Nat),
      randomize_loop RAND_MAX todo cells placed rs = Except.ok (r, cells', rs') →
      placed ≤ r ∧ r ≤ placed + todo ∧ List.Forall₂ keeps_cell cells cells' ∧
        mine_count cells' = mine_count cells + (r - placed) := by
  intro todo
  induction todo with
  | zero =>
    intro cells placed rs r cells' rs' h
    rw [randomize_loop_zero] at h
    obtain ⟨rfl, rfl, _⟩ := except_ok_inj h
    exact ⟨Nat.le_refl _, Nat.le_refl _, forall₂_keeps_refl _, by omega⟩
  | succ todo ih =>
    intro cells placed rs r cells' rs' h
    rw [randomize_loop_succ] at h
    cases hb : randomize_body RAND_MAX cells placed rs with
    | error e => rw [hb] at h; cases h
    | ok o =>
      rw [hb] at h
      cases o with
      | none =>
        obtain ⟨rfl, rfl, _⟩ := except_ok_inj h
        exact ⟨Nat.le_refl _, by omega, forall₂_keeps_refl _, by omega⟩
      | some p =>
        obtain ⟨cells1, placed1, rs1⟩ := p
        simp only [] at h
        obtain ⟨h1, h2, h3, h4⟩ := ih _ _ _ _ _ _ h
        rcases randomize_body_ok hb with ⟨rfl, rfl⟩ | ⟨f, m, _, rfl⟩
        · exact ⟨h1, by omega, h3, h4⟩
        · exact ⟨by omega, by omega, forall₂_keeps_trans f h3, by omega⟩

theorem mine_count_le_length (cells : List Board__Cell) : mine_count cells ≤ cells.length :=
  List.countP_le_length _

theorem board__randomize_ok {RAND_MAX : Nat} {board : Board} {mine_amount : Nat}
    {rs : List Nat} {r : Nat} {board' : Board} {rs' : List Nat}
    (h : board__randomize RAND_MAX board mine_amount rs = Except.ok (r, board', rs')) :
    board.length ≠ 0 ∧ board' = { board with cells := board'.cells } ∧
      randomize_loop RAND_MAX mine_amount board.cells 0 rs = Except.ok (r, board'.cells, rs') := by
  unfold board__randomize at h
  by_cases h0 : board.length = 0
  · rw [if_pos h0] at h; cases h
  · rw [if_neg h0] at h
    cases hl : randomize_loop RAND_MAX mine_amount board.cells 0 rs with
    | error e => rw [hl] at h; cases h
    | ok p =>
      obtain ⟨r1, cells1, rs1⟩ := p
      rw [hl] at h
      simp only [] at h
      injection h with h
      injection h with h1 h2
      injection h2 with h2 h3
      subst h1 h2 h3
      exact ⟨h0, rfl, rfl⟩

/-- C10: whenever `board__randomize` returns on a valid board (with any mines
already present, any requested count and any values of `rand()`, a rank above
the number of open cells included), the returned `r` is at most the requested
count and equals both the growth of the number of mines and the number of
cells that changed from non-mine to mine; no mine is cleared, the number of
mines stays at most `total_cells`, and dimensions, states and neighbour counts
are unchanged. -/
theorem C10_randomize_safety (RAND_MAX : Nat) (board : Board) (mine_amount : Nat)
    (rs : List Nat) (r : Nat) (board' : Board) (rs' : List Nat) (hv : board.valid)
    (h : board__randomize RAND_MAX board mine_amount rs = Except.ok (r, board', rs')) :
    r ≤ mine_amount ∧
    mine_count board'.cells = mine_count board.cells + r ∧
    changed_count board.cells board'.cells = r ∧
    mine_count board'.cells ≤ board.dimensions.prod ∧
    board'.dimensions = board.dimensions ∧ board'.cells.length = board.cells.length ∧
    (∀ j, ((board.cell j).mine = true → (board'.cell j).mine = true) ∧
      (board'.cell j).state = (board.cell j).state ∧
      (board'.cell j).neighbour_mine_amount = (board.cell j).neighbour_mine_amount) := by
  obtain ⟨_, hb, hl⟩ := board__randomize_ok h
  obtain ⟨_, h2, h3, h4⟩ := randomize_loop_spec RAND_MAX _ _ _ _ _ _ _ hl
  have hlen : board'.cells.length = board.cells.length := h3.length_eq.symm
  have hch := mine_count_changed h3
  have hle := mine_count_le_length board'.cells
  have hprod := hv.2.2.1
  have hd : board'.dimensions = board.dimensions := by rw [hb]
  refine ⟨by omega, by omega, by omega, by omega, hd, hlen, fun j => ?_⟩
  have := forall₂_keeps_getD h3 j
  exact ⟨this.2.2, this.1, this.2.1⟩

theorem randomize_body_error {RAND_MAX : Nat} {cells : List Board__Cell} {placed : Nat}
    {rs : List Nat} {e : Fault} (h0 : open_spots_loop cells 0 ≠ 0)
    (hr : randint RAND_MAX (size_t_to_int (open_spots_loop cells 0)) rs = Except.error e) :
    randomize_body RAND_MAX cells placed rs = Except.error e := by
  unfold randomize_body
  simp only []
  rw [if_neg h0, hr]

theorem randomize_body_placed {RAND_MAX : Nat} {cells : List Board__Cell} {placed : Nat}
    {rs : List Nat} {v : Int} {rs1 : List Nat} {cells1 : List Board__Cell}
    (h0 : open_spots_loop cells 0 ≠ 0)
    (hr : randint RAND_MAX (size_t_to_int (open_spots_loop cells 0)) rs = Except.ok (v, rs1))
    (hp : place_mine_loop cells (v + 1).toNat = some cells1) :
    randomize_body RAND_MAX cells placed rs = Except.ok (some (cells1, placed + 1, rs1)) := by
  unfold randomize_body
  simp only []
  rw [if_neg h0, hr]
  simp only []
  rw [hp]

theorem randomize_body_missed {RAND_MAX : Nat} {cells : List Board__Cell} {placed : Nat}
    {rs : List Nat} {v : Int} {rs1 : List Nat}
    (h0 : open_spots_loop cells 0 ≠ 0)
    (hr : randint RAND_MAX (size_t_to_int (open_spots_loop cells 0)) rs = Except.ok (v, rs1))
    (hp : place_mine_loop cells (v + 1).toNat = none) :
    randomize_body RAND_MAX cells placed rs = Except.ok (some (cells, placed, rs1)) := by
  unfold randomize_body
  simp only []
  rw [if_neg h0, hr]
  simp only []
  rw [hp]

theorem size_t_to_int_eq {x : Nat} (h : x < 2147483648) : size_t_to_int x = (x : Int) := by
  unfold size_t_to_int
  rw [Nat.mod_eq_of_lt (by omega), if_pos h]

theorem randint_end_gt {RAND_MAX : Nat} {n : Int} (h1 : 1 ≤ n) :
    (RAND_MAX : Int) - n < Int.tdiv (RAND_MAX : Int) n * n := by
  rw [Int.tdiv_eq_ediv (Int.ofNat_nonneg _) (by omega)]
  have h2 := Int.emod_add_ediv' (RAND_MAX : Int) n
  have h3 := Int.emod_lt_of_pos (RAND_MAX : Int) (show (0 : Int) < n by omega)
  omega

theorem randint_eq_while {RAND_MAX : Nat} {n : Int} (rs : List Nat) (h1 : 1 ≤ n)
    (h2 : n ≤ (RAND_MAX : Int)) (h3 : n + 1 ≠ (RAND_MAX : Int)) :
    randint RAND_MAX n rs = randint_while (Int.tdiv (RAND_MAX : Int) n * n) n rs := by
  have := @randint_end_gt RAND_MAX n h1
  simp only [randint]
  rw [if_neg h3, if_neg (not_not.mpr h2), if_neg (by omega)]

theorem randint_while_lt {end_ n : Int} {rs rs' : List Nat} {v : Int} (h1 : 1 ≤ n)
    (h : randint_while end_ n rs = Except.ok (v, rs')) : v < n := by
  induction rs with
  | nil => simp [randint_while] at h
  | cons w rs ih =>
    simp only [randint_while] at h
    split_ifs at h with h2
    · exact ih h
    · simp only [Except.ok.injEq, Prod.mk.injEq] at h
      rw [← h.1]
      exact Int.tmod_lt_of_pos _ (by omega)

theorem randint_while_not_assertion (end_ n : Int) (rs : List Nat) :
    randint_while end_ n rs ≠ Except.error Fault.assertion := by
  induction rs with
  | nil => simp [randint_while]
  | cons w rs ih =>
    simp only [randint_while]
    split_ifs
    · exact ih
    · simp

theorem randint_while_live {end_ n : Int} (g : Nat → Bool)
    (hg : ∀ v, g v = true → (v : Int) < end_) (rs : List Nat)
    (h : 1 ≤ (rs.filter g).length) :
    ∃ v rs', randint_while end_ n rs = Except.ok (v, rs') ∧
      (rs.filter g).length ≤ (rs'.filter g).length + 1 := by
  induction rs with
  | nil => simp at h
  | cons w rs ih =>
    simp only [randint_while]
    by_cases h2 : (w : Int) ≥ end_
    · rw [if_pos h2]
      have hw : g w = false := by
        cases hgw : g w
        · rfl
        · have := hg w hgw; omega
      rw [List.filter_cons_of_neg (by simp [hw])] at h ⊢
      exact ih h
    · rw [if_neg h2]
      refine ⟨_, rs, rfl, ?_⟩
      rw [List.filter_cons]
      split_ifs <;> simp

/-- One iteration of the outer loop of `board__randomize` when every open
count that can occur is below `RAND_MAX - 1`: a returning iteration stops on a
full board and otherwise marks exactly one new mine. -/
theorem randomize_body_small {RAND_MAX : Nat} {cells : List Board__Cell} {placed : Nat}
    {rs : List Nat} (hs : open_count cells + 1 < RAND_MAX) (hi : RAND_MAX < 2147483648) :
    randomize_body RAND_MAX cells placed rs ≠ Except.error Fault.assertion ∧
    (∀ o, randomize_body RAND_MAX cells placed rs = Except.ok o →
      (o = none ∧ open_count cells = 0) ∨
      (∃ c1 rs1, o = some (c1, placed + 1, rs1) ∧ open_count c1 + 1 = open_count cells ∧
        mine_count c1 = mine_count cells + 1)) ∧
    (∀ (B : Nat), open_count cells ≤ B → 1 ≤ open_count cells →
      1 ≤ (rs.filter (fun v => decide (v + B ≤ RAND_MAX))).length →
      ∃ c1 rs1, randomize_body RAND_MAX cells placed rs = Except.ok (some (c1, placed + 1, rs1)) ∧
        (rs.filter (fun v => decide (v + B ≤ RAND_MAX))).length
          ≤ (rs1.filter (fun v => decide (v + B ≤ RAND_MAX))).length + 1) := by
  have hopen : open_spots_loop cells 0 = open_count cells := by
    rw [open_spots_loop_eq]; omega
  by_cases h0 : open_count cells = 0
  · have hb := randomize_body_full RAND_MAX cells placed rs (by rw [hopen]; exact h0)
    rw [hb]
    refine ⟨fun h => (by cases h), fun o h => ?_, fun B _ h1 _ => by omega⟩
    injection h with h
    exact Or.inl ⟨h.symm, h0⟩
  · have h0' : open_spots_loop cells 0 ≠ 0 := by rw [hopen]; exact h0
    have hn1 : (1 : Int) ≤ (open_count cells : Int) := by omega
    have hrand : randint RAND_MAX (size_t_to_int (open_spots_loop cells 0)) rs
        = randint_while (Int.tdiv (RAND_MAX : Int) (open_count cells : Int)
            * (open_count cells : Int)) (open_count cells : Int) rs := by
      rw [hopen, size_t_to_int_eq (by omega)]
      exact randint_eq_while rs hn1 (by omega) (by omega)
    have hend := @randint_end_gt RAND_MAX (open_count cells : Int) hn1
    have hlive : ∀ (B : Nat), open_count cells ≤ B →
        1 ≤ (rs.filter (fun v => decide (v + B ≤ RAND_MAX))).length →
        ∃ v rs1, randint_while (Int.tdiv (RAND_MAX : Int) (open_count cells : Int)
            * (open_count cells : Int)) (open_count cells : Int) rs = Except.ok (v, rs1) ∧
          (rs.filter (fun v => decide (v + B ≤ RAND_MAX))).length
            ≤ (rs1.filter (fun v => decide (v + B ≤ RAND_MAX))).length + 1 := by
      intro B hB hl
      refine @randint_while_live (Int.tdiv (RAND_MAX : Int) (open_count cells : Int)
          * (open_count cells : Int)) (open_count cells : Int)
        (fun v => decide (v + B ≤ RAND_MAX)) ?_ rs hl
      intro v hv
      have hv' : v + B ≤ RAND_MAX := by simpa using hv
      omega
    cases hr : randint_while (Int.tdiv (RAND_MAX : Int) (open_count cells : Int)
        * (open_count cells : Int)) (open_count cells : Int) rs with
    | error e =>
      rw [randomize_body_error h0' (hrand.trans hr)]
      refine ⟨fun h => ?_, fun o h => (by cases h), fun B hB _ hl => ?_⟩
      · injection h with h
        rw [h] at hr
        exact randint_while_not_assertion _ _ _ hr
      · obtain ⟨v, rs1, h1, _⟩ := hlive B hB hl
        rw [hr] at h1
        cases h1
    | ok p =>
      obtain ⟨v, rs1⟩ := p
      have hv0 := randint_while_nonneg hr
      have hv1 := randint_while_lt hn1 hr
      have hk1 : 1 ≤ (v + 1).toNat := by omega
      have hk2 : (v + 1).toNat ≤ open_count cells := by omega
      obtain ⟨c1, hc1⟩ := place_mine_loop_isSome hk1 hk2
      obtain ⟨_, m, o1⟩ := place_mine_loop_some hk1 hc1
      rw [randomize_body_placed h0' (hrand.trans hr) hc1]
      refine ⟨fun h => (by cases h), fun o h => ?_, fun B hB _ hl => ?_⟩
      · injection h with h
        exact Or.inr ⟨c1, rs1, h.symm, o1, m⟩
      · obtain ⟨v', rs1', h1, hcount⟩ := hlive B hB hl
        rw [hr] at h1
        injection h1 with h1
        injection h1 with h1 h2
        subst h2
        exact ⟨c1, rs1, rfl, hcount⟩

theorem randomize_loop_small (RAND_MAX : Nat) (hi : RAND_MAX < 2147483648) :
    ∀ (todo : Nat) (cells : List Board__Cell) (placed : Nat) (rs : List Nat),
      open_count cells + 1 < RAND_MAX →
      randomize_loop RAND_MAX todo cells placed rs ≠ Except.error Fault.assertion ∧
      (∀ r cells' rs', randomize_loop RAND_MAX todo cells placed rs = Except.ok (r, cells', rs') →
        r = placed + min todo (open_count cells) ∧
        mine_count cells' = mine_count cells + min todo (open_count cells)) ∧
      (∀ (B : Nat), open_count cells ≤ B →
        min todo (open_count cells)
          ≤ (rs.filter (fun v => decide (v + B ≤ RAND_MAX))).length →
        ∃ r cells' rs', randomize_loop RAND_MAX todo cells placed rs
          = Except.ok (r, cells', rs')) := by
  intro todo
  induction todo with
  | zero =>
    intro cells placed rs _
    rw [randomize_loop_zero]
    refine ⟨by simp, fun r cells' rs' h => ?_, fun _ _ _ => ⟨_, _, _, rfl⟩⟩
    simp only [Except.ok.injEq, Prod.mk.injEq] at h
    obtain ⟨rfl, rfl, _⟩ := h
    simp
  | succ todo ih =>
    intro cells placed rs hs
    obtain ⟨hb1, hb2, hb3⟩ := @randomize_body_small RAND_MAX cells placed rs hs hi
    rw [randomize_loop_succ]
    cases hb : randomize_body RAND_MAX cells placed rs with
    | error e =>
      refine ⟨?_, fun r cells' rs' h => by simp at h, fun B hB hlive => ?_⟩
      · simp only []
        intro he
        simp only [Except.error.injEq] at he
        exact hb1 (by rw [hb, he])
      · exfalso
        by_cases h0 : open_count cells = 0
        · have hopen : open_spots_loop cells 0 = 0 := by rw [open_spots_loop_eq]; omega
          simp [randomize_body, hopen] at hb
        · have hmin : 1 ≤ min (todo + 1) (open_count cells) := by
            rw [Nat.le_min]; omega
          obtain ⟨c1, rs1, h1, _⟩ := hb3 B hB (by omega) (by omega)
          rw [hb] at h1
          simp at h1
    | ok o =>
      rcases hb2 o hb with ⟨rfl, h0⟩ | ⟨c1, rs1, rfl, ho, hm⟩
      · simp only []
        refine ⟨by simp, fun r cells' rs' h => ?_, fun _ _ _ => ⟨_, _, _, rfl⟩⟩
        simp only [Except.ok.injEq, Prod.mk.injEq] at h
        obtain ⟨rfl, rfl, _⟩ := h
        simp [h0]
      · simp only []
        obtain ⟨i1, i2, i3⟩ := ih c1 (placed + 1) rs1 (by omega)
        have hmin : min (todo + 1) (open_count cells) = min todo (open_count c1) + 1 := by
          rw [← ho]; omega
        refine ⟨i1, fun r cells' rs' h => ?_, fun B hB hlive => ?_⟩
        · obtain ⟨e1, e2⟩ := i2 r cells' rs' h
          omega
        · obtain ⟨c2, rs2, h1, hcount⟩ := hb3 B hB (by omega) (by omega)
          rw [hb] at h1
          simp only [Except.ok.injEq, Option.some.injEq, Prod.mk.injEq] at h1
          obtain ⟨rfl, _, rfl⟩ := h1
          exact i3 B (by omega) (by omega)

theorem open_count_of_fresh {cells : List Board__Cell} (h : ∀ c ∈ cells, c.mine = false) :
    open_count cells = cells.length ∧ mine_count cells = 0 := by
  induction cells with
  | nil => exact ⟨rfl, rfl⟩
  | cons c cs ih =>
    have hc := h c (List.mem_cons_self _ _)
    obtain ⟨i1, i2⟩ := ih (fun x hx => h x (List.mem_cons_of_mem _ hx))
    simp only [open_count, mine_count, List.countP_cons, List.length_cons] at i1 i2 ⊢
    simp [hc, i1, i2]

/-- C9 (as amended): on a freshly initialised (mine-free) valid board with
`total_cells + 1 < RAND_MAX` (and `RAND_MAX` an `int`), for every requested
count `k` and every list of the values the coming calls of `rand()` give:
whenever `board__randomize` returns, it returns `min(k, total_cells)` and
exactly that many cells are mines; it does return when the list holds at least
`min(k, total_cells)` values `v` with `v + total_cells ≤ RAND_MAX` (values that
every rejection test accepts); and it never fails an assertion. -/
theorem C9_randomize_fresh (RAND_MAX : Nat) (board : Board) (k : Nat) (rs : List Nat)
    (hv : board.valid) (hfresh : ∀ c ∈ board.cells, c.mine = false)
    (hsmall : board.dimensions.prod + 1 < RAND_MAX) (hint : RAND_MAX < 2147483648) :
    (∀ r board' rs', board__randomize RAND_MAX board k rs = Except.ok (r, board', rs') →
      r = min k board.dimensions.prod ∧
      mine_count board'.cells = min k board.dimensions.prod ∧
      board'.cells.length = board.dimensions.prod) ∧
    (min k board.dimensions.prod
        ≤ (rs.filter (fun v => decide (v + board.dimensions.prod ≤ RAND_MAX))).length →
      ∃ r board' rs', board__randomize RAND_MAX board k rs = Except.ok (r, board', rs')) ∧
    board__randomize RAND_MAX board k rs ≠ Except.error Fault.assertion := by
  obtain ⟨ho, hm⟩ := open_count_of_fresh hfresh
  have hlen := hv.2.2.1
  have hpos := valid_prod_pos hv
  obtain ⟨l1, l2, l3⟩ := randomize_loop_small RAND_MAX hint k board.cells 0 rs (by omega)
  have hne : ¬ board.length = 0 := by simp only [Board.length]; omega
  simp only [board__randomize, if_neg hne]
  cases hl : randomize_loop RAND_MAX k board.cells 0 rs with
  | error e =>
    refine ⟨fun r board' rs' h => by simp at h, fun hlive => ?_, ?_⟩
    · obtain ⟨r, c', rs', h⟩ := l3 board.dimensions.prod (by omega) (by rw [ho, hlen]; exact hlive)
      rw [hl] at h
      simp at h
    · simp only []
      intro he
      simp only [Except.error.injEq] at he
      exact l1 (by rw [hl, he])
  | ok p =>
    obtain ⟨r1, cells1, rs1⟩ := p
    simp only []
    refine ⟨fun r board' rs' h => ?_, fun _ => ⟨_, _, _, rfl⟩, by simp⟩
    simp only [Except.ok.injEq, Prod.mk.injEq] at h
    obtain ⟨rfl, rfl, _⟩ := h
    obtain ⟨e1, e2⟩ := l2 _ _ _ hl
    obtain ⟨_, _, f, _⟩ := randomize_loop_spec RAND_MAX _ _ _ _ _ _ _ hl
    have hlen1 : cells1.length = board.cells.length := f.length_eq.symm
    refine ⟨by omega, ?_, ?_⟩
    · show mine_count cells1 = _
      omega
    · show cells1.length = _
      omega

theorem open_count_replicate_default (n : Nat) :
    open_count (List.replicate n default) = n := by
  rw [open_count, List.countP_replicate]
  rfl

theorem fresh_replicate (n : Nat) :
    ∀ c ∈ List.replicate n (default : Board__Cell), c.mine = false := by
  intro c hc
  rw [List.mem_replicate] at hc
  rw [hc.2]; rfl

theorem valid_line_board (n : Nat) (hn : 1 ≤ n) (hsz : n < 2 ^ 64) :
    (Board.mk [n] (List.replicate n default)).valid := by
  refine ⟨by simp, ?_, by simp, by simpa using hsz⟩
  intro d hd
  rw [List.mem_singleton] at hd
  omega

theorem open_spots_replicate (n : Nat) :
    open_spots_loop (List.replicate n default) 0 = n := by
  rw [open_spots_loop_eq, open_count_replicate_default]; omega

/-- The slip in `randint`: with `n` open cells and `RAND_MAX = n + 1` the value
`rand()` gives is returned as it is, so the value `n + 1` yields the rank
`n + 2`, no cell is marked and `board__randomize` returns 0. -/
theorem randomize_slip (n : Nat) (hn : 1 ≤ n) (hi : n < 2147483648) :
    board__randomize (n + 1) (Board.mk [n] (List.replicate n default)) 1 [n + 1]
      = Except.ok (0, Board.mk [n] (List.replicate n default), []) := by
  have h0 : open_spots_loop (List.replicate n (default : Board__Cell)) 0 ≠ 0 := by
    rw [open_spots_replicate]; omega
  have hr : randint (n + 1) (size_t_to_int (open_spots_loop
      (List.replicate n (default : Board__Cell)) 0)) [n + 1]
      = Except.ok (((n + 1 : Nat) : Int), []) := by
    rw [open_spots_replicate, size_t_to_int_eq hi]
    unfold randint
    rw [if_pos (by push_cast; rfl)]
  have hp : place_mine_loop (List.replicate n (default : Board__Cell))
      ((((n + 1 : Nat) : Int) + 1).toNat) = none := by
    apply place_mine_loop_none
    rw [open_count_replicate_default]
    omega
  have hb := @randomize_body_missed (n + 1) (List.replicate n default) 0 [n + 1] _ _ h0 hr hp
  have hlen : ¬ (Board.mk [n] (List.replicate n (default : Board__Cell))).length = 0 := by
    simp only [Board.length, List.prod_cons, List.prod_nil]; omega
  unfold board__randomize
  rw [if_neg hlen, randomize_loop_succ]
  simp only [hb, randomize_loop_zero]

/-- The guard in `randint`: with more open cells than `RAND_MAX` the assertion
`n <= RAND_MAX` fails. -/
theorem randomize_assert (n RAND_MAX : Nat) (h : RAND_MAX < n) (hi : n < 2147483648)
    (rs : List Nat) :
    board__randomize RAND_MAX (Board.mk [n] (List.replicate n default)) 1 rs
      = Except.error Fault.assertion := by
  have h0 : open_spots_loop (List.replicate n (default : Board__Cell)) 0 ≠ 0 := by
    rw [open_spots_replicate]; omega
  have hr : randint RAND_MAX (size_t_to_int (open_spots_loop
      (List.replicate n (default : Board__Cell)) 0)) rs = Except.error Fault.assertion := by
    rw [open_spots_replicate, size_t_to_int_eq hi]
    unfold randint
    rw [if_neg (by omega), if_pos (by omega)]
  have hb := @randomize_body_error RAND_MAX (List.replicate n default) 0 rs _ h0 hr
  have hlen : ¬ (Board.mk [n] (List.replicate n (default : Board__Cell))).length = 0 := by
    simp only [Board.length, List.prod_cons, List.prod_nil]; omega
  unfold board__randomize
  rw [if_neg hlen, randomize_loop_succ]
  simp only [hb]

/-- C9 counterexample: with `RAND_MAX = 32767`, on the freshly initialised
board of 32766 cells a request for one mine with `rand()` returning 32767
returns 0 and places no mine (the first placement takes the branch
`n + 1 == RAND_MAX` of `randint` and gets the rank 32768 of 32766 open cells),
where the claim promises `min(1, 32766) = 1`; and on the freshly initialised
board of 32768 cells the call fails the assertion `n <= RAND_MAX` instead of
returning. -/
theorem C9_counterexample :
    c9_board.valid ∧ (∀ c ∈ c9_board.cells, c.mine = false) ∧
    board__randomize 32767 c9_board 1 [32767] = Except.ok (0, c9_board, []) ∧
    (0 : Nat) ≠ min 1 32766 ∧
    c9_large.valid ∧ (∀ c ∈ c9_large.cells, c.mine = false) ∧
    board__randomize 32767 c9_large 1 [0] = Except.error Fault.assertion := by
  unfold c9_board c9_large
  exact ⟨valid_line_board 32766 (by omega) (by norm_num), fresh_replicate 32766,
    randomize_slip 32766 (by omega) (by omega), by omega,
    valid_line_board 32768 (by omega) (by norm_num), fresh_replicate 32768,
    randomize_assert 32768 32767 (by omega) (by omega) [0]⟩

/-- C9 witness: two mines requested on the fresh 2 x 2 board with
`RAND_MAX = 32767`. -/
theorem C9_witness :
    (∀ r board' rs', board__randomize 32767 c9_small 2 [5, 7] = Except.ok (r, board', rs') →
      r = min 2 c9_small.dimensions.prod ∧
      mine_count board'.cells = min 2 c9_small.dimensions.prod ∧
      board'.cells.length = c9_small.dimensions.prod) ∧
    (min 2 c9_small.dimensions.prod
        ≤ (([5, 7] : List Nat).filter
            (fun v => decide (v + c9_small.dimensions.prod ≤ 32767))).length →
      ∃ r board' rs', board__randomize 32767 c9_small 2 [5, 7] = Except.ok (r, board', rs')) ∧
    board__randomize 32767 c9_small 2 [5, 7] ≠ Except.error Fault.assertion :=
  C9_randomize_fresh 32767 c9_small 2 [5, 7] ⟨by decide, by decide, by decide, by decide⟩ (by decide)
    (by decide) (by decide)

/-- C10 witness: one mine requested on the 4 x 4 board that already has the
mine at `(0,0)`; `rand()` gives 3, so the fourth open cell is marked. -/
theorem C10_witness :
    (1 : Nat) ≤ 1 ∧
    mine_count (c3_mined.set_cell 4 ⟨0, true, Board__Cell__State.COVERED⟩).cells
      = mine_count c3_mined.cells + 1 ∧
    changed_count c3_mined.cells
      (c3_mined.set_cell 4 ⟨0, true, Board__Cell__State.COVERED⟩).cells = 1 ∧
    mine_count (c3_mined.set_cell 4 ⟨0, true, Board__Cell__State.COVERED⟩).cells
      ≤ c3_mined.dimensions.prod ∧
    (c3_mined.set_cell 4 ⟨0, true, Board__Cell__State.COVERED⟩).dimensions
      = c3_mined.dimensions ∧
    (c3_mined.set_cell 4 ⟨0, true, Board__Cell__State.COVERED⟩).cells.length
      = c3_mined.cells.length ∧
    (∀ j, ((c3_mined.cell j).mine = true →
        ((c3_mined.set_cell 4 ⟨0, true, Board__Cell__State.COVERED⟩).cell j).mine = true) ∧
      ((c3_mined.set_cell 4 ⟨0, true, Board__Cell__State.COVERED⟩).cell j).state
        = (c3_mined.cell j).state ∧
      ((c3_mined.set_cell 4 ⟨0, true, Board__Cell__State.COVERED⟩).cell j).neighbour_mine_amount
        = (c3_mined.cell j).neighbour_mine_amount) :=
  C10_randomize_safety 32767 c3_mined 1 [3] 1
    (c3_mined.set_cell 4 ⟨0, true, Board__Cell__State.COVERED⟩) []
    ⟨by decide, by decide, by decide, by decide⟩ (by decide!)

/-! ## The flag toggle -/

theorem set_getD_self {α : Type} (l : List α) (i : Nat) (d : α) : l.set i (l.getD i d) = l := by
  induction l generalizing i with
  | nil => rfl
  | cons a t ih =>
    cases i with
    | zero => rfl
    | succ i =>
      show a :: t.set i (t.getD i d) = a :: t
      rw [ih]

theorem coord_to_index_set_state (b : Board) (i : Nat) (s : Board__Cell__State)
    (coord : List Nat) :
    board__coord_to_index (b.set_state i s) coord = board__coord_to_index b coord := rfl

theorem set_state_set_state_orig (b : Board) (i : Nat) (s : Board__Cell__State)
    (hi : i < b.cells.length) :
    (b.set_state i s).set_state i (b.cell i).state = b := by
  have h1 : (b.set_state i s).cell i = { b.cell i with state := s } := by
    rw [Board.set_state, cell_set_cell, if_pos ⟨rfl, hi⟩]
  cases b with
  | mk dims cells =>
    simp only [Board.set_state, Board.set_cell] at h1 ⊢
    rw [h1]
    simp only [List.set_set]
    congr 1
    exact set_getD_self cells i default

theorem toggle_flag_cases (board : Board) (coord : List Nat) :
    ((board.cell_at coord).state = Board__Cell__State.FLAGGED ∧
      toggle_flag board coord
        = board.set_state (board__coord_to_index board coord) Board__Cell__State.COVERED) ∨
    ((board.cell_at coord).state = Board__Cell__State.COVERED ∧
      toggle_flag board coord
        = board.set_state (board__coord_to_index board coord) Board__Cell__State.FLAGGED) ∨
    ((board.cell_at coord).state ≠ Board__Cell__State.FLAGGED ∧
      (board.cell_at coord).state ≠ Board__Cell__State.COVERED ∧
      toggle_flag board coord = board) := by
  unfold toggle_flag Board.cell_at
  by_cases h1 : (board.cell (board__coord_to_index board coord)).state
      = Board__Cell__State.FLAGGED
  · left
    exact ⟨h1, by simp only [h1, if_true]⟩
  · by_cases h2 : (board.cell (board__coord_to_index board coord)).state
        = Board__Cell__State.COVERED
    · right; left
      exact ⟨h2, by simp only [h2, if_true, if_false, reduceCtorEq]⟩
    · right; right
      exact ⟨h1, h2, by simp only [h1, h2, if_false]⟩

/-- What the toggle keeps: dimensions, number of cells, every mine flag and
count, and the whole cell at every other index. -/
theorem toggle_flag_frame (board : Board) (coord : List Nat) :
    (toggle_flag board coord).dimensions = board.dimensions ∧
    (toggle_flag board coord).cells.length = board.cells.length ∧
    (∀ j, ((toggle_flag board coord).cell j).mine = (board.cell j).mine ∧
      ((toggle_flag board coord).cell j).neighbour_mine_amount
        = (board.cell j).neighbour_mine_amount) ∧
    (∀ j, j ≠ board__coord_to_index board coord →
      (toggle_flag board coord).cell j = board.cell j) := by
  rcases toggle_flag_cases board coord with ⟨_, h⟩ | ⟨_, h⟩ | ⟨_, _, h⟩ <;> rw [h]
  · refine ⟨rfl, set_state_length _ _ _, fun j => ⟨set_state_mine _ _ _ _, set_state_amount _ _ _ _⟩,
      fun j hj => ?_⟩
    rw [Board.set_state, cell_set_cell, if_neg (fun h => hj h.1)]
  · refine ⟨rfl, set_state_length _ _ _, fun j => ⟨set_state_mine _ _ _ _, set_state_amount _ _ _ _⟩,
      fun j hj => ?_⟩
    rw [Board.set_state, cell_set_cell, if_neg (fun h => hj h.1)]
  · exact ⟨rfl, rfl, fun j => ⟨rfl, rfl⟩, fun j _ => rfl⟩

/-- C11: the flag toggle at a valid coordinate keeps the dimensions, the
number of cells, every cell at another index or coordinate, and the mine flag
and count of the cell itself; a `COVERED` cell becomes `FLAGGED`, a `FLAGGED`
cell becomes `COVERED`, on an `UNCOVERED` or `FLAGGED_NOT_MINE` cell the board
is unchanged; and two toggles of a `COVERED` or `FLAGGED` cell give the
original board back. -/
theorem C11_toggle_flag (board : Board) (coord : List Nat) (hv : board.valid)
    (hc : valid_coord board.dimensions coord = true) :
    (toggle_flag board coord).dimensions = board.dimensions ∧
    (toggle_flag board coord).cells.length = board.cells.length ∧
    (∀ j, j ≠ board__coord_to_index board coord →
      (toggle_flag board coord).cell j = board.cell j) ∧
    (∀ x, valid_coord board.dimensions x = true → x ≠ coord →
      (toggle_flag board coord).cell_at x = board.cell_at x) ∧
    ((toggle_flag board coord).cell_at coord).mine = (board.cell_at coord).mine ∧
    ((toggle_flag board coord).cell_at coord).neighbour_mine_amount
      = (board.cell_at coord).neighbour_mine_amount ∧
    ((board.cell_at coord).state = Board__Cell__State.COVERED →
      ((toggle_flag board coord).cell_at coord).state = Board__Cell__State.FLAGGED) ∧
    ((board.cell_at coord).state = Board__Cell__State.FLAGGED →
      ((toggle_flag board coord).cell_at coord).state = Board__Cell__State.COVERED) ∧
    ((board.cell_at coord).state = Board__Cell__State.UNCOVERED →
      toggle_flag board coord = board) ∧
    ((board.cell_at coord).state = Board__Cell__State.FLAGGED_NOT_MINE →
      toggle_flag board coord = board) ∧
    ((board.cell_at coord).state = Board__Cell__State.COVERED ∨
        (board.cell_at coord).state = Board__Cell__State.FLAGGED →
      toggle_flag (toggle_flag board coord) coord = board) := by
  obtain ⟨f1, f2, f3, f4⟩ := toggle_flag_frame board coord
  have hi : board__coord_to_index board coord < board.cells.length := by
    rw [hv.2.2.1]; exact coord_to_index_lt hv.2.2.2 hc
  have hat : ∀ x, (toggle_flag board coord).cell_at x
      = (toggle_flag board coord).cell (board__coord_to_index board x) := fun x =>
    cell_at_eq f1 x
  have hst : ∀ s, ((board.set_state (board__coord_to_index board coord) s).cell
      (board__coord_to_index board coord)).state = s := fun s => by
    rw [set_state_state, if_pos ⟨rfl, hi⟩]
  refine ⟨f1, f2, f4, ?_, ?_, ?_, ?_, ?_, ?_, ?_, ?_⟩
  · intro x hx hne
    rw [hat, f4]
    · rfl
    · intro e
      exact hne (coord_to_index_inj hv.2.2.2 hx hc e)
  · rw [hat]; exact (f3 _).1
  · rw [hat]; exact (f3 _).2
  · intro h
    rcases toggle_flag_cases board coord with ⟨h', _⟩ | ⟨_, e⟩ | ⟨_, h', _⟩
    · rw [h] at h'; cases h'
    · rw [hat, e]; exact hst _
    · exact absurd h h'
  · intro h
    rcases toggle_flag_cases board coord with ⟨_, e⟩ | ⟨h', _⟩ | ⟨h', _, _⟩
    · rw [hat, e]; exact hst _
    · rw [h] at h'; cases h'
    · exact absurd h h'
  · intro h
    rcases toggle_flag_cases board coord with ⟨h', _⟩ | ⟨h', _⟩ | ⟨_, _, e⟩
    · rw [h] at h'; cases h'
    · rw [h] at h'; cases h'
    · exact e
  · intro h
    rcases toggle_flag_cases board coord with ⟨h', _⟩ | ⟨h', _⟩ | ⟨_, _, e⟩
    · rw [h] at h'; cases h'
    · rw [h] at h'; cases h'
    · exact e
  · intro h
    rcases toggle_flag_cases board coord with ⟨h1, e⟩ | ⟨h1, e⟩ | ⟨h1, h2, _⟩
    · rw [e]
      rcases toggle_flag_cases (board.set_state (board__coord_to_index board coord)
          Board__Cell__State.COVERED) coord with ⟨h', _⟩ | ⟨_, e'⟩ | ⟨_, h', _⟩
      · rw [Board.cell_at, coord_to_index_set_state, hst] at h'; cases h'
      · rw [e', coord_to_index_set_state]
        have := set_state_set_state_orig board (board__coord_to_index board coord)
          Board__Cell__State.COVERED hi
        rw [show (board.cell (board__coord_to_index board coord)).state
          = Board__Cell__State.FLAGGED from h1] at this
        exact this
      · rw [Board.cell_at, coord_to_index_set_state, hst] at h'; exact absurd rfl h'
    · rw [e]
      rcases toggle_flag_cases (board.set_state (board__coord_to_index board coord)
          Board__Cell__State.FLAGGED) coord with ⟨_, e'⟩ | ⟨h', _⟩ | ⟨h', _, _⟩
      · rw [e', coord_to_index_set_state]
        have := set_state_set_state_orig board (board__coord_to_index board coord)
          Board__Cell__State.FLAGGED hi
        rw [show (board.cell (board__coord_to_index board coord)).state
          = Board__Cell__State.COVERED from h1] at this
        exact this
      · rw [Board.cell_at, coord_to_index_set_state, hst] at h'; cases h'
      · rw [Board.cell_at, coord_to_index_set_state, hst] at h'; exact absurd rfl h'
    · rcases h with h | h
      · exact absurd h h2
      · exact absurd h h1

/-- C11 witness: the 4 x 4 board with the mine at `(0,0)`, toggled at the
`COVERED` cell `(1,1)`. -/
theorem C11_witness :
    ((toggle_flag c3_counted [1, 1]).cell_at [1, 1]).state = Board__Cell__State.FLAGGED ∧
    toggle_flag (toggle_flag c3_counted [1, 1]) [1, 1] = c3_counted :=
  ⟨(C11_toggle_flag c3_counted [1, 1] ⟨by decide, by decide, by decide, by decide⟩
      (by decide)).2.2.2.2.2.2.1 (by decide),
    (C11_toggle_flag c3_counted [1, 1] ⟨by decide, by decide, by decide, by decide⟩
      (by decide)).2.2.2.2.2.2.2.2.2.2 (Or.inl (by decide))⟩

/-! ## Board construction -/

theorem board__init_zero_mem {dimensions : List Nat} (h : 0 ∈ dimensions) :
    board__init dimensions = none := by
  unfold board__init
  by_cases hl : dimensions.length = 0
  · rw [if_pos hl]
  · rw [if_neg hl]
    have : init_length_loop dimensions 1 = 0 := by
      rw [init_length_loop_eq dimensions 1 (by norm_num), List.prod_eq_zero h]
      rfl
    simp only [this, if_true]

/-- C12 counterexample: for the dimension list `{2^60 + 1}`, non-empty, positive
and with a product below `2^64`, the byte count
`(2^60 + 1) * sizeof(struct Board__Cell)` wraps to 16, and `board__init`
returns `true` with a buffer of one cell, not of `2^60 + 1` cells. -/
theorem C12_counterexample :
    ([1152921504606846977] : List Nat) ≠ [] ∧
    (∀ d ∈ ([1152921504606846977] : List Nat), 1 ≤ d) ∧
    ([1152921504606846977] : List Nat).prod < 2 ^ 64 ∧
    board__init [1152921504606846977] = some ⟨[1152921504606846977], [default]⟩ ∧
    ([default] : List Board__Cell).length ≠ ([1152921504606846977] : List Nat).prod := by
  refine ⟨by simp, by simp, by norm_num, ?_, by norm_num⟩
  rw [board__init_eq_size (by simp) (by simp) (by norm_num)]
  have h : ([1152921504606846977] : List Nat).prod * sizeof_Board__Cell % 2 ^ 64
      / sizeof_Board__Cell = 1 := by
    unfold sizeof_Board__Cell
    norm_num
  rw [h]
  rfl

/-- C12 (as amended): `board__init` fails on the empty dimension list and on a
list that holds a 0; on a non-empty list of positive dimensions whose byte
count `product(dimensions) * sizeof(struct Board__Cell)` is below `2^64` (both
allocations succeeding) it returns a valid board with these dimensions and
exactly `product(dimensions)` cells, each `COVERED`, not a mine, with
count 0. -/
theorem C12_board__init (dimensions : List Nat) :
    (dimensions = [] → board__init dimensions = none) ∧
    (0 ∈ dimensions → board__init dimensions = none) ∧
    (dimensions ≠ [] → (∀ d ∈ dimensions, 1 ≤ d) →
      dimensions.prod * sizeof_Board__Cell < 2 ^ 64 →
      ∃ board, board__init dimensions = some board ∧ board.valid ∧
        board.dimensions = dimensions ∧ board.cells.length = dimensions.prod ∧
        ∀ c ∈ board.cells, c.state = Board__Cell__State.COVERED ∧ c.mine = false ∧
          c.neighbour_mine_amount = 0) := by
  refine ⟨fun h => by rw [h]; rfl, board__init_zero_mem, fun hne hpos hsz => ?_⟩
  refine ⟨_, board__init_eq hne hpos hsz, ⟨hne, hpos, by simp, prod_lt_of_size_lt hsz⟩,
    rfl, by simp, ?_⟩
  intro c hc
  rw [List.mem_replicate] at hc
  rw [hc.2]
  exact ⟨rfl, rfl, rfl⟩

/-- C12 witness: the empty list, the list `[3, 0]` and the `2 x 2` board. -/
theorem C12_witness :
    board__init [] = none ∧ board__init [3, 0] = none ∧
    ∃ board, board__init [2, 2] = some board ∧ board.valid ∧
      board.dimensions = [2, 2] ∧ board.cells.length = ([2, 2] : List Nat).prod ∧
      ∀ c ∈ board.cells, c.state = Board__Cell__State.COVERED ∧ c.mine = false ∧
        c.neighbour_mine_amount = 0 :=
  ⟨(C12_board__init []).1 rfl, (C12_board__init [3, 0]).2.1 (by decide),
    (C12_board__init [2, 2]).2.2 (by decide) (by decide) (by decide)⟩

/-! ## Coordinates out of bounds -/

/-- With equal indices `board__uncover_cell` acts alike whenever the cell is
a mine or has a non-zero count (the coordinate itself is only used by the
cascade). -/
theorem board__uncover_cell_same_index {board : Board} {coord x : List Nat}
    (e : board__coord_to_index board x = board__coord_to_index board coord)
    (h : (board.cell (board__coord_to_index board coord)).mine = true ∨
      (board.cell (board__coord_to_index board coord)).neighbour_mine_amount ≠ 0) :
    board__uncover_cell board coord = board__uncover_cell board x := by
  unfold board__uncover_cell
  simp only [e]
  by_cases hm : (board.cell (board__coord_to_index board coord)).mine = true
  · simp only [hm, if_true]
  · have ha : (board.cell (board__coord_to_index board coord)).neighbour_mine_amount ≠ 0 := by
      rcases h with h | h
      · exact absurd h hm
      · exact h
    simp only [hm, ha, if_false, Bool.false_eq_true]

/-- C13 counterexample: on the 4 x 4 board the out-of-bounds coordinate
`(4,0)` gets the index 4 without any error, the index of the valid cell
`(0,1)`, and `board__uncover_cell` at `(4,0)` returns Safe after uncovering
that cell; the out-of-bounds coordinate `(2^64 - 1, 1)` gets the index 3, the
index of the valid cell `(3,0)`, because the `size_t` sum wraps. -/
theorem C13_counterexample :
    c3_counted.valid ∧ valid_coord c3_counted.dimensions [4, 0] = false ∧
    board__coord_to_index c3_counted [4, 0] = 4 ∧
    valid_coord c3_counted.dimensions [0, 1] = true ∧
    board__coord_to_index c3_counted [0, 1] = 4 ∧
    board__uncover_cell c3_counted [4, 0]
      = some (true, c3_counted.set_state 4 Board__Cell__State.UNCOVERED) ∧
    ((c3_counted.set_state 4 Board__Cell__State.UNCOVERED).cell_at [0, 1]).state
      = Board__Cell__State.UNCOVERED ∧
    valid_coord c3_counted.dimensions [18446744073709551615, 1] = false ∧
    board__coord_to_index c3_counted [18446744073709551615, 1] = 3 ∧
    valid_coord c3_counted.dimensions [3, 0] = true ∧
    board__coord_to_index c3_counted [3, 0] = 3 :=
  ⟨⟨by decide, by decide, by decide, by decide⟩, by decide, by decide, by decide, by decide,
    by decide!, by decide!, by decide, by decide!, by decide, by decide⟩

/-- C13 (as amended): `board__coord_to_index` has no error result: for every
coordinate it returns the mixed-radix sum reduced modulo `2^64` (`size_t`
arithmetic).  On a valid board a valid coordinate gets the sum itself, which
is below `total_cells` and which no other valid coordinate gets; for a
coordinate that is out of bounds on some axis, whenever the returned index is
below `total_cells` it is the index of a different, valid coordinate, on whose
cell `board__uncover_cell` then acts (for a mine or a cell of non-zero count
exactly as if called with that coordinate). -/
theorem C13_out_of_bounds_unchecked (board : Board) (coord : List Nat) (hv : board.valid) :
    board__coord_to_index board coord
      = (∑ n in Finset.range board.n_dim,
          coord.getD n 0 * (board.dimensions.take n).prod) % 2 ^ 64 ∧
    (valid_coord board.dimensions coord = true →
      board__coord_to_index board coord
        = ∑ n in Finset.range board.n_dim, coord.getD n 0 * (board.dimensions.take n).prod ∧
      board__coord_to_index board coord < board.dimensions.prod ∧
      ∀ x, valid_coord board.dimensions x = true →
        board__coord_to_index board x = board__coord_to_index board coord → x = coord) ∧
    (valid_coord board.dimensions coord = false →
      board__coord_to_index board coord < board.dimensions.prod →
      ∃ x, valid_coord board.dimensions x = true ∧ x ≠ coord ∧
        board__coord_to_index board x = board__coord_to_index board coord ∧
        board.cell_at coord = board.cell_at x ∧
        ((board.cell_at x).mine = true ∨ (board.cell_at x).neighbour_mine_amount ≠ 0 →
          board__uncover_cell board coord = board__uncover_cell board x)) := by
  have hsz := hv.2.2.2
  refine ⟨coord_to_index_loop_eq_sum _ _, fun hc => ⟨coord_to_index_loop_eq_sum_valid hsz hc,
    coord_to_index_lt hsz hc, fun x hx e => coord_to_index_inj hsz hx hc e⟩,
    fun hc hlt => ?_⟩
  have hx := @valid_index_to_coord board.dimensions _ hlt
  have e : board__coord_to_index board
      (index_to_coord_loop board.dimensions (board__coord_to_index board coord))
      = board__coord_to_index board coord := coord_to_index_to_coord hsz hlt
  refine ⟨_, hx, ?_, e, ?_, ?_⟩
  · intro h
    rw [h, hc] at hx
    cases hx
  · simp only [Board.cell_at, e]
  · intro h
    apply board__uncover_cell_same_index e
    simpa only [Board.cell_at, e] using h

/-- C13 witness: the amended statement on the 4 x 4 board at the
out-of-bounds coordinate `(4,0)`. -/
theorem C13_witness :
    ∃ x, valid_coord c3_counted.dimensions x = true ∧ x ≠ [4, 0] ∧
      board__coord_to_index c3_counted x = board__coord_to_index c3_counted [4, 0] ∧
      c3_counted.cell_at [4, 0] = c3_counted.cell_at x ∧
      ((c3_counted.cell_at x).mine = true ∨ (c3_counted.cell_at x).neighbour_mine_amount ≠ 0 →
        board__uncover_cell c3_counted [4, 0] = board__uncover_cell c3_counted x) :=
  (C13_out_of_bounds_unchecked c3_counted [4, 0]
    ⟨by decide, by decide, by decide, by decide⟩).2.2 (by decide) (by decide)

/-! ## The display layout -/

theorem flatten_coord_loop_even {n : Nat} (h : n % 2 = 0) (d : Nat) (ds : List Nat) (c : Nat)
    (cs : List Nat) (x x_mult y y_mult : Nat) :
    flatten_coord_loop n (d :: ds) (c :: cs) x x_mult y y_mult
      = flatten_coord_loop (n + 1) ds cs (x + c * x_mult) (x_mult * d + 1) y y_mult := by
  rw [flatten_coord_loop, if_pos (by rw [Nat.and_one_is_mod]; exact h)]

theorem flatten_coord_loop_odd {n : Nat} (h : n % 2 = 1) (d : Nat) (ds : List Nat) (c : Nat)
    (cs : List Nat) (x x_mult y y_mult : Nat) :
    flatten_coord_loop n (d :: ds) (c :: cs) x x_mult y y_mult
      = flatten_coord_loop (n + 1) ds cs x x_mult (y + c * y_mult) (y_mult * d + 1) := by
  rw [flatten_coord_loop, if_neg (by rw [Nat.and_one_is_mod]; omega)]

theorem flatten_coord_loop_nil_left (n : Nat) (cs : List Nat) (x x_mult y y_mult : Nat) :
    flatten_coord_loop n [] cs x x_mult y y_mult = (x, y) := by
  rw [flatten_coord_loop]
  intro _ _ _ _ h
  cases h

theorem flatten_coord_loop_nil_right (n : Nat) (ds : List Nat) (x x_mult y y_mult : Nat) :
    flatten_coord_loop n ds [] x x_mult y y_mult = (x, y) := by
  rw [flatten_coord_loop]
  intro _ _ _ _ _ h
  cases h

/-- The accumulators `x`, `y` of the loop are added to what the loop computes
from 0. -/
theorem flatten_coord_loop_acc (ds : List Nat) :
    ∀ (n : Nat) (cs : List Nat) (x x_mult y y_mult : Nat),
      flatten_coord_loop n ds cs x x_mult y y_mult
        = (x + (flatten_coord_loop n ds cs 0 x_mult 0 y_mult).1,
           y + (flatten_coord_loop n ds cs 0 x_mult 0 y_mult).2) := by
  induction ds with
  | nil =>
    intro n cs x xm y ym
    simp only [flatten_coord_loop_nil_left, Nat.add_zero]
  | cons d ds ih =>
    intro n cs x xm y ym
    cases cs with
    | nil => simp only [flatten_coord_loop_nil_right, Nat.add_zero]
    | cons c cs =>
      rcases Nat.mod_two_eq_zero_or_one n with h | h
      · rw [flatten_coord_loop_even h, flatten_coord_loop_even h, ih (n + 1) cs (x + c * xm),
          ih (n + 1) cs (0 + c * xm)]
        ext <;> simp only [] <;> omega
      · rw [flatten_coord_loop_odd h, flatten_coord_loop_odd h, ih (n + 1) cs x _ (y + c * ym),
          ih (n + 1) cs 0 _ (0 + c * ym)]
        ext <;> simp only [] <;> omega

theorem flatten_cons_even {n : Nat} (h : n % 2 = 0) (d : Nat) (ds : List Nat) (c : Nat)
    (cs : List Nat) (x_mult y_mult : Nat) :
    flatten_coord_loop n (d :: ds) (c :: cs) 0 x_mult 0 y_mult
      = (c * x_mult + (flatten_coord_loop (n + 1) ds cs 0 (x_mult * d + 1) 0 y_mult).1,
         (flatten_coord_loop (n + 1) ds cs 0 (x_mult * d + 1) 0 y_mult).2) := by
  rw [flatten_coord_loop_even h, flatten_coord_loop_acc]
  ext <;> simp only [] <;> omega

theorem flatten_cons_odd {n : Nat} (h : n % 2 = 1) (d : Nat) (ds : List Nat) (c : Nat)
    (cs : List Nat) (x_mult y_mult : Nat) :
    flatten_coord_loop n (d :: ds) (c :: cs) 0 x_mult 0 y_mult
      = ((flatten_coord_loop (n + 1) ds cs 0 x_mult 0 (y_mult * d + 1)).1,
         c * y_mult + (flatten_coord_loop (n + 1) ds cs 0 x_mult 0 (y_mult * d + 1)).2) := by
  rw [flatten_coord_loop_odd h, flatten_coord_loop_acc]
  ext <;> simp only [] <;> omega

/-- Separation of display positions: on each display axis two valid
coordinates are drawn at the same place or at least one multiplier apart, and
coordinates drawn at the same position are equal. -/
theorem flatten_separated (ds : List Nat) :
    ∀ (n x_mult y_mult : Nat) (cs cs' : List Nat), 1 ≤ x_mult → 1 ≤ y_mult →
      valid_coord ds cs = true → valid_coord ds cs' = true →
      ((flatten_coord_loop n ds cs 0 x_mult 0 y_mult).1
          ≤ (flatten_coord_loop n ds cs' 0 x_mult 0 y_mult).1 →
        (flatten_coord_loop n ds cs 0 x_mult 0 y_mult).1
          = (flatten_coord_loop n ds cs' 0 x_mult 0 y_mult).1 ∨
        (flatten_coord_loop n ds cs 0 x_mult 0 y_mult).1 + x_mult
          ≤ (flatten_coord_loop n ds cs' 0 x_mult 0 y_mult).1) ∧
      ((flatten_coord_loop n ds cs 0 x_mult 0 y_mult).2
          ≤ (flatten_coord_loop n ds cs' 0 x_mult 0 y_mult).2 →
        (flatten_coord_loop n ds cs 0 x_mult 0 y_mult).2
          = (flatten_coord_loop n ds cs' 0 x_mult 0 y_mult).2 ∨
        (flatten_coord_loop n ds cs 0 x_mult 0 y_mult).2 + y_mult
          ≤ (flatten_coord_loop n ds cs' 0 x_mult 0 y_mult).2) ∧
      (flatten_coord_loop n ds cs 0 x_mult 0 y_mult
          = flatten_coord_loop n ds cs' 0 x_mult 0 y_mult → cs = cs') := by
  induction ds with
  | nil =>
    intro n xm ym cs cs' _ _ hv hv'
    cases cs with
    | cons c cs => simp [valid_coord] at hv
    | nil =>
      cases cs' with
      | cons c cs' => simp [valid_coord] at hv'
      | nil => exact ⟨fun _ => Or.inl rfl, fun _ => Or.inl rfl, fun _ => rfl⟩
  | cons d ds ih =>
    intro n xm ym cs cs' hx hy hv hv'
    cases cs with
    | nil => simp [valid_coord] at hv
    | cons c t =>
      cases cs' with
      | nil => simp [valid_coord] at hv'
      | cons c' t' =>
        obtain ⟨hc, hvt⟩ := (valid_coord_cons d ds c t).1 hv
        obtain ⟨hc', hvt'⟩ := (valid_coord_cons d ds c' t').1 hv'
        have key : ∀ m, c * m + m ≤ m * d ∧ c' * m + m ≤ m * d ∧
            (c = c' ∨ c * m + m ≤ c' * m ∨ c' * m + m ≤ c * m) := by
          intro m
          have e1 : (c + 1) * m ≤ d * m := Nat.mul_le_mul_right m hc
          have e2 : (c' + 1) * m ≤ d * m := Nat.mul_le_mul_right m hc'
          have e3 : (c + 1) * m = c * m + m := by ring
          have e4 : (c' + 1) * m = c' * m + m := by ring
          have e5 : d * m = m * d := Nat.mul_comm _ _
          refine ⟨by omega, by omega, ?_⟩
          rcases Nat.lt_trichotomy c c' with hlt | heq | hgt
          · right; left
            have : (c + 1) * m ≤ c' * m := Nat.mul_le_mul_right m hlt
            omega
          · left; exact heq
          · right; right
            have : (c' + 1) * m ≤ c * m := Nat.mul_le_mul_right m hgt
            omega
        rcases Nat.mod_two_eq_zero_or_one n with h | h
        · obtain ⟨a1, a2, a3⟩ := ih (n + 1) (xm * d + 1) ym t t' (by omega) hy hvt hvt'
          obtain ⟨b1, b2, b3⟩ := ih (n + 1) (xm * d + 1) ym t' t (by omega) hy hvt' hvt
          rw [flatten_cons_even h, flatten_cons_even h]
          simp only [Prod.mk.injEq]
          obtain ⟨k1, k2, k3⟩ := key xm
          refine ⟨?_, a2, ?_⟩
          · intro hle
            rcases Nat.le_total (flatten_coord_loop (n + 1) ds t 0 (xm * d + 1) 0 ym).1
              (flatten_coord_loop (n + 1) ds t' 0 (xm * d + 1) 0 ym).1 with ht | ht
            · rcases a1 ht with e | e <;> rcases k3 with q | q | q <;> first
                | (subst q; omega) | omega
            · rcases b1 ht with e | e <;> rcases k3 with q | q | q <;> first
                | (subst q; omega) | omega
          · rintro ⟨e1, e2⟩
            have hfst : (flatten_coord_loop (n + 1) ds t 0 (xm * d + 1) 0 ym).1
                = (flatten_coord_loop (n + 1) ds t' 0 (xm * d + 1) 0 ym).1 := by
              rcases Nat.le_total (flatten_coord_loop (n + 1) ds t 0 (xm * d + 1) 0 ym).1
                (flatten_coord_loop (n + 1) ds t' 0 (xm * d + 1) 0 ym).1 with ht | ht
              · rcases a1 ht with e | e
                · exact e
                · omega
              · rcases b1 ht with e | e
                · exact e.symm
                · omega
            have hcc : c = c' := by
              rcases k3 with q | q | q
              · exact q
              · omega
              · omega
            rw [hcc, a3 (Prod.ext hfst e2)]
        · obtain ⟨a1, a2, a3⟩ := ih (n + 1) xm (ym * d + 1) t t' hx (by omega) hvt hvt'
          obtain ⟨b1, b2, b3⟩ := ih (n + 1) xm (ym * d + 1) t' t hx (by omega) hvt' hvt
          rw [flatten_cons_odd h, flatten_cons_odd h]
          simp only [Prod.mk.injEq]
          obtain ⟨k1, k2, k3⟩ := key ym
          refine ⟨a1, ?_, ?_⟩
          · intro hle
            rcases Nat.le_total (flatten_coord_loop (n + 1) ds t 0 xm 0 (ym * d + 1)).2
              (flatten_coord_loop (n + 1) ds t' 0 xm 0 (ym * d + 1)).2 with ht | ht
            · rcases a2 ht with e | e <;> rcases k3 with q | q | q <;> first
                | (subst q; omega) | omega
            · rcases b2 ht with e | e <;> rcases k3 with q | q | q <;> first
                | (subst q; omega) | omega
          · rintro ⟨e1, e2⟩
            have hsnd : (flatten_coord_loop (n + 1) ds t 0 xm 0 (ym * d + 1)).2
                = (flatten_coord_loop (n + 1) ds t' 0 xm 0 (ym * d + 1)).2 := by
              rcases Nat.le_total (flatten_coord_loop (n + 1) ds t 0 xm 0 (ym * d + 1)).2
                (flatten_coord_loop (n + 1) ds t' 0 xm 0 (ym * d + 1)).2 with ht | ht
              · rcases a2 ht with e | e
                · exact e
                · omega
              · rcases b2 ht with e | e
                · exact e.symm
                · omega
            have hcc : c = c' := by
              rcases k3 with q | q | q
              · exact q
              · omega
              · omega
            rw [hcc, a3 (Prod.ext e1 hsnd)]

/-- C20: on a valid board two valid coordinates with the same display position
`(x, y)` are equal (the arithmetic of `board__flatten_coord` taken without
wrap-around). -/
theorem C20_flatten_coord_injective (board : Board) (c c' : List Nat) (hv : board.valid)
    (hc : valid_coord board.dimensions c = true) (hc' : valid_coord board.dimensions c' = true)
    (h : board__flatten_coord board c = board__flatten_coord board c') : c = c' := by
  have _ := hv
  exact (flatten_separated board.dimensions 0 1 1 c c' (Nat.le_refl 1) (Nat.le_refl 1)
    hc hc').2.2 h

/-- C20 witness: two coordinates of the 4 x 4 board. -/
theorem C20_witness :
    valid_coord c3_counted.dimensions [1, 2] = true ∧
    board__flatten_coord c3_counted [1, 2] = (1, 2) ∧
    ∀ c, valid_coord c3_counted.dimensions c = true →
      board__flatten_coord c3_counted c = board__flatten_coord c3_counted [1, 2] → c = [1, 2] :=
  ⟨by decide, by decide, fun c hc h =>
    C20_flatten_coord_injective c3_counted c [1, 2] ⟨by decide, by decide, by decide, by decide⟩ hc
      (by decide) h⟩

/-! ## One action on a valid board -/

theorem board__uncover_cell_mine {board : Board} {coord : List Nat} (hv : board.valid)
    (hm : (board.cell_at coord).mine = true) :
    ∃ b', board__uncover_cell board coord = some (false, b') ∧
      b'.dimensions = board.dimensions ∧ b'.cells.length = board.cells.length ∧
      ∀ j, b'.cell j = disclose ((board.set_state (board__coord_to_index board coord)
        Board__Cell__State.UNCOVERED).cell j) := by
  obtain ⟨b', h1, h2, h3, h4⟩ := board__uncover_all_mines_cells
    (valid_set_state hv (board__coord_to_index board coord) Board__Cell__State.UNCOVERED)
  refine ⟨b', ?_, h2, by rw [h3, set_state_length], h4⟩
  simp only [Board.cell_at] at hm
  simp only [board__uncover_cell, hm, if_true, h1, Option.map_some']

theorem disclose_state_uncovered {c : Board__Cell}
    (h : c.state = Board__Cell__State.UNCOVERED) :
    (disclose c).state = Board__Cell__State.UNCOVERED := by
  rw [disclose_state, h]
  simp

theorem disclose_state_not_mine {c : Board__Cell} (hm : c.mine = false) :
    (disclose c).state = if c.state = Board__Cell__State.FLAGGED
      then Board__Cell__State.FLAGGED_NOT_MINE else c.state := by
  rw [disclose_state, hm]
  simp

theorem disclose_state_mine {c : Board__Cell} (hm : c.mine = true) :
    (disclose c).state = if c.state = Board__Cell__State.COVERED
      then Board__Cell__State.UNCOVERED else c.state := by
  rw [disclose_state, hm]
  simp

theorem closed_of_eq_dims {b b' : Board} (hd : b'.dimensions = b.dimensions)
    (h : ∀ x, valid_coord b.dimensions x = true →
      (b'.cell (board__coord_to_index b x)).state = Board__Cell__State.UNCOVERED →
      (b'.cell (board__coord_to_index b x)).mine = false →
      (b'.cell (board__coord_to_index b x)).neighbour_mine_amount = 0 →
      ∀ y, moore_neighbour b.dimensions x y = true →
        (b'.cell (board__coord_to_index b y)).state = Board__Cell__State.UNCOVERED) :
    b'.closed := by
  intro x hx hs hm ha y hy
  rw [hd] at hx hy
  rw [cell_at_eq hd] at hs hm ha ⊢
  exact h x hx hs hm ha y hy

/-- What one `board__uncover_cell` at a valid coordinate does, in the form the
invariants of the reachable boards need. -/
theorem board__uncover_cell_step {board : Board} {coord : List Nat} (hv : board.valid)
    (hc : valid_coord board.dimensions coord = true) :
    ∃ safe b', board__uncover_cell board coord = some (safe, b') ∧
      safe = !(board.cell_at coord).mine ∧
      b'.dimensions = board.dimensions ∧ b'.cells.length = board.cells.length ∧
      (∀ j, (b'.cell j).mine = (board.cell j).mine ∧
        (b'.cell j).neighbour_mine_amount = (board.cell j).neighbour_mine_amount) ∧
      (∀ j, (b'.cell j).state = Board__Cell__State.FLAGGED_NOT_MINE →
        (board.cell j).state = Board__Cell__State.FLAGGED_NOT_MINE ∨
          (safe = false ∧ (board.cell j).mine = false)) ∧
      (board.closed → b'.closed) := by
  have hset := Frame.set_state board (board__coord_to_index board coord)
  by_cases hm : (board.cell_at coord).mine = true
  · obtain ⟨b', h1, h2, h3, h4⟩ := board__uncover_cell_mine hv hm
    have hmine : ∀ j, (b'.cell j).mine = (board.cell j).mine := fun j => by
      rw [h4, disclose_mine, set_state_mine]
    refine ⟨false, b', h1, by rw [hm]; rfl, h2, h3,
      fun j => ⟨hmine j, by rw [h4, disclose_amount, set_state_amount]⟩, ?_, ?_⟩
    · intro j hj
      by_cases hmj : (board.cell j).mine = true
      · left
        rw [h4, disclose_state_mine (by rw [set_state_mine]; exact hmj)] at hj
        by_cases q : ((board.set_state (board__coord_to_index board coord)
            Board__Cell__State.UNCOVERED).cell j).state = Board__Cell__State.COVERED
        · rw [if_pos q] at hj; cases hj
        · rw [if_neg q] at hj
          rcases hset.state j with e | e
          · rw [← e]; exact hj
          · rw [e] at hj; cases hj
      · right
        exact ⟨rfl, by simpa using hmj⟩
    · intro hcl
      apply closed_of_eq_dims h2
      intro x hx hs hmn ha y hy
      rw [hmine] at hmn
      have hs1 : ((board.set_state (board__coord_to_index board coord)
          Board__Cell__State.UNCOVERED).cell (board__coord_to_index board x)).state
          = Board__Cell__State.UNCOVERED := by
        rw [h4, disclose_state_not_mine (by rw [set_state_mine]; exact hmn)] at hs
        by_cases q : ((board.set_state (board__coord_to_index board coord)
            Board__Cell__State.UNCOVERED).cell (board__coord_to_index board x)).state
            = Board__Cell__State.FLAGGED
        · rw [if_pos q] at hs; cases hs
        · rw [if_neg q] at hs; exact hs
      have hne : board__coord_to_index board x ≠ board__coord_to_index board coord := by
        intro e
        rw [e] at hmn
        rw [show (board.cell_at coord).mine = (board.cell (board__coord_to_index board coord)).mine
          from rfl, hmn] at hm
        cases hm
      rw [set_state_state, if_neg (fun q => hne q.1)] at hs1
      have ha' : (board.cell (board__coord_to_index board x)).neighbour_mine_amount = 0 := by
        rw [h4, disclose_amount, set_state_amount] at ha; exact ha
      have hy' := hcl x hx hs1 hmn ha' y hy
      rw [h4]
      exact disclose_state_uncovered (hset.uncovered hy')
  · have hm' : (board.cell_at coord).mine = false := by simpa using hm
    by_cases ha0 : (board.cell_at coord).neighbour_mine_amount = 0
    · obtain ⟨b', new, h1, _, F, F1, P⟩ := board__uncover_cell_zero hv hc hm' ha0
      refine ⟨true, b', h1, by rw [hm']; rfl, F.dimensions, F.length,
        fun j => ⟨F.mine j, F.amount j⟩, ?_, ?_⟩
      · intro j hj
        rcases F.state j with e | e
        · left; rw [← e]; exact hj
        · rw [e] at hj; cases hj
      · intro hcl
        apply closed_of_eq_dims F.dimensions
        intro x hx hs hmn ha y hy
        rw [F.mine] at hmn
        rw [F.amount] at ha
        have hyl : y ∈ neighbour_list board.dimensions x := (mem_neighbour_list hx y).2 hy
        by_cases hs1 : state_at board.dimensions (board.set_state
            (board__coord_to_index board coord) Board__Cell__State.UNCOVERED) x
            = Board__Cell__State.UNCOVERED
        · by_cases hxc : x = coord
          · subst hxc
            exact P.closed x (P.root ha0) y hyl
          · have e := state_at_set_state hv.2.2.1 hv.2.2.2 hc hx (b := board)
              Board__Cell__State.UNCOVERED
            rw [if_neg hxc] at e
            have e' : state_at board.dimensions (board.set_state
                (board__coord_to_index board coord) Board__Cell__State.UNCOVERED) x
                = state_at board.dimensions board x := e
            rw [e'] at hs1
            exact F.uncovered (hcl x hx hs1 hmn ha y hy)
        · exact P.closed x (P.complete x hx hs1 hs ha) y hyl
    · have h1 := board__uncover_cell_nonzero hm' ha0
      refine ⟨true, _, h1, by rw [hm']; rfl, hset.dimensions, hset.length,
        fun j => ⟨hset.mine j, hset.amount j⟩, ?_, ?_⟩
      · intro j hj
        rcases hset.state j with e | e
        · left; rw [← e]; exact hj
        · rw [e] at hj; cases hj
      · intro hcl
        apply closed_of_eq_dims hset.dimensions
        intro x hx hs hmn ha y hy
        rw [hset.mine] at hmn
        rw [hset.amount] at ha
        have hne : board__coord_to_index board x ≠ board__coord_to_index board coord := by
          intro e
          rw [e] at ha
          exact ha0 ha
        rw [set_state_state, if_neg (fun q => hne q.1)] at hs
        exact hset.uncovered (hcl x hx hs hmn ha y hy)

/-- States under the flag toggle: a cell keeps its state, or goes from one of
`COVERED`, `FLAGGED` to the other. -/
theorem toggle_flag_state (board : Board) (coord : List Nat) (j : Nat) :
    ((toggle_flag board coord).cell j).state = (board.cell j).state ∨
    (((board.cell j).state = Board__Cell__State.COVERED ∨
        (board.cell j).state = Board__Cell__State.FLAGGED) ∧
      (((toggle_flag board coord).cell j).state = Board__Cell__State.COVERED ∨
        ((toggle_flag board coord).cell j).state = Board__Cell__State.FLAGGED)) := by
  rcases toggle_flag_cases board coord with ⟨h, e⟩ | ⟨h, e⟩ | ⟨_, _, e⟩
  · rw [e, set_state_state]
    by_cases q : j = board__coord_to_index board coord ∧
        board__coord_to_index board coord < board.cells.length
    · rw [if_pos q, q.1]
      right
      exact ⟨Or.inr h, Or.inl rfl⟩
    · rw [if_neg q]; left; rfl
  · rw [e, set_state_state]
    by_cases q : j = board__coord_to_index board coord ∧
        board__coord_to_index board coord < board.cells.length
    · rw [if_pos q, q.1]
      right
      exact ⟨Or.inl h, Or.inr rfl⟩
    · rw [if_neg q]; left; rfl
  · rw [e]; left; rfl

theorem toggle_flag_uncovered_iff (board : Board) (coord : List Nat) (j : Nat) :
    ((toggle_flag board coord).cell j).state = Board__Cell__State.UNCOVERED ↔
      (board.cell j).state = Board__Cell__State.UNCOVERED := by
  rcases toggle_flag_state board coord j with e | ⟨h1 | h1, h2 | h2⟩
  · rw [e]
  all_goals simp [h1, h2]

theorem toggle_flag_closed {board : Board} (coord : List Nat) (h : board.closed) :
    (toggle_flag board coord).closed := by
  obtain ⟨f1, _, f3, _⟩ := toggle_flag_frame board coord
  apply closed_of_eq_dims f1
  intro x hx hs hm ha y hy
  rw [toggle_flag_uncovered_iff] at hs ⊢
  rw [(f3 _).1] at hm
  rw [(f3 _).2] at ha
  exact h x hx hs hm ha y hy

/-- On a valid board the cascade returns and keeps the frame. -/
theorem board__uncover_zero_neighbour_cells_frame {board : Board} {coord : List Nat}
    (hv : board.valid) (hc : valid_coord board.dimensions coord = true) :
    ∃ b', board__uncover_zero_neighbour_cells board coord = some b' ∧ Frame board b' := by
  obtain ⟨⟨b0, log0⟩, h0⟩ := cascade_terminates (b := board) [] hv.2.2.1 hv.2.2.2 hc (Nat.le_refl _)
  have hfuel := cascade_fuel_enough hv.2.2.1
  refine ⟨b0, ?_, (cascade_frame _).1 _ _ _ _ _ h0⟩
  rw [board__uncover_zero_neighbour_cells, (uncover_zero_eq_cascade _).1,
    cascade_fuel_mono hfuel h0]
  rfl

/-- Every run of actions at valid coordinates returns; it keeps validity, the
dimensions, the mine flags and counts, and the two invariants. -/
theorem play_spec : ∀ (moves : List Move) (board : Board) (lost : Bool), board.valid →
    (∀ m ∈ moves, valid_coord board.dimensions m.coord = true) →
    ∃ b' lost', play board lost moves = some (b', lost') ∧ b'.valid ∧
      b'.dimensions = board.dimensions ∧
      (∀ j, (b'.cell j).mine = (board.cell j).mine ∧
        (b'.cell j).neighbour_mine_amount = (board.cell j).neighbour_mine_amount) ∧
      ((∀ j, (board.cell j).state = Board__Cell__State.FLAGGED_NOT_MINE →
          (board.cell j).mine = false ∧ lost = true) →
        ∀ j, (b'.cell j).state = Board__Cell__State.FLAGGED_NOT_MINE →
          (b'.cell j).mine = false ∧ lost' = true) ∧
      (board.closed → b'.closed) := by
  intro moves
  induction moves with
  | nil =>
    intro board lost hv _
    exact ⟨board, lost, rfl, hv, rfl, fun j => ⟨rfl, rfl⟩, fun h => h, fun h => h⟩
  | cons m ms ih =>
    intro board lost hv hm
    have hms : ∀ a ∈ ms, valid_coord board.dimensions a.coord = true :=
      fun a ha => hm a (List.mem_cons_of_mem _ ha)
    cases m with
    | uncover c =>
      have hc : valid_coord board.dimensions c = true :=
        hm (Move.uncover c) (List.mem_cons_self _ _)
      obtain ⟨safe, b1, h1, _, hd, hl, hma, hfnm, hcl⟩ := board__uncover_cell_step hv hc
      have hv1 : b1.valid := ⟨by rw [hd]; exact hv.1, by rw [hd]; exact hv.2.1, by
        rw [hl, hd]; exact hv.2.2.1, by rw [hd]; exact hv.2.2.2⟩
      obtain ⟨b', lost', p1, p2, p3, p4, p5, p6⟩ := ih b1 (lost || !safe) hv1
        (by rw [hd]; exact hms)
      refine ⟨b', lost', ?_, p2, by rw [p3, hd], fun j => ⟨by rw [(p4 j).1, (hma j).1], by
        rw [(p4 j).2, (hma j).2]⟩, ?_, fun h => p6 (hcl h)⟩
      · simp only [play, h1]
        exact p1
      · intro hinv
        apply p5
        intro j hj
        rcases hfnm j hj with e | ⟨e1, e2⟩
        · obtain ⟨q1, q2⟩ := hinv j e
          exact ⟨by rw [(hma j).1]; exact q1, by rw [q2]; rfl⟩
        · exact ⟨by rw [(hma j).1]; exact e2, by rw [e1]; simp⟩
    | toggle c =>
      obtain ⟨f1, f2, f3, _⟩ := toggle_flag_frame board c
      have hv1 : (toggle_flag board c).valid := ⟨by rw [f1]; exact hv.1, by
        rw [f1]; exact hv.2.1, by rw [f2, f1]; exact hv.2.2.1, by rw [f1]; exact hv.2.2.2⟩
      obtain ⟨b', lost', p1, p2, p3, p4, p5, p6⟩ := ih (toggle_flag board c) lost hv1
        (by rw [f1]; exact hms)
      refine ⟨b', lost', ?_, p2, by rw [p3, f1], fun j => ⟨by rw [(p4 j).1, (f3 j).1], by
        rw [(p4 j).2, (f3 j).2]⟩, ?_, fun h => p6 (toggle_flag_closed c h)⟩
      · simp only [play]
        exact p1
      · intro hinv
        apply p5
        intro j hj
        rcases toggle_flag_state board c j with e | ⟨_, e | e⟩
        · rw [e] at hj
          obtain ⟨q1, q2⟩ := hinv j hj
          exact ⟨by rw [(f3 j).1]; exact q1, q2⟩
        · rw [e] at hj; cases hj
        · rw [e] at hj; cases hj

/-! ## The board after the set-up sequence -/

theorem board__init_some {dimensions : List Nat} {board : Board}
    (h : board__init dimensions = some board)
    (hsz : dimensions.prod * sizeof_Board__Cell < 2 ^ 64) :
    board = ⟨dimensions, List.replicate dimensions.prod default⟩ ∧
      dimensions ≠ [] ∧ ∀ d ∈ dimensions, 1 ≤ d := by
  have hne : dimensions ≠ [] := by
    intro e
    rw [e] at h
    cases h
  have hpos : ∀ d ∈ dimensions, 1 ≤ d := by
    intro d hd
    rcases Nat.eq_zero_or_pos d with e | e
    · rw [e] at hd
      rw [board__init_zero_mem hd] at h
      cases h
    · exact e
  rw [board__init_eq hne hpos hsz] at h
  exact ⟨(Option.some.inj h).symm, hne, hpos⟩

theorem board__randomize_keeps {RAND_MAX : Nat} {board : Board} {mine_amount : Nat}
    {rs : List Nat} {r : Nat} {board' : Board} {rs' : List Nat}
    (h : board__randomize RAND_MAX board mine_amount rs = Except.ok (r, board', rs')) :
    board'.dimensions = board.dimensions ∧ board'.cells.length = board.cells.length ∧
    ∀ j, (board'.cell j).state = (board.cell j).state := by
  obtain ⟨_, hb, hl⟩ := board__randomize_ok h
  obtain ⟨_, _, h3, _⟩ := randomize_loop_spec RAND_MAX _ _ _ _ _ _ _ hl
  exact ⟨by rw [hb], h3.length_eq.symm, fun j => (forall₂_keeps_getD h3 j).1⟩

theorem compute_counted {b0 board : Board} (hv : b0.valid)
    (h : board__compute_neighbour_values b0 = some board) :
    board.valid ∧ board.dimensions = b0.dimensions ∧ board.counted ∧
    ∀ j, (board.cell j).mine = (b0.cell j).mine ∧ (board.cell j).state = (b0.cell j).state := by
  obtain ⟨b', hb', hd', hl', hcells⟩ := board__compute_neighbour_values_cells hv
  rw [h] at hb'
  obtain rfl := Option.some.inj hb'
  refine ⟨⟨by rw [hd']; exact hv.1, by rw [hd']; exact hv.2.1, by rw [hl', hd']; exact hv.2.2.1,
      by rw [hd']; exact hv.2.2.2⟩,
    hd', ?_, fun j => ⟨(hcells j).1, (hcells j).2.1⟩⟩
  intro x hx
  rw [hd'] at hx
  have h1 := (hcells (board__coord_to_index b0 x)).2.2 (coord_to_index_lt hv.2.2.2 hx)
  rw [cell_at_eq hd', h1, (hcells _).1]
  simp only [board__coord_to_index, index_to_coord_to_index hv.2.2.2 hx, hd']
  congr 1
  apply List.countP_congr
  intro y _
  rw [cell_at_eq hd' y, (hcells _).1]
  rfl

/-- The board the set-up sequence returns is valid, has the requested
dimensions, computed counts and only `COVERED` cells. -/
theorem new_game_spec {RAND_MAX : Nat} {dimensions : List Nat} {mine_amount : Nat}
    {rs : List Nat} {board : Board} (hsz : dimensions.prod * sizeof_Board__Cell < 2 ^ 64)
    (h : new_game RAND_MAX dimensions mine_amount rs = some board) :
    board.valid ∧ board.dimensions = dimensions ∧ board.counted ∧
    ∀ j, (board.cell j).state = Board__Cell__State.COVERED := by
  cases hi : board__init dimensions with
  | none => simp only [new_game, hi, reduceCtorEq] at h
  | some b0 =>
    simp only [new_game, hi] at h
    obtain ⟨rfl, hne, hpos⟩ := board__init_some hi hsz
    cases hr : board__randomize RAND_MAX
        (Board.mk dimensions (List.replicate dimensions.prod default)) mine_amount rs with
    | error e => simp only [hr, reduceCtorEq] at h
    | ok res =>
      obtain ⟨r, b1, rs'⟩ := res
      simp only [hr] at h
      obtain ⟨k1, k2, k3⟩ := board__randomize_keeps hr
      have hv1 : b1.valid := ⟨by rw [k1]; exact hne, by rw [k1]; exact hpos, by
        rw [k2, k1]; simp, by rw [k1]; exact prod_lt_of_size_lt hsz⟩
      obtain ⟨c1, c2, c3, c4⟩ := compute_counted hv1 h
      refine ⟨c1, by rw [c2, k1], c3, fun j => ?_⟩
      rw [(c4 j).2, k3, cell_replicate_default]
      rfl

theorem display_code_isSome {c : Board__Cell}
    (h : c.state = Board__Cell__State.FLAGGED_NOT_MINE → c.mine = false) :
    (display_code c).isSome = true := by
  rcases c with ⟨a, m, s⟩
  cases m <;> cases s <;> simp [display_code] at h ⊢

/-- C15: from the board the set-up sequence of `main` returns (dimensions whose
byte count `product * sizeof(struct Board__Cell)` is below `2^64`), every
sequence of `board__uncover_cell` and flag-toggle calls at valid coordinates
runs through, and in the board it reaches every
cell in state `FLAGGED_NOT_MINE` is not a mine, so the display-code mapping
yields a code without failing an assertion, and a cell is `FLAGGED_NOT_MINE`
only if some `board__uncover_cell` of the sequence returned `false` (Loss). -/
theorem C15_flagged_not_mine_invariant (RAND_MAX : Nat) (dimensions : List Nat)
    (mine_amount : Nat) (rs : List Nat) (board : Board) (moves : List Move)
    (hsz : dimensions.prod * sizeof_Board__Cell < 2 ^ 64)
    (hnew : new_game RAND_MAX dimensions mine_amount rs = some board)
    (hmoves : ∀ m ∈ moves, valid_coord dimensions m.coord = true) :
    ∃ board' lost, play board false moves = some (board', lost) ∧
      ∀ x, valid_coord dimensions x = true →
        ((board'.cell_at x).state = Board__Cell__State.FLAGGED_NOT_MINE →
          (board'.cell_at x).mine = false ∧ lost = true) ∧
        (display_code (board'.cell_at x)).isSome = true := by
  obtain ⟨hv, hd, _, hcov⟩ := new_game_spec hsz hnew
  obtain ⟨b', lost', p1, _, _, _, p5, _⟩ := play_spec moves board false hv
    (by rw [hd]; exact hmoves)
  have hinv := p5 (fun j hj => by rw [hcov j] at hj; cases hj)
  exact ⟨b', lost', p1, fun x _ => ⟨fun hx => hinv _ hx,
    display_code_isSome (fun hx => (hinv _ hx).1)⟩⟩

/-- C15 witness: the 4 x 4 game with its mine at `(0,0)`; a flag on `(1,1)`,
then the mine is uncovered. -/
theorem C15_witness :
    ∃ board' lost,
      play c3_counted false [Move.toggle [1, 1], Move.uncover [0, 0]] = some (board', lost) ∧
      ∀ x, valid_coord [4, 4] x = true →
        ((board'.cell_at x).state = Board__Cell__State.FLAGGED_NOT_MINE →
          (board'.cell_at x).mine = false ∧ lost = true) ∧
        (display_code (board'.cell_at x)).isSome = true :=
  C15_flagged_not_mine_invariant 32767 [4, 4] 1 [0] c3_counted
    [Move.toggle [1, 1], Move.uncover [0, 0]] (by decide) (by decide!) (by decide)

/-- C16: on a valid board and at a valid coordinate `board__uncover_cell`,
`board__uncover_zero_neighbour_cells` and `board__uncover_all_mines` return,
and they and the flag toggle leave `n_dim`, the dimensions, the number of
cells and the mine flag and neighbour count of every cell unchanged. -/
theorem C16_reveal_frame (board : Board) (coord : List Nat) (hv : board.valid)
    (hc : valid_coord board.dimensions coord = true) :
    (∃ safe b', board__uncover_cell board coord = some (safe, b') ∧ keeps_layout board b') ∧
    (∃ b', board__uncover_zero_neighbour_cells board coord = some b' ∧
      keeps_layout board b') ∧
    (∃ b', board__uncover_all_mines board = some b' ∧ keeps_layout board b') ∧
    keeps_layout board (toggle_flag board coord) := by
  refine ⟨?_, ?_, ?_, ?_⟩
  · obtain ⟨safe, b', h1, _, hd, hl, hma, _⟩ := board__uncover_cell_step hv hc
    exact ⟨safe, b', h1, by rw [Board.n_dim, hd]; rfl, hd, hl, hma⟩
  · obtain ⟨b', h1, F⟩ := board__uncover_zero_neighbour_cells_frame hv hc
    exact ⟨b', h1, by rw [Board.n_dim, F.dimensions]; rfl, F.dimensions, F.length,
      fun j => ⟨F.mine j, F.amount j⟩⟩
  · obtain ⟨b', h1, hd, hl, h4⟩ := board__uncover_all_mines_cells hv
    exact ⟨b', h1, by rw [Board.n_dim, hd]; rfl, hd, hl,
      fun j => ⟨by rw [h4, disclose_mine], by rw [h4, disclose_amount]⟩⟩
  · obtain ⟨f1, f2, f3, _⟩ := toggle_flag_frame board coord
    exact ⟨by rw [Board.n_dim, f1]; rfl, f1, f2, f3⟩

/-- C16 witness: the 4 x 4 board with the mine at `(0,0)`, at `(3,3)`. -/
theorem C16_witness :
    (∃ safe b', board__uncover_cell c3_counted [3, 3] = some (safe, b') ∧
      keeps_layout c3_counted b') ∧
    (∃ b', board__uncover_zero_neighbour_cells c3_counted [3, 3] = some b' ∧
      keeps_layout c3_counted b') ∧
    (∃ b', board__uncover_all_mines c3_counted = some b' ∧ keeps_layout c3_counted b') ∧
    keeps_layout c3_counted (toggle_flag c3_counted [3, 3]) :=
  C16_reveal_frame c3_counted [3, 3] ⟨by decide, by decide, by decide, by decide⟩ (by decide)

/-- C19: from the board the set-up sequence of `main` returns (dimensions whose
byte count `product * sizeof(struct Board__Cell)` is below `2^64`), every
sequence of `board__uncover_cell` and flag-toggle calls at valid coordinates
runs through, and in the board it reaches every
`UNCOVERED` non-mine cell of count 0 has all its in-bounds Moore neighbours
`UNCOVERED`. -/
theorem C19_closure_invariant (RAND_MAX : Nat) (dimensions : List Nat)
    (mine_amount : Nat) (rs : List Nat) (board : Board) (moves : List Move)
    (hsz : dimensions.prod * sizeof_Board__Cell < 2 ^ 64)
    (hnew : new_game RAND_MAX dimensions mine_amount rs = some board)
    (hmoves : ∀ m ∈ moves, valid_coord dimensions m.coord = true) :
    ∃ board' lost, play board false moves = some (board', lost) ∧
      ∀ x, valid_coord dimensions x = true →
        (board'.cell_at x).state = Board__Cell__State.UNCOVERED →
        (board'.cell_at x).mine = false → (board'.cell_at x).neighbour_mine_amount = 0 →
        ∀ y, moore_neighbour dimensions x y = true →
          (board'.cell_at y).state = Board__Cell__State.UNCOVERED := by
  obtain ⟨hv, hd, _, hcov⟩ := new_game_spec hsz hnew
  obtain ⟨b', lost', p1, _, p3, _, _, p6⟩ := play_spec moves board false hv
    (by rw [hd]; exact hmoves)
  have hcl : b'.closed := p6 (fun x _ hs => by
    rw [Board.cell_at, hcov] at hs; cases hs)
  refine ⟨b', lost', p1, fun x hx hs hm ha y hy => ?_⟩
  have hd' : b'.dimensions = dimensions := by rw [p3, hd]
  exact hcl x (by rw [hd']; exact hx) hs hm ha y (by rw [hd']; exact hy)

/-- C19 witness: the 4 x 4 game with its mine at `(0,0)`; a flag on `(2,2)`,
the cascade from `(3,3)`, the flag toggled again, then `(1,1)` uncovered. -/
theorem C19_witness :
    ∃ board' lost,
      play c3_counted false
        [Move.toggle [2, 2], Move.uncover [3, 3], Move.toggle [2, 2], Move.uncover [1, 1]]
        = some (board', lost) ∧
      ∀ x, valid_coord [4, 4] x = true →
        (board'.cell_at x).state = Board__Cell__State.UNCOVERED →
        (board'.cell_at x).mine = false → (board'.cell_at x).neighbour_mine_amount = 0 →
        ∀ y, moore_neighbour [4, 4] x y = true →
          (board'.cell_at y).state = Board__Cell__State.UNCOVERED :=
  C19_closure_invariant 32767 [4, 4] 1 [0] c3_counted
    [Move.toggle [2, 2], Move.uncover [3, 3], Move.toggle [2, 2], Move.uncover [1, 1]]
    (by decide) (by decide!) (by decide)

/-! ## The range of `randint` -/

/-- Outside the special case `n + 1 == RAND_MAX` every value `randint`
returns lies in `[0, n)`. -/
theorem randint_in_range {RAND_MAX : Nat} {n : Int} {rs rs' : List Nat} {v : Int}
    (h1 : 1 ≤ n) (h2 : n ≤ (RAND_MAX : Int)) (h3 : n + 1 ≠ (RAND_MAX : Int))
    (h : randint RAND_MAX n rs = Except.ok (v, rs')) : 0 ≤ v ∧ v < n := by
  refine ⟨randint_nonneg h, ?_⟩
  rw [randint_eq_while rs h1 h2 h3] at h
  exact randint_while_lt h1 h

/-- C17 (evaluation at the failing input): with `RAND_MAX = 32767` and
`n = 32766`, so that `1 <= n <= RAND_MAX` and `n + 1 == RAND_MAX`, `randint`
returns the value of `rand()` as it is; for `rand() = 32767` and for
`rand() = 32766`, both in `[0, RAND_MAX]`, the result is not below `n`, and the
rank `randint(n) + 1` that `board__randomize` uses is 32768, resp. 32767, above
the 32766 open cells. -/
theorem C17_randint_out_of_range :
    (1 : Int) ≤ 32766 ∧ (32766 : Int) ≤ ((32767 : Nat) : Int) ∧
    randint 32767 32766 [32767] = Except.ok (32767, []) ∧ ¬ ((32767 : Int) < 32766) ∧
    randint 32767 32766 [32766] = Except.ok (32766, []) ∧ ¬ ((32766 : Int) < 32766) ∧
    ¬ (((32767 : Int) + 1).toNat ≤ 32766) ∧
    place_mine_loop (List.replicate 32766 (default : Board__Cell))
      (((32767 : Int) + 1).toNat) = none := by
  refine ⟨by norm_num, by norm_num, ?_, by norm_num, ?_, by norm_num, by decide, ?_⟩
  · unfold randint
    rw [if_pos (by norm_num)]
    rfl
  · unfold randint
    rw [if_pos (by norm_num)]
    rfl
  · apply place_mine_loop_none
    rw [open_count_replicate_default]
    decide

/-! ## A safe uncover and the mines -/

theorem counted_zero_neighbours {board : Board} (hcnt : board.counted) {x : List Nat}
    (hx : valid_coord board.dimensions x = true) (hm : (board.cell_at x).mine = false)
    (ha : (board.cell_at x).neighbour_mine_amount = 0) :
    ∀ y ∈ neighbour_list board.dimensions x, (board.cell_at y).mine = false := by
  have h := hcnt x hx
  rw [ha, hm] at h
  simp only [Bool.false_eq_true, if_false] at h
  have h' := (List.countP_eq_zero.1 h.symm)
  intro y hy
  simpa using h' y hy

/-- On a board with computed counts every cell reached from a non-mine cell of
count 0 through yielded neighbours of count 0 is not a mine. -/
theorem reach_not_mine {board : Board} (hcnt : board.counted) {c e : List Nat}
    (hc : valid_coord board.dimensions c = true) (hm : (board.cell_at c).mine = false)
    (ha : (board.cell_at c).neighbour_mine_amount = 0)
    (h : list_reach board.dimensions (fun j => (board.cell j).neighbour_mine_amount) c e) :
    valid_coord board.dimensions e = true ∧ (board.cell_at e).mine = false ∧
      (board.cell_at e).neighbour_mine_amount = 0 := by
  induction h with
  | refl => exact ⟨hc, hm, ha⟩
  | tail _ hstep ih =>
    obtain ⟨i1, i2, i3⟩ := ih
    exact ⟨neighbour_list_valid i1 hstep.1, counted_zero_neighbours hcnt i1 i2 i3 _ hstep.1,
      hstep.2⟩

/-- C18: on a board whose counts were produced by
`board__compute_neighbour_values` (from a valid board), `board__uncover_cell`
at a valid coordinate of a non-mine cell returns Safe; every mine cell keeps
its state, every cell whose state changed is not a mine, and when the cascade
runs (count 0) every coordinate it expands is a valid coordinate of a non-mine
cell of count 0. -/
theorem C18_safe_uncover_spares_mines (b0 board : Board) (coord : List Nat) (hv0 : b0.valid)
    (hcomp : board__compute_neighbour_values b0 = some board)
    (hc : valid_coord board.dimensions coord = true)
    (hm : (board.cell_at coord).mine = false) :
    ∃ b', board__uncover_cell board coord = some (true, b') ∧
      b'.dimensions = board.dimensions ∧
      (∀ x, valid_coord board.dimensions x = true → (board.cell_at x).mine = true →
        (b'.cell_at x).state = (board.cell_at x).state ∧ (b'.cell_at x).mine = true) ∧
      (∀ x, valid_coord board.dimensions x = true →
        (b'.cell_at x).state ≠ (board.cell_at x).state → (board.cell_at x).mine = false) ∧
      ((board.cell_at coord).neighbour_mine_amount = 0 →
        ∃ log, uncover_zero_fuel (board.set_state (board__coord_to_index board coord)
            Board__Cell__State.UNCOVERED).cascade_fuel
          (board.set_state (board__coord_to_index board coord) Board__Cell__State.UNCOVERED)
          [] coord = some (b', log) ∧
        ∀ e ∈ log, valid_coord board.dimensions e = true ∧ (board.cell_at e).mine = false ∧
          (board.cell_at e).neighbour_mine_amount = 0) := by
  obtain ⟨hv, _, hcnt, _⟩ := compute_counted hv0 hcomp
  have hset := Frame.set_state board (board__coord_to_index board coord)
  have key : ∀ b' : Board, b'.dimensions = board.dimensions →
      (∀ j, (b'.cell j).mine = (board.cell j).mine) →
      (∀ x, valid_coord board.dimensions x = true →
        (b'.cell_at x).state ≠ (board.cell_at x).state → (board.cell_at x).mine = false) →
      (∀ x, valid_coord board.dimensions x = true → (board.cell_at x).mine = true →
        (b'.cell_at x).state = (board.cell_at x).state ∧ (b'.cell_at x).mine = true) := by
    intro b' hd hmine hch x hx hmx
    refine ⟨?_, by rw [cell_at_eq hd, hmine]; exact hmx⟩
    by_contra hne
    rw [hch x hx hne] at hmx
    cases hmx
  by_cases ha0 : (board.cell_at coord).neighbour_mine_amount = 0
  · obtain ⟨b', new, h1, h2, F, F1, P⟩ := board__uncover_cell_zero hv hc hm ha0
    have hnew : ∀ e ∈ new, valid_coord board.dimensions e = true ∧
        (board.cell_at e).mine = false ∧ (board.cell_at e).neighbour_mine_amount = 0 :=
      fun e he => reach_not_mine hcnt hc hm ha0 (P.reached e he).2
    have hch : ∀ x, valid_coord board.dimensions x = true →
        (b'.cell_at x).state ≠ (board.cell_at x).state → (board.cell_at x).mine = false := by
      intro x hx hne
      by_cases hxc : x = coord
      · rw [hxc]; exact hm
      · have e := state_at_set_state hv.2.2.1 hv.2.2.2 hc hx (b := board) Board__Cell__State.UNCOVERED
        rw [if_neg hxc] at e
        have e' : state_at board.dimensions (board.set_state
            (board__coord_to_index board coord) Board__Cell__State.UNCOVERED) x
            = (board.cell_at x).state := e
        rw [state_at_eq F.dimensions x] at hne
        rw [← e'] at hne
        obtain ⟨z, hz, hxz⟩ := P.sound x hx hne
        obtain ⟨z1, z2, z3⟩ := hnew z hz
        exact counted_zero_neighbours hcnt z1 z2 z3 x hxz
    exact ⟨b', h1, F.dimensions, key b' F.dimensions F.mine hch, hch,
      fun _ => ⟨new, h2, hnew⟩⟩
  · have h1 := board__uncover_cell_nonzero hm ha0
    have hch : ∀ x, valid_coord board.dimensions x = true →
        ((board.set_state (board__coord_to_index board coord)
          Board__Cell__State.UNCOVERED).cell_at x).state ≠ (board.cell_at x).state →
        (board.cell_at x).mine = false := by
      intro x hx hne
      by_cases hxc : x = coord
      · rw [hxc]; exact hm
      · exfalso
        apply hne
        rw [cell_at_eq hset.dimensions, set_state_state, if_neg]
        · rfl
        · intro q
          exact hxc (coord_to_index_inj hv.2.2.2 hx hc q.1)
    exact ⟨_, h1, hset.dimensions, key _ hset.dimensions hset.mine hch, hch,
      fun h => absurd h ha0⟩

/-- C18 witness: the 4 x 4 board with the mine at `(0,0)` and its computed
counts, uncovered at `(3,3)`. -/
theorem C18_witness :
    ∃ b', board__uncover_cell c3_counted [3, 3] = some (true, b') ∧
      b'.dimensions = c3_counted.dimensions ∧
      (∀ x, valid_coord c3_counted.dimensions x = true → (c3_counted.cell_at x).mine = true →
        (b'.cell_at x).state = (c3_counted.cell_at x).state ∧ (b'.cell_at x).mine = true) ∧
      (∀ x, valid_coord c3_counted.dimensions x = true →
        (b'.cell_at x).state ≠ (c3_counted.cell_at x).state →
        (c3_counted.cell_at x).mine = false) ∧
      ((c3_counted.cell_at [3, 3]).neighbour_mine_amount = 0 →
        ∃ log, uncover_zero_fuel (c3_counted.set_state (board__coord_to_index c3_counted [3, 3])
            Board__Cell__State.UNCOVERED).cascade_fuel
          (c3_counted.set_state (board__coord_to_index c3_counted [3, 3])
            Board__Cell__State.UNCOVERED)
          [] [3, 3] = some (b', log) ∧
        ∀ e ∈ log, valid_coord c3_counted.dimensions e = true ∧
          (c3_counted.cell_at e).mine = false ∧
          (c3_counted.cell_at e).neighbour_mine_amount = 0) :=
  C18_safe_uncover_spares_mines c3_mined c3_counted [3, 3] ⟨by decide, by decide, by decide, by decide⟩
    (by decide!) (by decide) (by decide)

end Mines
